import Mathlib

/-!
Verification of the graph-analytics core of the SAPIENZA-ADM-HW5 repository:
max-flow / min-cut partitioning (functions/airline_partitioning.py),
all-co-optimal-paths Dijkstra and centralities (functions_Q2.py),
Girvan-Newman community detection (functions/q5_1.py),
label propagation (functions/q5_2.py) and
point-to-point Dijkstra routing (functions/single_source_shortest_path.py).

Python dicts are embedded as insertion-ordered association lists, Python
sets as insertion-ordered duplicate-free lists, the integer-valued flight
distances as `ℤ` (with `WithTop ℤ` where the code manipulates
`float('Inf')`), real-valued scores as `ℚ`, and while
loops / recursion as fuel-indexed recursion where `none` marks fuel
exhaustion.  Python exceptions are embedded with `Except PyErr`.
-/

set_option linter.unusedVariables false

namespace HW5

/-- Python runtime errors that the embedded code can raise. -/
inductive PyErr where
  | keyError
  | indexError
  | zeroDiv
  | valueError
deriving DecidableEq, Repr

/-- a Python call that may diverge (`none`) or raise (`some (.error e)`). -/
abbrev Step (α : Type) := Option (Except PyErr α)

/-- Python dict, embedded as an insertion-ordered association list. -/
abbrev Dict (α β : Type) := List (α × β)

/-- dict lookup, `d[k]` / `d.get(k)`: first matching key. -/
def dget? {α β : Type} [DecidableEq α] (d : Dict α β) (k : α) : Option β :=
  match d with
  | [] => none
  | (k', v) :: rest => if k = k' then some v else dget? rest k

/-- dict lookup with default, `d.get(k, dflt)`. -/
def dgetD {α β : Type} [DecidableEq α] (d : Dict α β) (k : α) (dflt : β) : β :=
  (dget? d k).getD dflt

/-- dict assignment `d[k] = v`: update in place if the key exists, else append
(Python dicts preserve insertion order). -/
def dset {α β : Type} [DecidableEq α] (d : Dict α β) (k : α) (v : β) : Dict α β :=
  match d with
  | [] => [(k, v)]
  | (k', v') :: rest => if k = k' then (k, v) :: rest else (k', v') :: dset rest k v

/-- `list(d.keys())`. -/
def dkeys {α β : Type} (d : Dict α β) : List α := d.map Prod.fst

/-- Python `set.add`, preserving first-insertion order. -/
def sadd {α : Type} [DecidableEq α] (s : List α) (x : α) : List α :=
  if x ∈ s then s else s ++ [x]

/-! ## airline_partitioning.py : graph construction and Ford-Fulkerson -/

/-- capacity / residual graph: dict from node to dict of neighbor capacities. -/
abbrev CapGraph := Dict ℕ (Dict ℕ ℤ)

/-- graph construction loop of `airline_partitioning` (lines 18-24):
`graph[origin][destination] = distance`, creating `graph[origin]` on demand. -/
def buildGraph (rows : List (ℕ × ℕ × ℤ)) : CapGraph :=
  rows.foldl (fun g r =>
    let g1 := if (dget? g r.1).isSome then g else dset g r.1 []
    dset g1 r.1 (dset (dgetD g1 r.1 []) r.2.1 r.2.2)) []

/-- inner neighbor loop of `bfs` inside `ford_fulkerson` (lines 53-58):
scan the residual neighbors of `current`, recording parents and enqueueing,
returning early with `true` when the sink is assigned a parent. -/
def bfsNbrs (sink current : ℕ) (visited : List ℕ) :
    List (ℕ × ℤ) → Dict ℕ ℕ → List ℕ → Dict ℕ ℕ × List ℕ × Bool
  | [], parent, queue => (parent, queue, false)
  | (nb, cap) :: rest, parent, queue =>
    if nb ∉ visited ∧ 0 < cap then
      let parent' := dset parent nb current
      if nb = sink then (parent', queue, true)
      else bfsNbrs sink current visited rest parent' (queue ++ [nb])
    else bfsNbrs sink current visited rest parent queue

/-- the `while queue:` loop of `bfs` (lines 50-58); `visited` doubles as the
list of popped nodes in pop order. -/
def bfsLoop (R : CapGraph) (sink : ℕ) :
    ℕ → List ℕ → List ℕ → Dict ℕ ℕ → Option (Bool × Dict ℕ ℕ × List ℕ)
  | _, [], visited, parent => some (false, parent, visited)
  | 0, _ :: _, _, _ => none
  | fuel + 1, current :: rest, visited, parent =>
    let visited' := sadd visited current
    match bfsNbrs sink current visited' (dgetD R current []) parent rest with
    | (parent', _, true) => some (true, parent', visited')
    | (parent', queue', false) => bfsLoop R sink fuel queue' visited' parent'

/-- `bfs(source, sink)` of `ford_fulkerson` (lines 45-59): clears the parent
map and searches for an augmenting path. -/
def bfs (R : CapGraph) (source sink : ℕ) (fuel : ℕ) :
    Option (Bool × Dict ℕ ℕ × List ℕ) :=
  bfsLoop R sink fuel [source] [] []

/-- the parent chain walked by both `while s != source` loops (lines 65-76),
materialized from `source` to `v`; a missing parent is Python's KeyError. -/
def buildPath (parent : Dict ℕ ℕ) (src : ℕ) : ℕ → ℕ → Step (List ℕ)
  | 0, _ => none
  | fuel + 1, v =>
    if v = src then some (.ok [src])
    else
      match dget? parent v with
      | none => some (.error .keyError)
      | some u =>
        match buildPath parent src fuel u with
        | some (.ok p) => some (.ok (p ++ [v]))
        | other => other

/-- consecutive pairs of a node list. -/
def pathPairs : List ℕ → List (ℕ × ℕ)
  | [] => []
  | [_] => []
  | u :: v :: rest => (u, v) :: pathPairs (v :: rest)

/-- `path_flow = min(path_flow, residual_graph[parent[s]][s])` fold
(lines 64-68), starting from `float('Inf')`; missing keys raise KeyError. -/
def bottleneck (R : CapGraph) : List (ℕ × ℕ) → WithTop ℤ → Except PyErr (WithTop ℤ)
  | [], acc => .ok acc
  | (u, v) :: rest, acc =>
    match dget? R u with
    | none => .error .keyError
    | some inner =>
      match dget? inner v with
      | none => .error .keyError
      | some c => bottleneck R rest (min acc (c : WithTop ℤ))

/-- the residual update loop (lines 71-76): for each edge `(u, v)` on the
augmenting path, `residual_graph[u][v] -= path_flow` and
`residual_graph[v][u] = residual_graph.get(v, {}).get(u, 0) + path_flow`. -/
def augmentUpdate (f : ℤ) : CapGraph → List (ℕ × ℕ) → Except PyErr CapGraph
  | R, [] => .ok R
  | R, (u, v) :: rest =>
    match dget? R u with
    | none => .error .keyError
    | some inner =>
      match dget? inner v with
      | none => .error .keyError
      | some c =>
        let R1 := dset R u (dset inner v (c - f))
        match dget? R1 v with
        | none => .error .keyError
        | some innerV =>
          augmentUpdate f (dset R1 v (dset innerV u (dgetD innerV u 0 + f))) rest

/-- one iteration of the `while bfs(source, sink):` loop (lines 62-78):
find an augmenting path, compute its bottleneck, push flow.  Both Python
loops walk the parent chain from the sink towards the source, hence the
reversed pair list.  `.ok none` means the loop guard failed (done). -/
def augmentOnce (R : CapGraph) (F : WithTop ℤ) (source sink : ℕ) (fuel : ℕ) :
    Step (Option (CapGraph × WithTop ℤ)) :=
  match bfs R source sink fuel with
  | none => none
  | some (false, _, _) => some (.ok none)
  | some (true, parent, _) =>
    match buildPath parent source fuel sink with
    | none => none
    | some (.error e) => some (.error e)
    | some (.ok p) =>
      let pairs := (pathPairs p).reverse
      match bottleneck R pairs ⊤ with
      | .error e => some (.error e)
      | .ok pf =>
        match augmentUpdate (WithTop.untop' 0 pf) R pairs with
        | .error e => some (.error e)
        | .ok R2 => some (.ok (some (R2, F + pf)))

/-- the augmenting loop of `ford_fulkerson`, with fuel. -/
def ffLoop (source sink innerFuel : ℕ) : ℕ → CapGraph → WithTop ℤ → Step (WithTop ℤ × CapGraph)
  | 0, _, _ => none
  | fuel + 1, R, F =>
    match augmentOnce R F source sink innerFuel with
    | none => none
    | some (.error e) => some (.error e)
    | some (.ok none) => some (.ok (F, R))
    | some (.ok (some (R2, F2))) => ffLoop source sink innerFuel fuel R2 F2

/-- `ford_fulkerson(graph, source, sink)` (lines 27-80): the residual graph
starts as a copy of the graph and the flow at 0. -/
def ford_fulkerson (g : CapGraph) (source sink : ℕ) (fuel : ℕ) :
    Step (WithTop ℤ × CapGraph) :=
  ffLoop source sink fuel fuel g 0

/-- the neighbor loop of the recursive `dfs` of `find_min_cut`
(lines 99-102): visit each unvisited neighbor with positive residual,
threading the visited set; `visitF` is the recursive visit at the
remaining recursion depth. -/
def dfsNbrs (visitF : ℕ → List ℕ → Option (List ℕ)) :
    List (ℕ × ℤ) → List ℕ → Option (List ℕ)
  | [], visited => some visited
  | (nb, cap) :: rest, visited =>
    if nb ∉ visited ∧ 0 < cap then
      match visitF nb visited with
      | none => none
      | some visited2 => dfsNbrs visitF rest visited2
    else dfsNbrs visitF rest visited

/-- the recursive `dfs` of `find_min_cut` (lines 97-102): mark `node`
visited, then visit each unvisited neighbor with positive residual. -/
def dfsVisit (R : CapGraph) : ℕ → ℕ → List ℕ → Option (List ℕ)
  | 0, _, _ => none
  | fuel + 1, node, visited =>
    dfsNbrs (dfsVisit R fuel) (dgetD R node []) (sadd visited node)

/-- `find_min_cut(graph, source, residual_graph)` (lines 83-111): DFS over
positive residual capacities from the source, then gather the original edges
leaving the visited set. -/
def find_min_cut (g : CapGraph) (source : ℕ) (R : CapGraph) (fuel : ℕ) :
    Option (List (ℕ × ℕ)) :=
  match dfsVisit R fuel source [] with
  | none => none
  | some visited =>
    some ((g.map (fun ui => ui.2.filterMap (fun vc =>
      if ui.1 ∈ visited ∧ vc.1 ∉ visited then some (ui.1, vc.1) else none))).flatten)

/-- `airline_partitioning(flights_df)` (lines 5-161, plotting omitted):
build the graph, pick the first two keys as source and sink (IndexError when
fewer than two exist), run Ford-Fulkerson and derive the cut. -/
def airline_partitioning (rows : List (ℕ × ℕ × ℤ)) (fuel : ℕ) :
    Step (List (ℕ × ℕ) × CapGraph × CapGraph) :=
  let graph := buildGraph rows
  let airports := dkeys graph
  match airports.get? 0, airports.get? 1 with
  | none, _ => some (.error .indexError)
  | some _, none => some (.error .indexError)
  | some source, some sink =>
    match ford_fulkerson graph source sink fuel with
    | none => none
    | some (.error e) => some (.error e)
    | some (.ok (_, R)) =>
      match find_min_cut graph source R fuel with
      | none => none
      | some cut => some (.ok (cut, graph, R))

/-! ## C4 : empty / single-node input error behavior -/

/-- C4: on an empty flight list (empty graph) and on a single-origin flight
list (one graph key), `airline_partitioning` raises a plain IndexError while
selecting `airports[0]` / `airports[1]`; it does not raise an explicit
`EmptyGraphError`-like structural error. -/
theorem airline_partitioning_empty_input_indexError :
    ∀ fuel : ℕ,
      airline_partitioning [] fuel = some (.error .indexError) ∧
      airline_partitioning [(0, 1, 5)] fuel = some (.error .indexError) := by
  intro fuel
  exact ⟨rfl, rfl⟩

/-! ## Undirected graphs (networkx.Graph) for q5_1.py and q5_2.py -/

/-- an undirected graph: node list plus neighbor function, modelling a
`networkx.Graph` (loopless, as built from distinct-endpoint flight edges). -/
structure UGraph where
  nodes : List ℕ
  adj : ℕ → List ℕ

/-- wellformedness of the `networkx.Graph` model: distinct nodes, neighbor
lists without duplicates contained in the node list, symmetric adjacency,
no self loops, and no neighbors outside the node list. -/
def UGraph.wf (g : UGraph) : Prop :=
  g.nodes.Nodup ∧
  (∀ u, (g.adj u).Nodup) ∧
  (∀ u v, v ∈ g.adj u → u ∈ g.nodes ∧ v ∈ g.nodes) ∧
  (∀ u v, v ∈ g.adj u ↔ u ∈ g.adj v) ∧
  (∀ u, u ∉ g.adj u)

/-! ## q5_2.py : label propagation -/

/-- Python `set(l)` as a first-occurrence-ordered duplicate-free list. -/
def pyset (l : List ℕ) : List ℕ := l.foldl (fun acc x => sadd acc x) []

/-- Python `max(cands, key=key)`: the first element of maximal key
(`max` keeps the earlier element on ties); `none` on an empty list
(Python would raise ValueError). -/
def pymaxBy (key : ℕ → ℕ) : List ℕ → Option ℕ
  | [] => none
  | x :: rest => some (rest.foldl (fun best y => if key best < key y then y else best) x)

/-- the body of the `for node in graph.nodes():` loop of `propagate_labels`
(q5_2.py lines 27-37) for one node: collect neighbor labels, take the most
frequent one, update the node's label if it differs; the Bool reports
whether the label changed (`labels[x]` embedded as lookup with default 0;
`initialize_labels` keys every node, so the default is never consulted on
wellformed input). -/
def labelStep (g : UGraph) (labels : Dict ℕ ℕ) (node : ℕ) : Dict ℕ ℕ × Bool :=
  let nbLabels := (g.adj node).map (fun nb => dgetD labels nb 0)
  if nbLabels = [] then (labels, false)
  else
    match pymaxBy (fun x => nbLabels.count x) (pyset nbLabels) with
    | none => (labels, false)
    | some mf =>
      if dgetD labels node 0 ≠ mf then (dset labels node mf, true)
      else (labels, false)

/-- one full sweep of `propagate_labels` (q5_2.py lines 26-37): visit the
nodes in order, accumulating the `changed` flag. -/
def labelSweepGo (g : UGraph) : List ℕ → Dict ℕ ℕ → Bool → Dict ℕ ℕ × Bool
  | [], labels, changed => (labels, changed)
  | node :: rest, labels, changed =>
    match labelStep g labels node with
    | (labels2, ch) => labelSweepGo g rest labels2 (changed || ch)

/-- `propagate_labels(graph, labels)` (q5_2.py lines 14-38): repeat full
sweeps until one changes nothing; fuel bounds the number of sweeps. -/
def propagate_labels (g : UGraph) : ℕ → Dict ℕ ℕ → Option (Dict ℕ ℕ)
  | 0, _ => none
  | fuel + 1, labels =>
    match labelSweepGo g g.nodes labels false with
    | (labels2, false) => some labels2
    | (labels2, true) => propagate_labels g fuel labels2

lemma labelStep_cases (g : UGraph) (labels : Dict ℕ ℕ) (node : ℕ) :
    labelStep g labels node = (labels, false) ∨ (labelStep g labels node).2 = true := by
  simp only [labelStep]
  split
  · exact Or.inl rfl
  · split
    · exact Or.inl rfl
    · split
      · exact Or.inr rfl
      · exact Or.inl rfl

lemma labelSweepGo_true_snd (g : UGraph) (ns : List ℕ) (labels : Dict ℕ ℕ) :
    (labelSweepGo g ns labels true).2 = true := by
  induction ns generalizing labels with
  | nil => rfl
  | cons n rest ih =>
    simp only [labelSweepGo]
    exact ih _

lemma labelSweepGo_unchanged (g : UGraph) (ns : List ℕ) (labels : Dict ℕ ℕ)
    (h : (labelSweepGo g ns labels false).2 = false) :
    (labelSweepGo g ns labels false).1 = labels := by
  induction ns generalizing labels with
  | nil => rfl
  | cons n rest ih =>
    simp only [labelSweepGo] at h ⊢
    rcases labelStep_cases g labels n with hc | hc
    · rw [hc] at h ⊢
      exact ih labels h
    · rcases hEq : labelStep g labels n with ⟨labels2, ch⟩
      rw [hEq] at h hc
      simp only at hc
      subst hc
      simp only [Bool.or_true] at h
      rw [labelSweepGo_true_snd] at h
      exact absurd h (by simp)

/-- C8: label propagation is idempotent once converged.  If a full sweep
changes no label of `labels`, then `propagate_labels` (with any positive
sweep budget) returns `labels` unchanged. -/
theorem propagate_labels_idempotent (g : UGraph) (labels : Dict ℕ ℕ)
    (hconv : (labelSweepGo g g.nodes labels false).2 = false) :
    ∀ fuel : ℕ, 1 ≤ fuel → propagate_labels g fuel labels = some labels := by
  intro fuel hfuel
  obtain ⟨fuel', rfl⟩ : ∃ k, fuel = k + 1 := ⟨fuel - 1, by omega⟩
  show propagate_labels g (fuel' + 1) labels = some labels
  simp only [propagate_labels]
  have h1 := labelSweepGo_unchanged g g.nodes labels hconv
  rcases hEq : labelSweepGo g g.nodes labels false with ⟨labels2, flag⟩
  rw [hEq] at h1 hconv
  simp at h1 hconv
  subst h1 hconv
  rfl

/-- C8 witness: the two-node path graph 0 - 1 with both labels 5 is
converged, and propagation returns it unchanged. -/
theorem propagate_labels_idempotent_witness :
    (labelSweepGo ⟨[0, 1], fun x => if x = 0 then [1] else if x = 1 then [0] else []⟩
        [0, 1] [(0, 5), (1, 5)] false).2 = false ∧
      propagate_labels ⟨[0, 1], fun x => if x = 0 then [1] else if x = 1 then [0] else []⟩
        3 [(0, 5), (1, 5)] = some [(0, 5), (1, 5)] := by
  refine ⟨by decide, ?_⟩
  exact propagate_labels_idempotent _ _ (by decide) 3 (by omega)

/-! ## functions_Q2.py : directed weighted graph model and PageRank -/

/-- the `networkx` directed graph as used by functions_Q2.py: a node list
(`graph.nodes`) and an edge-weight function (`graph.edges[u, v]['weight']`,
only ever read on pairs present in the adjacency list). -/
structure DGraph where
  nodes : List ℕ
  w : ℕ → ℕ → ℤ

/-- Python division, which raises ZeroDivisionError on a zero denominator. -/
def pydiv (a b : ℚ) : Except PyErr ℚ :=
  if b = 0 then .error .zeroDiv else .ok (a / b)

/-- the `for source in adjacency_list:` accumulation inside `compute_pagerank`
(functions_Q2.py lines 128-136): for every source whose adjacency list
contains `node`, add `pagerank[source] * (weight / total_outgoing_weight)`. -/
def incomingSum (g : DGraph) (pr : ℕ → ℚ) (node : ℕ) :
    List (ℕ × List ℕ) → ℚ → Except PyErr ℚ
  | [], acc => .ok acc
  | (source, nbrs) :: rest, acc =>
    if node ∈ nbrs then
      match pydiv (g.w source node : ℚ) (((nbrs.map (fun nb => g.w source nb)).sum : ℤ) : ℚ) with
      | .error e => .error e
      | .ok q => incomingSum g pr node rest (acc + pr source * q)
    else incomingSum g pr node rest acc

/-- the `for node in nodes:` loop of one PageRank iteration
(functions_Q2.py lines 125-139), building `new_pagerank`. -/
def pagerankNodesGo (g : DGraph) (adjacency : Dict ℕ (List ℕ)) (pr : ℕ → ℚ)
    (d : ℚ) (N : ℕ) : List ℕ → (ℕ → ℚ) → Except PyErr (ℕ → ℚ)
  | [], newpr => .ok newpr
  | node :: rest, newpr =>
    match incomingSum g pr node adjacency 0 with
    | .error e => .error e
    | .ok s =>
      pagerankNodesGo g adjacency pr d N rest
        (Function.update newpr node ((1 - d) / (N : ℚ) + d * s))

/-- the `for iteration in range(max_iterations):` loop of `compute_pagerank`
(functions_Q2.py lines 124-146) with its convergence break. -/
def pagerankLoop (g : DGraph) (adjacency : Dict ℕ (List ℕ)) (d tol : ℚ)
    (nodes : List ℕ) (N : ℕ) : ℕ → (ℕ → ℚ) → Except PyErr (ℕ → ℚ)
  | 0, pr => .ok pr
  | k + 1, pr =>
    match pagerankNodesGo g adjacency pr d N nodes pr with
    | .error e => .error e
    | .ok newpr =>
      if nodes.all (fun node => |newpr node - pr node| < tol) then .ok newpr
      else pagerankLoop g adjacency d tol nodes N k newpr

/-- `compute_pagerank(graph, adjacency_list, damping_factor, max_iterations,
tolerance)` (functions_Q2.py lines 111-148): uniform initialization over the
adjacency-list keys, then power iteration. -/
def compute_pagerank (g : DGraph) (adjacency : Dict ℕ (List ℕ))
    (d : ℚ) (maxIter : ℕ) (tol : ℚ) : Except PyErr (ℕ → ℚ) :=
  let nodes := dkeys adjacency
  let N := nodes.length
  pagerankLoop g adjacency d tol nodes N maxIter (fun _ => 1 / (N : ℚ))

/-- a node of the adjacency list whose (nonempty) neighbor list has zero
total outgoing weight: exactly the situation in which the division
`weight / total_outgoing_weight` raises. -/
def zeroOutSource (g : DGraph) (adjacency : Dict ℕ (List ℕ)) (node : ℕ) : Prop :=
  ∃ p ∈ adjacency, node ∈ p.2 ∧ ((p.2.map (fun nb => g.w p.1 nb)).sum) = (0 : ℤ)

instance (g : DGraph) (adjacency : Dict ℕ (List ℕ)) (node : ℕ) :
    Decidable (zeroOutSource g adjacency node) := by
  unfold zeroOutSource
  infer_instance

lemma incomingSum_ok (g : DGraph) (pr : ℕ → ℚ) (node : ℕ)
    (l : List (ℕ × List ℕ))
    (h : ∀ p ∈ l, node ∈ p.2 → ((p.2.map (fun nb => g.w p.1 nb)).sum) ≠ 0) :
    ∀ acc, ∃ q, incomingSum g pr node l acc = .ok q := by
  induction l with
  | nil => exact fun acc => ⟨acc, rfl⟩
  | cons p rest ih =>
    intro acc
    obtain ⟨source, nbrs⟩ := p
    simp only [incomingSum]
    by_cases hm : node ∈ nbrs
    · rw [if_pos hm]
      have hne := h (source, nbrs) (by simp) hm
      have hne2 : (((nbrs.map (fun nb => g.w source nb)).sum : ℤ) : ℚ) ≠ 0 :=
        Int.cast_ne_zero.mpr hne
      rw [pydiv, if_neg hne2]
      exact ih (fun p hp hmem => h p (List.mem_cons_of_mem _ hp) hmem) _
    · rw [if_neg hm]
      exact ih (fun p hp hmem => h p (List.mem_cons_of_mem _ hp) hmem) acc

lemma incomingSum_err (g : DGraph) (pr : ℕ → ℚ) (node : ℕ)
    (l : List (ℕ × List ℕ))
    (h : ∃ p ∈ l, node ∈ p.2 ∧ ((p.2.map (fun nb => g.w p.1 nb)).sum) = 0) :
    ∀ acc, incomingSum g pr node l acc = .error .zeroDiv := by
  induction l with
  | nil => simp at h
  | cons p rest ih =>
    intro acc
    obtain ⟨source, nbrs⟩ := p
    simp only [incomingSum]
    by_cases hm : node ∈ nbrs
    · rw [if_pos hm]
      by_cases hz : ((nbrs.map (fun nb => g.w source nb)).sum) = (0 : ℤ)
      · rw [pydiv, if_pos (show (((nbrs.map (fun nb => g.w source nb)).sum : ℤ) : ℚ) = 0 from by
          exact_mod_cast congrArg (fun z : ℤ => (z : ℚ)) hz)]
      · rw [pydiv, if_neg (show (((nbrs.map (fun nb => g.w source nb)).sum : ℤ) : ℚ) ≠ 0 from
          Int.cast_ne_zero.mpr hz)]
        refine ih ?_ _
        rcases h with ⟨q, hq, hmem, hsum⟩
        rcases List.mem_cons.mp hq with rfl | hq'
        · exact absurd hsum hz
        · exact ⟨q, hq', hmem, hsum⟩
    · rw [if_neg hm]
      refine ih ?_ acc
      rcases h with ⟨q, hq, hmem, hsum⟩
      rcases List.mem_cons.mp hq with rfl | hq'
      · exact absurd hmem hm
      · exact ⟨q, hq', hmem, hsum⟩

lemma pagerankNodesGo_ok (g : DGraph) (adjacency : Dict ℕ (List ℕ)) (pr : ℕ → ℚ)
    (d : ℚ) (N : ℕ) (ns : List ℕ)
    (h : ∀ p ∈ adjacency, p.2 ≠ [] → ((p.2.map (fun nb => g.w p.1 nb)).sum) ≠ 0) :
    ∀ newpr, ∃ f, pagerankNodesGo g adjacency pr d N ns newpr = .ok f := by
  induction ns with
  | nil => exact fun newpr => ⟨newpr, rfl⟩
  | cons node rest ih =>
    intro newpr
    simp only [pagerankNodesGo]
    obtain ⟨q, hq⟩ := incomingSum_ok g pr node adjacency
      (fun p hp hmem => h p hp (List.ne_nil_of_mem hmem)) 0
    rw [hq]
    exact ih _

lemma pagerankNodesGo_err (g : DGraph) (adjacency : Dict ℕ (List ℕ)) (pr : ℕ → ℚ)
    (d : ℚ) (N : ℕ) (ns : List ℕ)
    (h : ∃ node ∈ ns, zeroOutSource g adjacency node) :
    ∀ newpr, pagerankNodesGo g adjacency pr d N ns newpr = .error .zeroDiv := by
  induction ns with
  | nil => simp at h
  | cons node rest ih =>
    intro newpr
    simp only [pagerankNodesGo]
    rcases hq : incomingSum g pr node adjacency 0 with e | q
    · rcases h with ⟨x, hx, hzero⟩
      rcases List.mem_cons.mp hx with rfl | hx'
      · rw [incomingSum_err g pr x adjacency hzero 0] at hq
        cases hq
        rfl
      · by_cases hzn : zeroOutSource g adjacency node
        · rw [incomingSum_err g pr node adjacency hzn 0] at hq
          cases hq
          rfl
        · exfalso
          obtain ⟨q', hq'⟩ := incomingSum_ok g pr node adjacency
            (fun p hp hmem => fun hsum => hzn ⟨p, hp, hmem, hsum⟩) 0
          rw [hq'] at hq
          cases hq
    · rcases h with ⟨x, hx, hzero⟩
      rcases List.mem_cons.mp hx with rfl | hx'
      · rw [incomingSum_err g pr x adjacency hzero 0] at hq
        cases hq
      · exact ih ⟨x, hx', hzero⟩ _

lemma pagerankLoop_ok (g : DGraph) (adjacency : Dict ℕ (List ℕ))
    (d tol : ℚ) (N : ℕ)
    (h : ∀ p ∈ adjacency, p.2 ≠ [] → ((p.2.map (fun nb => g.w p.1 nb)).sum) ≠ 0) :
    ∀ maxIter pr0, ∃ f,
      pagerankLoop g adjacency d tol (dkeys adjacency) N maxIter pr0 = .ok f := by
  intro maxIter
  induction maxIter with
  | zero => exact fun pr0 => ⟨pr0, rfl⟩
  | succ k ih =>
    intro pr0
    simp only [pagerankLoop]
    obtain ⟨f, hf⟩ := pagerankNodesGo_ok g adjacency pr0 d N (dkeys adjacency) h pr0
    simp only [hf]
    split
    · exact ⟨f, rfl⟩
    · exact ih f

lemma compute_pagerank_ok (g : DGraph) (adjacency : Dict ℕ (List ℕ))
    (d tol : ℚ) (maxIter : ℕ)
    (h : ∀ p ∈ adjacency, p.2 ≠ [] → ((p.2.map (fun nb => g.w p.1 nb)).sum) ≠ 0) :
    ∃ f, compute_pagerank g adjacency d maxIter tol = .ok f := by
  unfold compute_pagerank
  exact pagerankLoop_ok g adjacency d tol (dkeys adjacency).length h maxIter _

/-- C3 counterexample: the two-node graph 0 → 1 (weight 1) where node 1 has
no outgoing edges.  Node 1 has zero total outgoing weight, yet
`compute_pagerank` (default parameters) does not raise: the division is
evaluated only for sources whose adjacency list is nonempty. -/
theorem compute_pagerank_dangling_node_no_error :
    ((dgetD [(0, [1]), (1, ([] : List ℕ))] 1 []).map
        (fun nb => (DGraph.mk [0, 1] (fun u v => if u = 0 ∧ v = 1 then 1 else 0)).w 1 nb)).sum
        = 0 ∧
    ∃ f, compute_pagerank (DGraph.mk [0, 1] (fun u v => if u = 0 ∧ v = 1 then 1 else 0))
        [(0, [1]), (1, ([] : List ℕ))] (85 / 100) 100 (1 / 1000000) = .ok f := by
  constructor
  · rfl
  · apply compute_pagerank_ok
    decide

/-- C3 amended: `compute_pagerank` raises ZeroDivisionError exactly when
some node's *nonempty* adjacency list has zero total outgoing weight (for
`max_iterations ≥ 1`, on an adjacency list whose neighbors are all keys);
a node with zero outgoing weight because it has no outgoing edges triggers
no division at all. -/
theorem compute_pagerank_zero_weight_division_error (g : DGraph)
    (adjacency : Dict ℕ (List ℕ)) (d tol : ℚ) (maxIter : ℕ)
    (hwf : ∀ p ∈ adjacency, ∀ x ∈ p.2, x ∈ dkeys adjacency)
    (hz : ∃ p ∈ adjacency, p.2 ≠ [] ∧ ((p.2.map (fun nb => g.w p.1 nb)).sum) = 0)
    (hk : 1 ≤ maxIter) :
    compute_pagerank g adjacency d maxIter tol = .error .zeroDiv := by
  obtain ⟨k, rfl⟩ : ∃ k, maxIter = k + 1 := ⟨maxIter - 1, by omega⟩
  unfold compute_pagerank
  simp only [pagerankLoop]
  obtain ⟨p, hp, hne, hsum⟩ := hz
  obtain ⟨x, hx⟩ : ∃ x, x ∈ p.2 := List.exists_mem_of_ne_nil p.2 hne
  rw [pagerankNodesGo_err g adjacency _ d _ (dkeys adjacency)
    ⟨x, hwf p hp x hx, p, hp, hx, hsum⟩ _]

/-- C3 amended witness: graph 0 ↔ 1 where the edge 1 → 0 has weight 0, so
node 1 has an outgoing edge but zero total outgoing weight; pagerank
raises ZeroDivisionError. -/
theorem compute_pagerank_zero_weight_division_error_witness :
    compute_pagerank (DGraph.mk [0, 1] (fun u v => if u = 0 ∧ v = 1 then 1 else 0))
        [(0, [1]), (1, [0])] (85 / 100) 100 (1 / 1000000) = .error .zeroDiv := by
  apply compute_pagerank_zero_weight_division_error
  · decide
  · exact ⟨(1, [0]), by decide, by decide, by decide⟩
  · omega

/-! ## Dict lemmas -/

section DictLemmas

variable {α β : Type} [DecidableEq α]

lemma dget?_dset_self (d : Dict α β) (k : α) (v : β) :
    dget? (dset d k v) k = some v := by
  induction d with
  | nil => simp [dset, dget?]
  | cons p rest ih =>
    obtain ⟨k', v'⟩ := p
    by_cases h : k = k'
    · subst h
      simp [dset, dget?]
    · simp [dset, dget?, Ne.symm h, h, ih]

lemma dget?_dset_ne (d : Dict α β) (k k' : α) (v : β) (h : k' ≠ k) :
    dget? (dset d k v) k' = dget? d k' := by
  induction d with
  | nil => simp [dset, dget?, h]
  | cons p rest ih =>
    obtain ⟨k0, v0⟩ := p
    by_cases hk : k = k0
    · subst hk
      simp [dset, dget?, h]
    · by_cases hk' : k' = k0
      · subst hk'
        simp [dset, dget?, hk]
      · simp [dset, dget?, hk, hk', ih]

lemma dgetD_dset (d : Dict α β) (k k' : α) (v : β) (dflt : β) :
    dgetD (dset d k v) k' dflt = if k' = k then v else dgetD d k' dflt := by
  by_cases h : k' = k
  · subst h
    simp [dgetD, dget?_dset_self]
  · simp [dgetD, dget?_dset_ne d k k' v h, h]

lemma dkeys_dset (d : Dict α β) (k : α) (v : β) :
    dkeys (dset d k v) = if k ∈ dkeys d then dkeys d else dkeys d ++ [k] := by
  induction d with
  | nil => simp [dset, dkeys]
  | cons p rest ih =>
    obtain ⟨k0, v0⟩ := p
    by_cases hk : k = k0
    · subst hk
      simp [dset, dkeys]
    · simp only [dset, if_neg hk, dkeys, List.map_cons] at ih ⊢
      rw [ih]
      simp only [dkeys] at *
      by_cases hmem : k ∈ rest.map Prod.fst
      · simp [hmem, hk]
      · simp [hmem, hk]

lemma dkeys_dset_nodup (d : Dict α β) (k : α) (v : β) (h : (dkeys d).Nodup) :
    (dkeys (dset d k v)).Nodup := by
  rw [dkeys_dset]
  split
  · exact h
  · next hmem =>
      refine List.Nodup.append h (List.nodup_singleton k) ?_
      intro x hx hx'
      simp only [List.mem_singleton] at hx'
      subst hx'
      exact hmem hx

lemma dget?_eq_none_of_not_mem_keys (d : Dict α β) (k : α) (h : k ∉ dkeys d) :
    dget? d k = none := by
  induction d with
  | nil => rfl
  | cons p rest ih =>
    simp only [dkeys, List.map_cons, List.mem_cons] at h
    push_neg at h
    simp only [dget?, if_neg h.1]
    exact ih (by simpa [dkeys] using h.2)

lemma dget?_isSome_iff_mem_keys (d : Dict α β) (k : α) :
    (dget? d k).isSome ↔ k ∈ dkeys d := by
  induction d with
  | nil => simp [dget?, dkeys]
  | cons p rest ih =>
    obtain ⟨k0, v0⟩ := p
    by_cases h : k = k0
    · subst h
      simp [dget?, dkeys]
    · simp [dget?, dkeys, h, ih]

/-- adding `x` to key `k` of a dict built with unique keys. -/
lemma dgetD_dAddTo_pointwise (d : Dict ℕ ℚ) (k v : ℕ) (x : ℚ) :
    dgetD (dset d k (dgetD d k 0 + x)) v 0 =
      dgetD d v 0 + (if v = k then x else 0) := by
  rw [dgetD_dset]
  by_cases h : v = k
  · subst h
    simp
  · simp [h]

end DictLemmas

/-! ## functions_Q2.py : dijkstra_all_paths, all_shortest_paths,
betweenness_centrality -/

/-- lexicographic order on heap entries `(distance, node)`: exactly the
tuple order `heapq` uses for `(new_dist, neighbor)` pairs. -/
def pqLe (a b : ℤ × ℕ) : Prop := a.1 < b.1 ∨ (a.1 = b.1 ∧ a.2 ≤ b.2)

instance (a b : ℤ × ℕ) : Decidable (pqLe a b) := by
  unfold pqLe
  infer_instance

/-- minimal entry of the heap (`heapq` pops the tuple-least element). -/
def pqMin : List (ℤ × ℕ) → Option (ℤ × ℕ)
  | [] => none
  | x :: rest =>
    match pqMin rest with
    | none => some x
    | some m => some (if pqLe x m then x else m)

/-- `heappop`: remove and return the minimal `(distance, node)` entry. -/
def popMin (l : List (ℤ × ℕ)) : Option ((ℤ × ℕ) × List (ℤ × ℕ)) :=
  match pqMin l with
  | none => none
  | some m => some (m, l.erase m)

/-- the `for neighbor in adjacency_list[current_node]:` relaxation loop of
`dijkstra_all_paths` (functions_Q2.py lines 22-31): strict improvement
replaces the neighbor's distance and path set and pushes to the queue;
a tie appends the newly found paths; otherwise nothing happens. -/
def relaxGo (g : DGraph) (current : ℕ) (cd : ℤ) :
    List ℕ → (ℕ → WithTop ℤ) → (ℕ → List (List ℕ)) → List (ℤ × ℕ) →
    (ℕ → WithTop ℤ) × (ℕ → List (List ℕ)) × List (ℤ × ℕ)
  | [], dist, paths, pq => (dist, paths, pq)
  | nb :: rest, dist, paths, pq =>
    let nd := cd + g.w current nb
    if (nd : WithTop ℤ) < dist nb then
      relaxGo g current cd rest (Function.update dist nb (nd : WithTop ℤ))
        (Function.update paths nb ((paths current).map (fun p => p ++ [nb])))
        ((nd, nb) :: pq)
    else if (nd : WithTop ℤ) = dist nb then
      relaxGo g current cd rest dist
        (Function.update paths nb (paths nb ++ (paths current).map (fun p => p ++ [nb])))
        pq
    else relaxGo g current cd rest dist paths pq

/-- the `while priority_queue:` loop of `dijkstra_all_paths`
(functions_Q2.py lines 14-31): pop the least entry, skip it if stale,
otherwise relax all neighbors (`adjacency_list[current]` embedded as lookup
with default `[]`; on wellformed input every popped node is a key). -/
def dijkstraLoop (g : DGraph) (adj : Dict ℕ (List ℕ)) :
    ℕ → List (ℤ × ℕ) → (ℕ → WithTop ℤ) → (ℕ → List (List ℕ)) →
    Option ((ℕ → List (List ℕ)) × (ℕ → WithTop ℤ))
  | _, [], dist, paths => some (paths, dist)
  | 0, _ :: _, _, _ => none
  | fuel + 1, x :: pqrest, dist, paths =>
    match popMin (x :: pqrest) with
    | none => some (paths, dist)
    | some ((cd, cur), rest) =>
      if dist cur < (cd : WithTop ℤ) then dijkstraLoop g adj fuel rest dist paths
      else
        let r := relaxGo g cur cd (dgetD adj cur []) dist paths rest
        dijkstraLoop g adj fuel r.2.2 r.1 r.2.1

/-- `dijkstra_all_paths(source, graph, adjacency_list)` (functions_Q2.py
lines 1-33): distances start at infinity (0 for the source), the source's
path set is `[[source]]`, the queue holds `(0, source)`. -/
def dijkstra_all_paths (source : ℕ) (g : DGraph) (adj : Dict ℕ (List ℕ))
    (fuel : ℕ) : Option ((ℕ → List (List ℕ)) × (ℕ → WithTop ℤ)) :=
  dijkstraLoop g adj fuel [(0, source)]
    (Function.update (fun _ => (⊤ : WithTop ℤ)) source ((0 : ℤ) : WithTop ℤ))
    (Function.update (fun _ => ([] : List (List ℕ))) source [[source]])

/-- `[path for path in target_paths if len(path) > 1]`. -/
def meaningful (tpaths : List (List ℕ)) : List (List ℕ) :=
  tpaths.filter (fun p => 1 < p.length)

/-- the `for target, target_paths in source_paths.items():` loop of
`all_shortest_paths` (functions_Q2.py lines 45-49), which appends one group
of meaningful paths per target that has any. -/
def sourceGroupsOf (g : DGraph) (paths : ℕ → List (List ℕ)) :
    List (List (List ℕ)) :=
  g.nodes.filterMap (fun target =>
    if paths target ≠ [] ∧ (paths target).any (fun p => 1 < p.length) then
      some (meaningful (paths target))
    else none)

/-- the `for source in graph.nodes:` loop of `all_shortest_paths`. -/
def allPathsGo (g : DGraph) (adj : Dict ℕ (List ℕ)) (fuel : ℕ) :
    List ℕ → List (List (List ℕ)) → (ℕ → ℕ → WithTop ℤ) →
    Option (List (List (List ℕ)) × (ℕ → ℕ → WithTop ℤ))
  | [], acc, dists => some (acc, dists)
  | source :: rest, acc, dists =>
    match dijkstra_all_paths source g adj fuel with
    | none => none
    | some (paths, distances) =>
      allPathsGo g adj fuel rest (acc ++ sourceGroupsOf g paths)
        (fun s t => if s = source then distances t else dists s t)

/-- `all_shortest_paths(graph, adjacency_list)` (functions_Q2.py
lines 35-51). -/
def all_shortest_paths (g : DGraph) (adj : Dict ℕ (List ℕ)) (fuel : ℕ) :
    Option (List (List (List ℕ)) × (ℕ → ℕ → WithTop ℤ)) :=
  allPathsGo g adj fuel g.nodes [] (fun _ _ => ⊤)

/-- `path[1:-1]`: the intermediate nodes of a path. -/
def interior (p : List ℕ) : List ℕ := (p.drop 1).dropLast

/-- `d[k] += x` on a defaultdict(float). -/
def dAddTo (d : Dict ℕ ℚ) (k : ℕ) (x : ℚ) : Dict ℕ ℚ :=
  dset d k (dgetD d k 0 + x)

/-- the `node_contributions` accumulation of `betweenness_centrality`
(functions_Q2.py lines 62-67): each occurrence of a node in the interior of
each path of the group adds `1 / path_count`. -/
def groupContribs (pc : ℚ) (grp : List (List ℕ)) : Dict ℕ ℚ :=
  grp.foldl (fun nc p => (interior p).foldl (fun nc2 node => dAddTo nc2 node (1 / pc)) nc) []

/-- `for node, contribution in node_contributions.items(): centrality[node]
+= contribution` (functions_Q2.py lines 69-70). -/
def bcAccum (centrality : Dict ℕ ℚ) (nc : Dict ℕ ℚ) : Dict ℕ ℚ :=
  nc.foldl (fun c p => dAddTo c p.1 p.2) centrality

/-- the final normalization loop `for node in centrality:
centrality[node] /= scale` (functions_Q2.py lines 73-75), which raises
ZeroDivisionError when the scale is zero and the dict is nonempty. -/
def scaleDivGo (scale : ℚ) : List (ℕ × ℚ) → Except PyErr (List (ℕ × ℚ))
  | [] => .ok []
  | (n, v) :: rest =>
    match pydiv v scale with
    | .error e => .error e
    | .ok q =>
      match scaleDivGo scale rest with
      | .error e => .error e
      | .ok r => .ok ((n, q) :: r)

/-- `betweenness_centrality(graph, shortest_paths)` (functions_Q2.py
lines 53-77): accumulate per-group contributions, then divide every score
by `(N - 1) * (N - 2)`. -/
def betweenness_centrality (g : DGraph) (shortest_paths : List (List (List ℕ))) :
    Except PyErr (Dict ℕ ℚ) :=
  let N := g.nodes.length
  let centrality := shortest_paths.foldl
    (fun c grp => bcAccum c (groupContribs (grp.length : ℚ) grp)) []
  scaleDivGo (((N : ℚ) - 1) * ((N : ℚ) - 2)) centrality

/-- the score contributed by one group of co-optimal paths to node `v`
as the claim states it: the number of occurrences of `v` as an intermediate
node, path by path, each weighted by one over the number of co-optimal
paths of the pair. -/
def groupScore (v : ℕ) (grp : List (List ℕ)) : ℚ :=
  ((grp.map (fun p => ((interior p).count v : ℚ))).sum) / (grp.length : ℚ)

/-- the contribution of the source-target pair `(s, t)` to node `v`,
reading the co-optimal path set of the pair off `dijkstra_all_paths`;
pairs with no nontrivial path contribute zero. -/
def pairScore (g : DGraph) (adj : Dict ℕ (List ℕ)) (fuel : ℕ)
    (s t v : ℕ) : ℚ :=
  match dijkstra_all_paths s g adj fuel with
  | none => 0
  | some (paths, _) => groupScore v (meaningful (paths t))

/-! ## C6 : betweenness_centrality matches the per-pair formula -/

lemma dgetD_cons (k : ℕ) (x : ℚ) (rest : Dict ℕ ℚ) (v : ℕ) :
    dgetD ((k, x) :: rest) v 0 = if v = k then x else dgetD rest v 0 := by
  by_cases h : v = k <;> simp [dgetD, dget?, h]

lemma dgetD_nil (v : ℕ) : dgetD ([] : Dict ℕ ℚ) v 0 = 0 := rfl

lemma dgetD_foldl_addTo (l : List ℕ) (x : ℚ) (d0 : Dict ℕ ℚ) (v : ℕ) :
    dgetD (l.foldl (fun d node => dAddTo d node x) d0) v 0 =
      dgetD d0 v 0 + (l.count v : ℚ) * x := by
  induction l generalizing d0 with
  | nil => simp
  | cons a rest ih =>
    rw [List.foldl_cons, ih]
    rw [dAddTo, dgetD_dAddTo_pointwise]
    by_cases h : v = a
    · subst h
      rw [List.count_cons_self, if_pos rfl]
      push_cast
      ring
    · rw [List.count_cons_of_ne h, if_neg h]
      ring

lemma foldl_addTo_nodup (l : List ℕ) (x : ℚ) (d0 : Dict ℕ ℚ)
    (h : (dkeys d0).Nodup) :
    (dkeys (l.foldl (fun d node => dAddTo d node x) d0)).Nodup := by
  induction l generalizing d0 with
  | nil => exact h
  | cons a rest ih =>
    rw [List.foldl_cons]
    exact ih _ (dkeys_dset_nodup _ _ _ h)

lemma groupContribs_fold_nodup (pc : ℚ) (grp : List (List ℕ)) (nc0 : Dict ℕ ℚ)
    (h : (dkeys nc0).Nodup) :
    (dkeys (grp.foldl (fun nc p =>
      (interior p).foldl (fun nc2 node => dAddTo nc2 node (1 / pc)) nc) nc0)).Nodup := by
  induction grp generalizing nc0 with
  | nil => exact h
  | cons p rest ih =>
    rw [List.foldl_cons]
    exact ih _ (foldl_addTo_nodup _ _ _ h)

lemma groupContribs_nodup (pc : ℚ) (grp : List (List ℕ)) :
    (dkeys (groupContribs pc grp)).Nodup :=
  groupContribs_fold_nodup pc grp [] (by simp [dkeys])

lemma dgetD_groupContribs_fold (pc : ℚ) (grp : List (List ℕ)) (nc0 : Dict ℕ ℚ)
    (v : ℕ) :
    dgetD (grp.foldl (fun nc p =>
        (interior p).foldl (fun nc2 node => dAddTo nc2 node (1 / pc)) nc) nc0) v 0 =
      dgetD nc0 v 0 + ((grp.map (fun p => ((interior p).count v : ℚ))).sum) * (1 / pc) := by
  induction grp generalizing nc0 with
  | nil => simp
  | cons p rest ih =>
    rw [List.foldl_cons, ih, dgetD_foldl_addTo]
    rw [List.map_cons, List.sum_cons]
    ring

lemma dgetD_groupContribs (pc : ℚ) (grp : List (List ℕ)) (v : ℕ) :
    dgetD (groupContribs pc grp) v 0 =
      ((grp.map (fun p => ((interior p).count v : ℚ))).sum) * (1 / pc) := by
  unfold groupContribs
  rw [dgetD_groupContribs_fold, dgetD_nil, zero_add]

lemma dgetD_bcAccum (nc : Dict ℕ ℚ) (hnc : (dkeys nc).Nodup) :
    ∀ c v, dgetD (bcAccum c nc) v 0 = dgetD c v 0 + dgetD nc v 0 := by
  induction nc with
  | nil => intro c v; simp [bcAccum, dgetD, dget?]
  | cons p rest ih =>
    intro c v
    obtain ⟨k, x⟩ := p
    have hrest : (dkeys rest).Nodup := (List.nodup_cons.mp hnc).2
    have hknotin : k ∉ dkeys rest := (List.nodup_cons.mp hnc).1
    show dgetD (bcAccum (dAddTo c k x) rest) v 0 = _
    rw [ih hrest, dAddTo, dgetD_dAddTo_pointwise, dgetD_cons]
    by_cases h : v = k
    · subst h
      have : dget? rest v = none := dget?_eq_none_of_not_mem_keys rest v hknotin
      simp [dgetD, this]
    · simp only [if_neg h]
      ring

lemma dgetD_bcFold (groups : List (List (List ℕ))) :
    ∀ c0 v, dgetD (groups.foldl
        (fun c grp => bcAccum c (groupContribs (grp.length : ℚ) grp)) c0) v 0 =
      dgetD c0 v 0 + (groups.map (fun grp => groupScore v grp)).sum := by
  induction groups with
  | nil => intro c0 v; simp
  | cons grp rest ih =>
    intro c0 v
    rw [List.foldl_cons, ih, dgetD_bcAccum _ (groupContribs_nodup _ _),
      dgetD_groupContribs, List.map_cons, List.sum_cons]
    have : groupScore v grp =
        ((grp.map (fun p => ((interior p).count v : ℚ))).sum) * (1 / (grp.length : ℚ)) := by
      rw [groupScore, mul_one_div]
    rw [this]
    ring

lemma scaleDivGo_ok (scale : ℚ) (h : scale ≠ 0) (l : List (ℕ × ℚ)) :
    scaleDivGo scale l = .ok (l.map (fun p => (p.1, p.2 / scale))) := by
  induction l with
  | nil => rfl
  | cons p rest ih =>
    obtain ⟨n, x⟩ := p
    simp [scaleDivGo, pydiv, h, ih]

lemma dgetD_map_div (l : List (ℕ × ℚ)) (scale : ℚ) (v : ℕ) :
    dgetD (l.map (fun p => (p.1, p.2 / scale))) v 0 = dgetD l v 0 / scale := by
  induction l with
  | nil => simp [dgetD, dget?]
  | cons p rest ih =>
    obtain ⟨k, x⟩ := p
    rw [List.map_cons]
    show dgetD ((k, x / scale) :: _) v 0 = _
    rw [dgetD_cons, dgetD_cons]
    by_cases h : v = k
    · simp [h]
    · simp [h, ih]

/-- the groups contributed by one source node, as `all_shortest_paths`
produces them: empty when the source's Dijkstra run does not finish. -/
def sourceGroupsD (g : DGraph) (adj : Dict ℕ (List ℕ)) (fuel : ℕ) (s : ℕ) :
    List (List (List ℕ)) :=
  match dijkstra_all_paths s g adj fuel with
  | none => []
  | some (paths, _) => sourceGroupsOf g paths

lemma allPathsGo_groups (g : DGraph) (adj : Dict ℕ (List ℕ)) (fuel : ℕ)
    (ns : List ℕ) :
    ∀ acc dists groups dres,
      allPathsGo g adj fuel ns acc dists = some (groups, dres) →
      groups = acc ++ (ns.map (sourceGroupsD g adj fuel)).flatten := by
  induction ns with
  | nil =>
    intro acc dists groups dres h
    simp only [allPathsGo, Option.some_inj, Prod.mk.injEq] at h
    simp [h.1.symm]
  | cons s rest ih =>
    intro acc dists groups dres h
    simp only [allPathsGo] at h
    rcases hd : dijkstra_all_paths s g adj fuel with _ | ⟨paths, distances⟩
    · rw [hd] at h
      cases h
    · rw [hd] at h
      rw [ih _ _ _ _ h]
      simp [sourceGroupsD, hd, List.append_assoc]

lemma meaningful_eq_nil_of_not_cond (tpaths : List (List ℕ))
    (h : ¬(tpaths ≠ [] ∧ tpaths.any (fun p => 1 < p.length))) :
    meaningful tpaths = [] := by
  rw [meaningful, List.filter_eq_nil_iff]
  intro p hp
  simp only [decide_eq_true_eq]
  intro hlen
  exact h ⟨List.ne_nil_of_mem hp, List.any_eq_true.mpr ⟨p, hp, by simpa using hlen⟩⟩

lemma groupScore_nil (v : ℕ) : groupScore v [] = 0 := by
  simp [groupScore]

lemma sum_filterMap_groups (paths : ℕ → List (List ℕ)) (v : ℕ) (l : List ℕ) :
    ((l.filterMap (fun t =>
        if paths t ≠ [] ∧ (paths t).any (fun p => 1 < p.length) then
          some (meaningful (paths t))
        else none)).map (fun grp => groupScore v grp)).sum =
      (l.map (fun t => groupScore v (meaningful (paths t)))).sum := by
  induction l with
  | nil => rfl
  | cons t rest ih =>
    rw [List.filterMap_cons, List.map_cons, List.sum_cons]
    split
    · next hcond =>
      rw [meaningful_eq_nil_of_not_cond _ (by simpa using hcond), groupScore_nil,
        zero_add, ih]
    · next grp hcond =>
      have : grp = meaningful (paths t) := by
        by_cases hc : paths t ≠ [] ∧ (paths t).any (fun p => 1 < p.length)
        · rw [if_pos hc] at hcond
          exact (Option.some_inj.mp hcond).symm
        · rw [if_neg hc] at hcond
          cases hcond
      rw [List.map_cons, List.sum_cons, ih, this]

lemma sum_sourceGroupsD (g : DGraph) (adj : Dict ℕ (List ℕ)) (fuel : ℕ)
    (s v : ℕ) :
    ((sourceGroupsD g adj fuel s).map (fun grp => groupScore v grp)).sum =
      (g.nodes.map (fun t => pairScore g adj fuel s t v)).sum := by
  rcases hd : dijkstra_all_paths s g adj fuel with _ | ⟨paths, dd⟩
  · simp only [sourceGroupsD, pairScore, hd]
    induction g.nodes with
    | nil => rfl
    | cons t rest ih => simp only [List.map_cons, List.sum_cons, ih, zero_add]
  · simp only [sourceGroupsD, pairScore, hd, sourceGroupsOf]
    exact sum_filterMap_groups paths v g.nodes

lemma sum_flatten_scores (g : DGraph) (adj : Dict ℕ (List ℕ)) (fuel : ℕ)
    (v : ℕ) (ns : List ℕ) :
    (((ns.map (sourceGroupsD g adj fuel)).flatten).map
        (fun grp => groupScore v grp)).sum =
      (ns.map (fun s => (g.nodes.map (fun t => pairScore g adj fuel s t v)).sum)).sum := by
  induction ns with
  | nil => rfl
  | cons s rest ih =>
    rw [List.map_cons, List.flatten_cons, List.map_append, List.sum_append, ih,
      List.map_cons, List.sum_cons, sum_sourceGroupsD]

/-- C6: applied to the `all_shortest_paths` output, `betweenness_centrality`
assigns each node the sum over every source-target pair of the pair's
co-optimal-path contributions (each intermediate occurrence weighted by one
over the pair's co-optimal path count), normalized by `(N-1)(N-2)`; trivial
single-node paths are filtered out and contribute nothing.  The node count
must not be 1 or 2, for otherwise the normalization denominator is zero. -/
theorem betweenness_centrality_matches_pair_formula (g : DGraph)
    (adj : Dict ℕ (List ℕ)) (fuel : ℕ) (groups : List (List (List ℕ)))
    (dres : ℕ → ℕ → WithTop ℤ)
    (hrun : all_shortest_paths g adj fuel = some (groups, dres))
    (hN1 : g.nodes.length ≠ 1) (hN2 : g.nodes.length ≠ 2) :
    ∃ c, betweenness_centrality g groups = .ok c ∧
      ∀ v, dgetD c v 0 =
        ((g.nodes.map (fun s =>
            (g.nodes.map (fun t => pairScore g adj fuel s t v)).sum)).sum) /
          (((g.nodes.length : ℚ) - 1) * ((g.nodes.length : ℚ) - 2)) := by
  have hscale : (((g.nodes.length : ℚ) - 1) * ((g.nodes.length : ℚ) - 2)) ≠ 0 := by
    refine mul_ne_zero (sub_ne_zero.mpr ?_) (sub_ne_zero.mpr ?_)
    · exact_mod_cast hN1
    · exact_mod_cast hN2
  unfold betweenness_centrality
  rw [scaleDivGo_ok _ hscale]
  refine ⟨_, rfl, ?_⟩
  intro v
  rw [dgetD_map_div, dgetD_bcFold, dgetD_nil, zero_add]
  congr 1
  have hgroups := allPathsGo_groups g adj fuel g.nodes [] _ groups dres hrun
  rw [hgroups, List.nil_append]
  exact sum_flatten_scores g adj fuel v g.nodes

/-- C6 witness: the three-node graph 0 → 1 → 2 plus the heavier edge 0 → 2;
node 1 sits on the single shortest 0-2 path. -/
theorem betweenness_centrality_matches_pair_formula_witness :
    ∃ groups dres,
      all_shortest_paths
          (DGraph.mk [0, 1, 2]
            (fun u v => if u = 0 ∧ v = 1 then 1 else if u = 1 ∧ v = 2 then 1 else
              if u = 0 ∧ v = 2 then 5 else 0))
          [(0, [1, 2]), (1, [2]), (2, [])] 30 = some (groups, dres) ∧
      ∃ c, betweenness_centrality
          (DGraph.mk [0, 1, 2]
            (fun u v => if u = 0 ∧ v = 1 then 1 else if u = 1 ∧ v = 2 then 1 else
              if u = 0 ∧ v = 2 then 5 else 0)) groups = .ok c ∧
        ∀ v, dgetD c v 0 =
          (([0, 1, 2].map (fun s =>
              (([0, 1, 2] : List ℕ).map (fun t => pairScore
                (DGraph.mk [0, 1, 2]
                  (fun u v2 => if u = 0 ∧ v2 = 1 then 1 else if u = 1 ∧ v2 = 2 then 1 else
                    if u = 0 ∧ v2 = 2 then 5 else 0))
                [(0, [1, 2]), (1, [2]), (2, [])] 30 s t v)).sum)).sum) /
            ((((3 : ℕ) : ℚ) - 1) * (((3 : ℕ) : ℚ) - 2)) := by
  refine ⟨_, _, rfl, ?_⟩
  exact betweenness_centrality_matches_pair_formula _ _ 30 _ _ rfl
    (by decide) (by decide)

/-! ## Ford-Fulkerson analysis: residual values, reachability, wellformedness -/

/-- the residual capacity between `u` and `v`, reading the nested dict with
default 0 as `residual_graph.get(u, {}).get(v, 0)` does. -/
def rfun (R : CapGraph) (u v : ℕ) : ℤ :=
  match dget? R u with
  | none => 0
  | some inner => dgetD inner v 0

/-- there is an entry `R[u][v]` (of any value). -/
def entryExists (R : CapGraph) (u v : ℕ) : Prop :=
  ∃ inner, dget? R u = some inner ∧ (dget? inner v).isSome

/-- reachability along strictly positive residual entries. -/
inductive Reach (R : CapGraph) (s : ℕ) : ℕ → Prop
  | refl : Reach R s s
  | step {u v : ℕ} : Reach R s u → 0 < rfun R u v → Reach R s v

/-- wellformed capacity dict: no duplicate keys at either level. -/
def CapWF (g : CapGraph) : Prop :=
  (dkeys g).Nodup ∧ ∀ p ∈ g, (dkeys p.2).Nodup

lemma dget?_mem {α β : Type} [DecidableEq α] (d : Dict α β) (k : α) (v : β)
    (h : dget? d k = some v) : (k, v) ∈ d := by
  induction d with
  | nil => cases h
  | cons p rest ih =>
    obtain ⟨k0, v0⟩ := p
    by_cases hk : k = k0
    · subst hk
      simp only [dget?] at h
      simp at h
      simp [h]
    · simp only [dget?, if_neg hk] at h
      exact List.mem_cons_of_mem _ (ih h)

lemma mem_dget? {α β : Type} [DecidableEq α] (d : Dict α β) (k : α) (v : β)
    (hnd : (dkeys d).Nodup) (h : (k, v) ∈ d) : dget? d k = some v := by
  induction d with
  | nil => cases h
  | cons p rest ih =>
    obtain ⟨k0, v0⟩ := p
    rcases List.mem_cons.mp h with heq | hmem
    · cases heq
      simp [dget?]
    · have hk : k ≠ k0 := by
        rintro rfl
        exact (List.nodup_cons.mp hnd).1 (by
          simpa [dkeys] using List.mem_map_of_mem Prod.fst hmem)
      simp only [dget?, if_neg hk]
      exact ih (List.nodup_cons.mp hnd).2 hmem

lemma dget?_isSome_dset {α β : Type} [DecidableEq α] (d : Dict α β)
    (k k' : α) (v : β) (h : (dget? d k').isSome) :
    (dget? (dset d k v) k').isSome := by
  by_cases hk : k' = k
  · subst hk
    simp [dget?_dset_self]
  · rwa [dget?_dset_ne d k k' v hk]

lemma dkeys_subset_dset {α β : Type} [DecidableEq α] (d : Dict α β)
    (k : α) (v : β) : dkeys d ⊆ dkeys (dset d k v) := by
  intro x hx
  rw [dkeys_dset]
  split
  · exact hx
  · exact List.mem_append_left _ hx

lemma mem_dkeys_dset_self {α β : Type} [DecidableEq α] (d : Dict α β)
    (k : α) (v : β) : k ∈ dkeys (dset d k v) := by
  rw [dkeys_dset]
  split
  · assumption
  · simp

lemma dkeys_dset_of_mem {α β : Type} [DecidableEq α] (d : Dict α β)
    (k : α) (v : β) (h : k ∈ dkeys d) : dkeys (dset d k v) = dkeys d := by
  rw [dkeys_dset, if_pos h]

lemma mem_dkeys_iff_isSome {α β : Type} [DecidableEq α] (d : Dict α β)
    (k : α) : k ∈ dkeys d ↔ (dget? d k).isSome :=
  (dget?_isSome_iff_mem_keys d k).symm

lemma capwf_dset (g : CapGraph) (k : ℕ) (inner : Dict ℕ ℤ)
    (hwf : CapWF g) (hinner : (dkeys inner).Nodup) : CapWF (dset g k inner) := by
  constructor
  · exact dkeys_dset_nodup g k inner hwf.1
  · intro p hp
    induction g with
    | nil =>
      simp only [dset, List.mem_singleton] at hp
      subst hp
      exact hinner
    | cons q rest ih =>
      obtain ⟨k0, v0⟩ := q
      simp only [dset] at hp
      by_cases hk : k = k0
      · rw [if_pos hk] at hp
        rcases List.mem_cons.mp hp with heq | hmem
        · subst heq
          exact hinner
        · exact hwf.2 p (List.mem_cons_of_mem _ hmem)
      · rw [if_neg hk] at hp
        rcases List.mem_cons.mp hp with heq | hmem
        · subst heq
          exact hwf.2 _ (by simp)
        · refine ih ⟨(List.nodup_cons.mp hwf.1).2, ?_⟩ hmem
          intro q hq
          exact hwf.2 q (List.mem_cons_of_mem _ hq)

lemma rfun_pos_entry (R : CapGraph) (u v : ℕ) (h : 0 < rfun R u v) :
    ∃ inner, dget? R u = some inner ∧ ∃ c, dget? inner v = some c ∧ 0 < c := by
  unfold rfun at h
  rcases hu : dget? R u with _ | inner
  · rw [hu] at h
    simp at h
  · rw [hu] at h
    refine ⟨inner, rfl, ?_⟩
    simp only [dgetD] at h
    rcases hv : dget? inner v with _ | c
    · rw [hv] at h
      simp at h
    · rw [hv] at h
      exact ⟨c, rfl, by simpa using h⟩

lemma rfun_mem_keys (R : CapGraph) (u v : ℕ) (h : 0 < rfun R u v) :
    u ∈ dkeys R := by
  obtain ⟨inner, hu, _⟩ := rfun_pos_entry R u v h
  rw [mem_dkeys_iff_isSome, hu]
  rfl

/-- invariant on the parent map built by `bfs`, relative to the list
`visited` of popped nodes in pop order. -/
structure ParentInv (R : CapGraph) (source : ℕ) (visited : List ℕ)
    (parent : Dict ℕ ℕ) : Prop where
  vis_nodup : visited.Nodup
  assigned : ∀ x c, dget? parent x = some c →
    x ≠ source ∧ c ∈ visited ∧ 0 < rfun R c x
  assigned_idx : ∀ x c, dget? parent x = some c → x ∈ visited →
    visited.indexOf c < visited.indexOf x
  vis_par : ∀ x ∈ visited, x = source ∨ (dget? parent x).isSome

lemma bfsNbrs_spec (R : CapGraph) (source sink current : ℕ) (visited : List ℕ)
    (hsrc : source ∈ visited) (hcur : current ∈ visited) (hsink_vis : sink ∉ visited) :
    ∀ l, (∀ pr ∈ l, rfun R current pr.1 = pr.2) →
    ∀ parent queue, ParentInv R source visited parent →
    (∀ x ∈ queue, (dget? parent x).isSome ∨ x = source) →
    sink ∉ queue →
    ∀ parent' queue' b, bfsNbrs sink current visited l parent queue = (parent', queue', b) →
      ParentInv R source visited parent' ∧
      (∀ x, (dget? parent x).isSome → (dget? parent' x).isSome) ∧
      (b = false →
        (∀ x ∈ queue, x ∈ queue') ∧
        (∀ x ∈ queue', (dget? parent' x).isSome ∨ x = source) ∧
        sink ∉ queue' ∧
        (∀ pr ∈ l, 0 < pr.2 → pr.1 ∈ visited ∨ pr.1 ∈ queue')) ∧
      (b = true → dget? parent' sink = some current) := by
  intro l
  induction l with
  | nil =>
    intro hl parent queue hinv hq hsq parent' queue' b h
    simp only [bfsNbrs, Prod.mk.injEq] at h
    obtain ⟨h1, h2, h3⟩ := h
    subst h1
    subst h2
    subst h3
    refine ⟨hinv, fun x hx => hx, fun _ => ⟨fun x hx => hx, hq, hsq, by simp⟩, ?_⟩
    intro hb
    cases hb
  | cons pr rest ih =>
    intro hl parent queue hinv hq hsq parent' queue' b h
    obtain ⟨nb, cap⟩ := pr
    simp only [bfsNbrs] at h
    by_cases hc : nb ∉ visited ∧ 0 < cap
    · rw [if_pos hc] at h
      have hrfun : 0 < rfun R current nb := by
        have := hl (nb, cap) (by simp)
        simp only at this
        rw [this]
        exact hc.2
      have hinv2 : ParentInv R source visited (dset parent nb current) := by
        refine ⟨hinv.vis_nodup, ?_, ?_, ?_⟩
        · intro x c hx
          by_cases hxnb : x = nb
          · subst hxnb
            rw [dget?_dset_self] at hx
            cases hx
            refine ⟨?_, hcur, hrfun⟩
            rintro rfl
            exact hc.1 hsrc
          · rw [dget?_dset_ne _ _ _ _ hxnb] at hx
            exact hinv.assigned x c hx
        · intro x c hx hxvis
          by_cases hxnb : x = nb
          · subst hxnb
            exact absurd hxvis hc.1
          · rw [dget?_dset_ne _ _ _ _ hxnb] at hx
            exact hinv.assigned_idx x c hx hxvis
        · intro x hx
          rcases hinv.vis_par x hx with h' | h'
          · exact Or.inl h'
          · exact Or.inr (dget?_isSome_dset _ _ _ _ h')
      by_cases hnbsink : nb = sink
      · rw [if_pos hnbsink] at h
        simp only [Prod.mk.injEq] at h
        obtain ⟨h1, h2, h3⟩ := h
        subst h1
        subst h2
        subst h3
        subst hnbsink
        refine ⟨hinv2, fun x hx => dget?_isSome_dset _ _ _ _ hx, ?_, ?_⟩
        · intro hb
          cases hb
        · intro _
          exact dget?_dset_self _ _ _
      · rw [if_neg hnbsink] at h
        have hq2 : ∀ x ∈ queue ++ [nb],
            (dget? (dset parent nb current) x).isSome ∨ x = source := by
          intro x hx
          rcases List.mem_append.mp hx with hx' | hx'
          · rcases hq x hx' with h' | h'
            · exact Or.inl (dget?_isSome_dset _ _ _ _ h')
            · exact Or.inr h'
          · simp only [List.mem_singleton] at hx'
            subst hx'
            rw [dget?_dset_self]
            exact Or.inl rfl
        have hsq2 : sink ∉ queue ++ [nb] := by
          intro hx
          rcases List.mem_append.mp hx with hx' | hx'
          · exact hsq hx'
          · simp only [List.mem_singleton] at hx'
            exact hnbsink hx'.symm
        obtain ⟨c1, c2, c3, c4⟩ := ih (fun pr hpr => hl pr (List.mem_cons_of_mem _ hpr))
          (dset parent nb current) (queue ++ [nb]) hinv2 hq2 hsq2 parent' queue' b h
        refine ⟨c1, ?_, ?_, c4⟩
        · intro x hx
          exact c2 x (dget?_isSome_dset _ _ _ _ hx)
        · intro hb
          obtain ⟨d1, d2, d3, d4⟩ := c3 hb
          refine ⟨?_, d2, d3, ?_⟩
          · intro x hx
            exact d1 x (List.mem_append_left _ hx)
          · intro pr hpr hpos
            rcases List.mem_cons.mp hpr with heq | hmem
            · subst heq
              exact Or.inr (d1 nb (List.mem_append_right _ (by simp)))
            · exact d4 pr hmem hpos
    · rw [if_neg hc] at h
      obtain ⟨c1, c2, c3, c4⟩ := ih (fun pr hpr => hl pr (List.mem_cons_of_mem _ hpr))
        parent queue hinv hq hsq parent' queue' b h
      refine ⟨c1, c2, ?_, c4⟩
      intro hb
      obtain ⟨d1, d2, d3, d4⟩ := c3 hb
      refine ⟨d1, d2, d3, ?_⟩
      intro pr hpr hpos
      rcases List.mem_cons.mp hpr with heq | hmem
      · subst heq
        left
        by_contra hnb
        exact hc ⟨hnb, by simpa using hpos⟩
      · exact d4 pr hmem hpos

lemma mem_sadd {α : Type} [DecidableEq α] (s : List α) (x y : α) :
    y ∈ sadd s x ↔ y ∈ s ∨ y = x := by
  unfold sadd
  split
  · next h => constructor
              · exact Or.inl
              · rintro (hy | rfl)
                · exact hy
                · exact h
  · simp

lemma sadd_self_mem {α : Type} [DecidableEq α] (s : List α) (x : α) :
    x ∈ sadd s x := (mem_sadd s x x).mpr (Or.inr rfl)

lemma sadd_subset {α : Type} [DecidableEq α] (s : List α) (x : α) :
    s ⊆ sadd s x := fun y hy => (mem_sadd s x y).mpr (Or.inl hy)

lemma sadd_nodup {α : Type} [DecidableEq α] (s : List α) (x : α)
    (h : s.Nodup) : (sadd s x).Nodup := by
  unfold sadd
  split
  · exact h
  · next hx =>
    refine List.Nodup.append h (List.nodup_singleton x) ?_
    intro y hy hy'
    simp only [List.mem_singleton] at hy'
    subst hy'
    exact hx hy

lemma parentInv_sadd (R : CapGraph) (source : ℕ) (visited : List ℕ)
    (parent : Dict ℕ ℕ) (current : ℕ)
    (hinv : ParentInv R source visited parent)
    (hpar : (dget? parent current).isSome ∨ current = source) :
    ParentInv R source (sadd visited current) parent := by
  by_cases hc : current ∈ visited
  · rwa [sadd, if_pos hc]
  · rw [sadd, if_neg hc]
    refine ⟨?_, ?_, ?_, ?_⟩
    · refine List.Nodup.append hinv.vis_nodup (List.nodup_singleton current) ?_
      intro y hy hy'
      simp only [List.mem_singleton] at hy'
      subst hy'
      exact hc hy
    · intro x c hx
      obtain ⟨h1, h2, h3⟩ := hinv.assigned x c hx
      exact ⟨h1, List.mem_append_left _ h2, h3⟩
    · intro x c hx hxvis
      rcases List.mem_append.mp hxvis with hxv | hxv
      · obtain ⟨_, hcvis, _⟩ := hinv.assigned x c hx
        rw [List.indexOf_append_of_mem hxv, List.indexOf_append_of_mem hcvis]
        exact hinv.assigned_idx x c hx hxv
      · simp only [List.mem_singleton] at hxv
        subst hxv
        obtain ⟨_, hcvis, _⟩ := hinv.assigned x c hx
        rw [List.indexOf_append_of_mem hcvis,
          List.indexOf_append_of_not_mem hc]
        simp only [List.indexOf_cons_self, Nat.add_zero]
        exact List.indexOf_lt_length.mpr hcvis
    · intro x hx
      rcases List.mem_append.mp hx with hxv | hxv
      · exact hinv.vis_par x hxv
      · simp only [List.mem_singleton] at hxv
        subst hxv
        rcases hpar with h' | h'
        · exact Or.inr h'
        · exact Or.inl h'

lemma dgetD_entries (R : CapGraph) (hwf : CapWF R) (current : ℕ) :
    ∀ pr ∈ dgetD R current [], rfun R current pr.1 = pr.2 := by
  intro pr hpr
  obtain ⟨nb, cap⟩ := pr
  rcases hcur : dget? R current with _ | inner
  · rw [dgetD, hcur] at hpr
    cases hpr
  · rw [dgetD, hcur] at hpr
    simp only [Option.getD_some] at hpr
    have hnd : (dkeys inner).Nodup := hwf.2 (current, inner) (dget?_mem _ _ _ hcur)
    have := mem_dget? inner nb cap hnd hpr
    simp only [rfun, hcur, dgetD, this, Option.getD_some]

lemma bfsLoop_spec (R : CapGraph) (source sink : ℕ) (hwf : CapWF R) :
    ∀ fuel queue visited parent,
    ParentInv R source visited parent →
    source ∈ visited →
    (∀ x ∈ queue, (dget? parent x).isSome ∨ x = source) →
    sink ∉ visited → sink ∉ queue →
    (∀ x ∈ visited, ∀ v, 0 < rfun R x v → v ∈ visited ∨ v ∈ queue) →
    (bfsLoop R sink fuel queue visited parent = none) ∨
    (∃ parent' visited',
      bfsLoop R sink fuel queue visited parent = some (false, parent', visited') ∧
      source ∈ visited' ∧ sink ∉ visited' ∧
      ∀ x ∈ visited', ∀ v, 0 < rfun R x v → v ∈ visited') ∨
    (∃ parent' visited' c,
      bfsLoop R sink fuel queue visited parent = some (true, parent', visited') ∧
      ParentInv R source visited' parent' ∧ source ∈ visited' ∧ sink ∉ visited' ∧
      dget? parent' sink = some c) := by
  intro fuel
  induction fuel with
  | zero =>
    intro queue visited parent hinv hsrc hq hsv hsq hclo
    cases queue with
    | nil =>
      refine Or.inr (Or.inl ⟨parent, visited, rfl, hsrc, hsv, ?_⟩)
      intro x hx v hv
      rcases hclo x hx v hv with h' | h'
      · exact h'
      · cases h'
    | cons current rest => exact Or.inl rfl
  | succ fuel ih =>
    intro queue visited parent hinv hsrc hq hsv hsq hclo
    cases queue with
    | nil =>
      refine Or.inr (Or.inl ⟨parent, visited, rfl, hsrc, hsv, ?_⟩)
      intro x hx v hv
      rcases hclo x hx v hv with h' | h'
      · exact h'
      · cases h'
    | cons current rest =>
      have hcq : (dget? parent current).isSome ∨ current = source :=
        hq current (by simp)
      have hinv' : ParentInv R source (sadd visited current) parent :=
        parentInv_sadd R source visited parent current hinv hcq
      have hsrc' : source ∈ sadd visited current := sadd_subset _ _ hsrc
      have hcur' : current ∈ sadd visited current := sadd_self_mem _ _
      have hsv' : sink ∉ sadd visited current := by
        rw [mem_sadd]
        rintro (h' | rfl)
        · exact hsv h'
        · exact hsq (by simp)
      have hq' : ∀ x ∈ rest, (dget? parent x).isSome ∨ x = source :=
        fun x hx => hq x (List.mem_cons_of_mem _ hx)
      have hsq' : sink ∉ rest := fun h' => hsq (List.mem_cons_of_mem _ h')
      rcases hbn : bfsNbrs sink current (sadd visited current)
          (dgetD R current []) parent rest with ⟨parent2, queue2, b⟩
      obtain ⟨c1, c2, c3, c4⟩ := bfsNbrs_spec R source sink current
        (sadd visited current) hsrc' hcur' hsv' (dgetD R current [])
        (dgetD_entries R hwf current) parent rest hinv' hq' hsq'
        parent2 queue2 b hbn
      cases b with
      | true =>
        refine Or.inr (Or.inr ⟨parent2, sadd visited current, current, ?_,
          c1, hsrc', hsv', c4 rfl⟩)
        simp only [bfsLoop, hbn]
      | false =>
        obtain ⟨d1, d2, d3, d4⟩ := c3 rfl
        have hclo' : ∀ x ∈ sadd visited current, ∀ v, 0 < rfun R x v →
            v ∈ sadd visited current ∨ v ∈ queue2 := by
          intro x hx v hv
          rcases (mem_sadd _ _ _).mp hx with hxv | rfl
          · rcases hclo x hxv v hv with h' | h'
            · exact Or.inl (sadd_subset _ _ h')
            · rcases List.mem_cons.mp h' with rfl | h''
              · exact Or.inl (sadd_self_mem _ _)
              · exact Or.inr (d1 v h'')
          · obtain ⟨inner, hxi, cval, hvi, hcpos⟩ := rfun_pos_entry R x v hv
            have hmem : (v, cval) ∈ dgetD R x [] := by
              rw [dgetD, hxi, Option.getD_some]
              exact dget?_mem _ _ _ hvi
            rcases d4 (v, cval) hmem hcpos with h' | h'
            · exact Or.inl h'
            · exact Or.inr h'
        have hrec := ih queue2 (sadd visited current) parent2 c1 hsrc'
          d2 hsv' d3 hclo'
        have heq : bfsLoop R sink (fuel + 1) (current :: rest) visited parent =
            bfsLoop R sink fuel queue2 (sadd visited current) parent2 := by
          simp only [bfsLoop, hbn]
        rw [heq]
        exact hrec

lemma reach_mem_closed (R : CapGraph) (source : ℕ) (S : List ℕ)
    (hsrc : source ∈ S) (hclo : ∀ x ∈ S, ∀ v, 0 < rfun R x v → v ∈ S) :
    ∀ x, Reach R source x → x ∈ S := by
  intro x hx
  induction hx with
  | refl => exact hsrc
  | step hr hpos ih => exact hclo _ ih _ hpos

lemma bfs_spec (R : CapGraph) (source sink : ℕ) (hwf : CapWF R)
    (hne : source ≠ sink) (fuel : ℕ) :
    (bfs R source sink fuel = none) ∨
    (∃ parent' visited', bfs R source sink fuel = some (false, parent', visited') ∧
      ¬ Reach R source sink) ∨
    (∃ parent' visited' c, bfs R source sink fuel = some (true, parent', visited') ∧
      ParentInv R source visited' parent' ∧ source ∈ visited' ∧ sink ∉ visited' ∧
      dget? parent' sink = some c) := by
  cases fuel with
  | zero => exact Or.inl rfl
  | succ fuel =>
    have hinv0 : ParentInv R source [source] ([] : Dict ℕ ℕ) := by
      refine ⟨List.nodup_singleton source, ?_, ?_, ?_⟩
      · intro x c hx
        cases hx
      · intro x c hx
        cases hx
      · intro x hx
        simp only [List.mem_singleton] at hx
        exact Or.inl hx
    have hsv : sink ∉ [source] := by
      simp only [List.mem_singleton]
      exact fun h => hne h.symm
    rcases hbn : bfsNbrs sink source [source] (dgetD R source []) [] []
      with ⟨parent2, queue2, b⟩
    obtain ⟨c1, c2, c3, c4⟩ := bfsNbrs_spec R source sink source [source]
      (by simp) (by simp) hsv (dgetD R source []) (dgetD_entries R hwf source)
      [] [] hinv0 (by simp) (by simp) parent2 queue2 b hbn
    have hunfold : bfs R source sink (fuel + 1) =
        match bfsNbrs sink source (sadd [] source) (dgetD R source []) [] [] with
        | (parent', _, true) => some (true, parent', sadd [] source)
        | (parent', queue', false) => bfsLoop R sink fuel queue' (sadd [] source) parent' := by
      rfl
    have hs0 : sadd ([] : List ℕ) source = [source] := rfl
    cases b with
    | true =>
      refine Or.inr (Or.inr ⟨parent2, [source], source, ?_, c1, by simp, hsv, c4 rfl⟩)
      rw [hunfold, hs0, hbn]
    | false =>
      obtain ⟨d1, d2, d3, d4⟩ := c3 rfl
      have hclo : ∀ x ∈ [source], ∀ v, 0 < rfun R x v → v ∈ [source] ∨ v ∈ queue2 := by
        intro x hx v hv
        simp only [List.mem_singleton] at hx
        subst hx
        obtain ⟨inner, hxi, cval, hvi, hcpos⟩ := rfun_pos_entry R x v hv
        have hmem : (v, cval) ∈ dgetD R x [] := by
          rw [dgetD, hxi, Option.getD_some]
          exact dget?_mem _ _ _ hvi
        rcases d4 (v, cval) hmem hcpos with h' | h'
        · exact Or.inl h'
        · exact Or.inr h'
      have hrec := bfsLoop_spec R source sink hwf fuel queue2 [source] parent2
        c1 (by simp) d2 hsv d3 hclo
      have heq : bfs R source sink (fuel + 1) =
          bfsLoop R sink fuel queue2 [source] parent2 := by
        rw [hunfold, hs0, hbn]
      rw [heq]
      rcases hrec with hnone | ⟨p', v', hr, hsrc', hsv', hclo'⟩ | hr
      · exact Or.inl hnone
      · refine Or.inr (Or.inl ⟨p', v', hr, ?_⟩)
        intro hreach
        exact hsv' (reach_mem_closed R source v' hsrc' hclo' sink hreach)
      · exact Or.inr (Or.inr hr)

lemma pathPairs_append_single (p : List ℕ) (x : ℕ) (h : p ≠ []) :
    pathPairs (p ++ [x]) = pathPairs p ++ [(p.getLast h, x)] := by
  induction p with
  | nil => exact absurd rfl h
  | cons a rest ih =>
    cases rest with
    | nil => rfl
    | cons b rest2 =>
      simp only [List.cons_append, pathPairs, List.append_eq] at ih ⊢
      rw [ih (by simp)]
      simp [List.getLast_cons]

/-- the properties of the augmenting path built from the parent chain. -/
structure GoodPath (R : CapGraph) (source x : ℕ) (p : List ℕ) : Prop where
  nodup : p.Nodup
  headok : p.head? = some source
  lastok : p.getLast? = some x
  chain : ∀ pr ∈ pathPairs p, 0 < rfun R pr.1 pr.2

lemma buildPath_visited (R : CapGraph) (source : ℕ) (visited : List ℕ)
    (parent : Dict ℕ ℕ) (hinv : ParentInv R source visited parent) :
    ∀ n, ∀ x ∈ visited, visited.indexOf x = n → ∀ fuel,
      buildPath parent source fuel x = none ∨
      ∃ p, buildPath parent source fuel x = some (.ok p) ∧
        GoodPath R source x p ∧ ∀ y ∈ p, y ∈ visited ∧ visited.indexOf y ≤ n := by
  intro n
  induction n using Nat.strong_induction_on with
  | _ n ih =>
    intro x hx hidx fuel
    cases fuel with
    | zero => exact Or.inl rfl
    | succ fuel =>
      by_cases hxs : x = source
      · subst hxs
        refine Or.inr ⟨[x], by simp [buildPath], ⟨by simp, rfl, rfl, ?_⟩, ?_⟩
        · intro pr hpr
          simp only [pathPairs] at hpr
          cases hpr
        · intro y hy
          simp only [List.mem_singleton] at hy
          subst hy
          exact ⟨hx, le_of_eq hidx⟩
      · rcases hinv.vis_par x hx with h' | h'
        · exact absurd h' hxs
        · obtain ⟨c, hc⟩ := Option.isSome_iff_exists.mp h'
          obtain ⟨hxs2, hcvis, hcpos⟩ := hinv.assigned x c hc
          have hidxc : visited.indexOf c < n := hidx ▸ hinv.assigned_idx x c hc hx
          rcases ih _ hidxc c hcvis rfl fuel with hnone | ⟨p, hp, hgood, hmem⟩
          · left
            simp only [buildPath, if_neg hxs, hc, hnone]
          · have hpne : p ≠ [] := by
              intro hcon
              rw [hcon] at hgood
              cases hgood.headok
            have hxnotp : x ∉ p := by
              intro hxp
              have := (hmem x hxp).2
              omega
            have hlast : p.getLast hpne = c := by
              have := hgood.lastok
              rwa [List.getLast?_eq_getLast p hpne, Option.some_inj] at this
            refine Or.inr ⟨p ++ [x], ?_, ⟨?_, ?_, ?_, ?_⟩, ?_⟩
            · simp only [buildPath, if_neg hxs, hc, hp]
            · rw [List.nodup_append]
              refine ⟨hgood.nodup, List.nodup_singleton x, ?_⟩
              intro y hy hy'
              simp only [List.mem_singleton] at hy'
              subst hy'
              exact hxnotp hy
            · rcases p with _ | ⟨a, rest⟩
              · exact absurd rfl hpne
              · simpa using hgood.headok
            · simp
            · intro pr hpr
              rw [pathPairs_append_single p x hpne] at hpr
              rcases List.mem_append.mp hpr with hpr' | hpr'
              · exact hgood.chain pr hpr'
              · simp only [List.mem_singleton] at hpr'
                subst hpr'
                simpa [hlast] using hcpos
            · intro y hy
              rcases List.mem_append.mp hy with hy' | hy'
              · obtain ⟨hy1, hy2⟩ := hmem y hy'
                exact ⟨hy1, le_trans hy2 (le_of_lt hidxc)⟩
              · simp only [List.mem_singleton] at hy'
                subst hy'
                exact ⟨hx, le_of_eq hidx⟩

lemma buildPath_from_sink (R : CapGraph) (source sink : ℕ) (visited : List ℕ)
    (parent : Dict ℕ ℕ) (hinv : ParentInv R source visited parent)
    (hsrc : source ∈ visited) (hsink : sink ∉ visited) (c : ℕ)
    (hpar : dget? parent sink = some c) (fuel : ℕ) :
    buildPath parent source fuel sink = none ∨
    ∃ p, buildPath parent source fuel sink = some (.ok p) ∧
      GoodPath R source sink p ∧ (∀ y ∈ p, y ∈ visited ∨ y = sink) ∧
      2 ≤ p.length := by
  cases fuel with
  | zero => exact Or.inl rfl
  | succ fuel =>
    have hnesrc : sink ≠ source := by
      rintro rfl
      exact hsink hsrc
    obtain ⟨hxs2, hcvis, hcpos⟩ := hinv.assigned sink c hpar
    rcases buildPath_visited R source visited parent hinv
        (visited.indexOf c) c hcvis rfl fuel with hnone | ⟨p, hp, hgood, hmem⟩
    · left
      simp only [buildPath, if_neg hnesrc, hpar, hnone]
    · have hpne : p ≠ [] := by
        intro hcon
        rw [hcon] at hgood
        cases hgood.headok
      have hsinknotp : sink ∉ p := fun hsp => hsink (hmem sink hsp).1
      have hlast : p.getLast hpne = c := by
        have := hgood.lastok
        rwa [List.getLast?_eq_getLast p hpne, Option.some_inj] at this
      refine Or.inr ⟨p ++ [sink], ?_, ⟨?_, ?_, ?_, ?_⟩, ?_, ?_⟩
      · simp only [buildPath, if_neg hnesrc, hpar, hp]
      · rw [List.nodup_append]
        refine ⟨hgood.nodup, List.nodup_singleton sink, ?_⟩
        intro y hy hy'
        simp only [List.mem_singleton] at hy'
        subst hy'
        exact hsinknotp hy
      · rcases p with _ | ⟨a, rest⟩
        · exact absurd rfl hpne
        · simpa using hgood.headok
      · simp
      · intro pr hpr
        rw [pathPairs_append_single p sink hpne] at hpr
        rcases List.mem_append.mp hpr with hpr' | hpr'
        · exact hgood.chain pr hpr'
        · simp only [List.mem_singleton] at hpr'
          subst hpr'
          simpa [hlast] using hcpos
      · intro y hy
        rcases List.mem_append.mp hy with hy' | hy'
        · exact Or.inl (hmem y hy').1
        · simp only [List.mem_singleton] at hy'
          exact Or.inr hy'
      · have : 1 ≤ p.length := by
          rcases p with _ | ⟨a, rest⟩
          · exact absurd rfl hpne
          · simp
        simp only [List.length_append, List.length_singleton]
        omega

lemma bottleneck_spec (R : CapGraph) :
    ∀ pairs acc, (∀ pr ∈ pairs, entryExists R pr.1 pr.2) →
      ∃ r, bottleneck R pairs acc = .ok r ∧
        r ≤ acc ∧ (∀ pr ∈ pairs, r ≤ (rfun R pr.1 pr.2 : WithTop ℤ)) ∧
        (r = acc ∨ ∃ pr ∈ pairs, r = (rfun R pr.1 pr.2 : WithTop ℤ)) := by
  intro pairs
  induction pairs with
  | nil =>
    intro acc h
    exact ⟨acc, rfl, le_rfl, by simp, Or.inl rfl⟩
  | cons hd rest ih =>
    intro acc h
    obtain ⟨u, v⟩ := hd
    obtain ⟨inner, hu, hv⟩ := h (u, v) (by simp)
    obtain ⟨c, hc⟩ := Option.isSome_iff_exists.mp hv
    have hrfun : rfun R u v = c := by
      simp [rfun, hu, dgetD, hc]
    obtain ⟨r, hr, hle, hall, hcases⟩ := ih (min acc (c : WithTop ℤ))
      (fun pr hpr => h pr (List.mem_cons_of_mem _ hpr))
    refine ⟨r, ?_, le_trans hle (min_le_left _ _), ?_, ?_⟩
    · simp only [bottleneck, hu, hc]
      exact hr
    · intro pr hpr
      rcases List.mem_cons.mp hpr with heq | hmem
      · subst heq
        simp only [hrfun]
        exact le_trans hle (min_le_right _ _)
      · exact hall pr hmem
    · rcases hcases with heq | ⟨pr, hpr, heq⟩
      · rcases min_choice acc (c : WithTop ℤ) with hm | hm
        · exact Or.inl (heq.trans hm)
        · refine Or.inr ⟨(u, v), by simp, ?_⟩
          rw [heq, hm, hrfun]
      · exact Or.inr ⟨pr, List.mem_cons_of_mem _ hpr, heq⟩

lemma entryExists_dset_same {k : ℕ} (R : CapGraph) (inner newinner : Dict ℕ ℤ)
    (hk : dget? R k = some inner)
    (hsub : ∀ y, (dget? inner y).isSome → (dget? newinner y).isSome) :
    ∀ x y, entryExists R x y → entryExists (dset R k newinner) x y := by
  intro x y ⟨innx, hx, hy⟩
  by_cases hxk : x = k
  · subst hxk
    rw [hx] at hk
    cases hk
    exact ⟨newinner, dget?_dset_self _ _ _, hsub y hy⟩
  · exact ⟨innx, by rwa [dget?_dset_ne _ _ _ _ hxk], hy⟩

lemma pair_update_rfun (R : CapGraph) (u v : ℕ) (f c : ℤ) (huv : u ≠ v)
    (inner innerV : Dict ℕ ℤ) (hu : dget? R u = some inner)
    (hc : dget? inner v = some c) (hivR : dget? R v = some innerV) :
    ∀ x y, rfun (dset (dset R u (dset inner v (c - f))) v
        (dset innerV u (dgetD innerV u 0 + f))) x y =
      rfun R x y - (if x = u ∧ y = v then f else 0)
        + (if x = v ∧ y = u then f else 0) := by
  have hVset : dget? (dset (dset R u (dset inner v (c - f))) v
      (dset innerV u (dgetD innerV u 0 + f))) v =
      some (dset innerV u (dgetD innerV u 0 + f)) := dget?_dset_self _ _ _
  have hUset : dget? (dset (dset R u (dset inner v (c - f))) v
      (dset innerV u (dgetD innerV u 0 + f))) u =
      some (dset inner v (c - f)) := by
    rw [dget?_dset_ne _ _ _ _ huv]
    exact dget?_dset_self _ _ _
  intro x y
  by_cases hxv : x = v
  · rw [hxv]
    simp only [rfun, hVset, hivR, dgetD_dset]
    by_cases hyu : y = u
    · rw [hyu]
      simp [huv, Ne.symm huv, dgetD]
    · simp [hyu, Ne.symm huv, fun hcon : v = u ∧ y = v => huv hcon.1.symm]
  · by_cases hxu : x = u
    · rw [hxu]
      simp only [rfun, hUset, hu, dgetD_dset]
      by_cases hyv : y = v
      · rw [hyv]
        simp [huv, dgetD, hc]
      · simp [hyv, huv, fun hcon : u = v ∧ y = u => huv hcon.1]
    · have hx2 : dget? (dset (dset R u (dset inner v (c - f))) v
          (dset innerV u (dgetD innerV u 0 + f))) x =
          dget? R x := by
        rw [dget?_dset_ne _ _ _ _ hxv, dget?_dset_ne _ _ _ _ hxu]
      simp only [rfun, hx2]
      simp [hxu, hxv]

lemma augmentUpdate_spec (f : ℤ) :
    ∀ pairs (R : CapGraph), CapWF R →
      (∀ pr ∈ pairs, entryExists R pr.1 pr.2 ∧ pr.2 ∈ dkeys R ∧ pr.1 ≠ pr.2) →
      ∃ R2, augmentUpdate f R pairs = .ok R2 ∧
        (∀ x y, rfun R2 x y = rfun R x y
            + f * ((pairs.count (y, x) : ℤ) - (pairs.count (x, y) : ℤ))) ∧
        CapWF R2 ∧ dkeys R2 = dkeys R ∧
        (∀ x y, entryExists R x y → entryExists R2 x y) := by
  intro pairs
  induction pairs with
  | nil =>
    intro R hwf h
    exact ⟨R, rfl, by simp, hwf, rfl, fun _ _ hx => hx⟩
  | cons hd rest ih =>
    intro R hwf h
    obtain ⟨u, v⟩ := hd
    obtain ⟨⟨inner, hu, hv⟩, hvk, huv⟩ := h (u, v) (by simp)
    obtain ⟨c, hc⟩ := Option.isSome_iff_exists.mp hv
    have huk : u ∈ dkeys R := by
      rw [mem_dkeys_iff_isSome, hu]
      rfl
    have hinnernd : (dkeys inner).Nodup := hwf.2 (u, inner) (dget?_mem _ _ _ hu)
    have hkeys1 : dkeys (dset R u (dset inner v (c - f))) = dkeys R :=
      dkeys_dset_of_mem _ _ _ huk
    have hwf1 : CapWF (dset R u (dset inner v (c - f))) :=
      capwf_dset R u _ hwf (dkeys_dset_nodup _ _ _ hinnernd)
    have hvk1 : (dget? (dset R u (dset inner v (c - f))) v).isSome := by
      rw [← mem_dkeys_iff_isSome, hkeys1]
      exact hvk
    obtain ⟨innerV, hiv⟩ := Option.isSome_iff_exists.mp hvk1
    have hivR : dget? R v = some innerV := by
      rwa [dget?_dset_ne _ _ _ _ (Ne.symm huv)] at hiv
    have hinnerVnd : (dkeys innerV).Nodup := hwf.2 (v, innerV) (dget?_mem _ _ _ hivR)
    have hkeys2 : dkeys (dset (dset R u (dset inner v (c - f))) v
        (dset innerV u (dgetD innerV u 0 + f))) = dkeys R := by
      rw [dkeys_dset_of_mem, hkeys1]
      rw [← mem_dkeys_iff_isSome] at hvk1
      exact hvk1
    have hwf2 : CapWF (dset (dset R u (dset inner v (c - f))) v
        (dset innerV u (dgetD innerV u 0 + f))) :=
      capwf_dset _ v _ hwf1 (dkeys_dset_nodup _ _ _ hinnerVnd)
    have hent2 : ∀ x y, entryExists R x y →
        entryExists (dset (dset R u (dset inner v (c - f))) v
          (dset innerV u (dgetD innerV u 0 + f))) x y := by
      intro x y hxy
      have h1 : entryExists (dset R u (dset inner v (c - f))) x y :=
        entryExists_dset_same R inner _ hu
          (fun y hy => dget?_isSome_dset _ _ _ _ hy) x y hxy
      exact entryExists_dset_same _ innerV _ hiv
        (fun y hy => dget?_isSome_dset _ _ _ _ hy) x y h1
    have hpoint := pair_update_rfun R u v f c huv inner innerV hu hc hivR
    have hrest : ∀ pr ∈ rest, entryExists (dset (dset R u (dset inner v (c - f))) v
        (dset innerV u (dgetD innerV u 0 + f))) pr.1 pr.2 ∧
        pr.2 ∈ dkeys (dset (dset R u (dset inner v (c - f))) v
          (dset innerV u (dgetD innerV u 0 + f))) ∧ pr.1 ≠ pr.2 := by
      intro pr hpr
      obtain ⟨h1, h2, h3⟩ := h pr (List.mem_cons_of_mem _ hpr)
      exact ⟨hent2 _ _ h1, by rwa [hkeys2], h3⟩
    obtain ⟨R3, hrun, hpt3, hwf3, hk3, he3⟩ := ih _ hwf2 hrest
    refine ⟨R3, ?_, ?_, hwf3, by rw [hk3, hkeys2], fun x y hxy => he3 x y (hent2 x y hxy)⟩
    · simp only [augmentUpdate, hu, hc, hiv]
      exact hrun
    · intro x y
      rw [hpt3, hpoint x y, List.count_cons, List.count_cons]
      simp only [beq_iff_eq, Prod.mk.injEq]
      have hne2 : ¬(u = v) := fun hcon => huv (by simpa using hcon)
      by_cases hce1 : u = y ∧ v = x <;> by_cases hce2 : u = x ∧ v = y
      · exact absurd (hce1.1 ▸ hce2.2 ▸ rfl : u = v) hne2
      · have d1 : x = v ∧ y = u := ⟨hce1.2.symm, hce1.1.symm⟩
        have d2 : ¬(x = u ∧ y = v) := fun hcon => hce2 ⟨hcon.1.symm, hcon.2.symm⟩
        rw [if_pos hce1, if_neg hce2, if_pos d1, if_neg d2]
        push_cast
        ring
      · have d1 : ¬(x = v ∧ y = u) := fun hcon => hce1 ⟨hcon.2.symm, hcon.1.symm⟩
        have d2 : x = u ∧ y = v := ⟨hce2.1.symm, hce2.2.symm⟩
        rw [if_neg hce1, if_pos hce2, if_neg d1, if_pos d2]
        push_cast
        ring
      · have d1 : ¬(x = v ∧ y = u) := fun hcon => hce1 ⟨hcon.2.symm, hcon.1.symm⟩
        have d2 : ¬(x = u ∧ y = v) := fun hcon => hce2 ⟨hcon.1.symm, hcon.2.symm⟩
        rw [if_neg hce1, if_neg hce2, if_neg d1, if_neg d2]
        push_cast
        ring

lemma pathPairs_mem_comp (p : List ℕ) :
    ∀ pr ∈ pathPairs p, pr.1 ∈ p ∧ pr.2 ∈ p := by
  induction p with
  | nil => intro pr hpr; cases hpr
  | cons a rest ih =>
    cases rest with
    | nil => intro pr hpr; cases hpr
    | cons b rest2 =>
      intro pr hpr
      simp only [pathPairs, List.mem_cons] at hpr
      rcases hpr with rfl | hpr
      · exact ⟨by simp, by simp⟩
      · obtain ⟨h1, h2⟩ := ih pr hpr
        exact ⟨List.mem_cons_of_mem _ h1, List.mem_cons_of_mem _ h2⟩

lemma pathPairs_fst_ne_snd (p : List ℕ) (hnd : p.Nodup) :
    ∀ pr ∈ pathPairs p, pr.1 ≠ pr.2 := by
  induction p with
  | nil => intro pr hpr; cases hpr
  | cons a rest ih =>
    cases rest with
    | nil => intro pr hpr; cases hpr
    | cons b rest2 =>
      intro pr hpr
      simp only [pathPairs, List.mem_cons] at hpr
      rcases hpr with rfl | hpr
      · intro hcon
        simp only at hcon
        exact (List.nodup_cons.mp hnd).1 (hcon ▸ List.mem_cons_self b rest2)
      · exact ih (List.nodup_cons.mp hnd).2 pr hpr

lemma pathPairs_nodup (p : List ℕ) (hnd : p.Nodup) : (pathPairs p).Nodup := by
  induction p with
  | nil => exact List.nodup_nil
  | cons a rest ih =>
    cases rest with
    | nil => exact List.nodup_nil
    | cons b rest2 =>
      rw [pathPairs, List.nodup_cons]
      refine ⟨?_, ih (List.nodup_cons.mp hnd).2⟩
      intro hmem
      have := (pathPairs_mem_comp _ _ hmem).1
      simp only at this
      exact (List.nodup_cons.mp hnd).1 this

lemma pathPairs_no_reverse (p : List ℕ) (hnd : p.Nodup) (x y : ℕ)
    (hxy : (x, y) ∈ pathPairs p) : (y, x) ∉ pathPairs p := by
  induction p with
  | nil => cases hxy
  | cons a rest ih =>
    cases rest with
    | nil => cases hxy
    | cons b rest2 =>
      simp only [pathPairs, List.mem_cons, Prod.mk.injEq] at hxy ⊢
      have hanotin : a ∉ b :: rest2 := (List.nodup_cons.mp hnd).1
      rcases hxy with ⟨rfl, rfl⟩ | hxy
      · rintro (⟨rfl, h2⟩ | hmem)
        · exact hanotin (by simp)
        · exact hanotin (pathPairs_mem_comp _ _ hmem).2
      · rintro (⟨rfl, rfl⟩ | hmem)
        · exact hanotin (pathPairs_mem_comp _ _ hxy).2
        · exact (ih (List.nodup_cons.mp hnd).2 hxy) hmem

lemma pathPairs_snd_cases (p : List ℕ) (h : p ≠ []) :
    ∀ pr ∈ pathPairs p, pr.2 = p.getLast h ∨ ∃ pr2 ∈ pathPairs p, pr2.1 = pr.2 := by
  induction p with
  | nil => exact absurd rfl h
  | cons a rest ih =>
    cases rest with
    | nil => intro pr hpr; cases hpr
    | cons b rest2 =>
      intro pr hpr
      simp only [pathPairs, List.mem_cons] at hpr
      rcases hpr with rfl | hpr
      · cases rest2 with
        | nil => exact Or.inl (by simp [List.getLast])
        | cons d rest3 =>
          refine Or.inr ⟨(b, d), ?_, rfl⟩
          simp [pathPairs]
      · rcases ih (by simp) pr hpr with h' | ⟨pr2, hpr2, heq⟩
        · left
          rw [h']
          simp [List.getLast_cons]
        · exact Or.inr ⟨pr2, List.mem_cons_of_mem _ hpr2, heq⟩

lemma pathPairs_ne_nil (p : List ℕ) (h : 2 ≤ p.length) : pathPairs p ≠ [] := by
  rcases p with _ | ⟨a, _ | ⟨b, rest⟩⟩
  · simp at h
  · simp at h
  · simp [pathPairs]

lemma augmentOnce_spec (R : CapGraph) (F : WithTop ℤ) (source sink : ℕ)
    (fuel : ℕ) (hwf : CapWF R) (hsink : sink ∈ dkeys R) (hne : source ≠ sink) :
    (augmentOnce R F source sink fuel = none) ∨
    (augmentOnce R F source sink fuel = some (.ok none) ∧ ¬ Reach R source sink) ∨
    (∃ p f R2, augmentOnce R F source sink fuel =
        some (.ok (some (R2, F + ((f : ℤ) : WithTop ℤ)))) ∧
      GoodPath R source sink p ∧ 2 ≤ p.length ∧ 0 < f ∧
      (∀ pr ∈ pathPairs p, f ≤ rfun R pr.1 pr.2) ∧
      (∃ pr ∈ pathPairs p, f = rfun R pr.1 pr.2) ∧
      (∀ x y, rfun R2 x y = rfun R x y
        + f * (((pathPairs p).count (y, x) : ℤ) - ((pathPairs p).count (x, y) : ℤ))) ∧
      CapWF R2 ∧ dkeys R2 = dkeys R ∧
      (∀ x y, entryExists R x y → entryExists R2 x y)) := by
  rcases bfs_spec R source sink hwf hne fuel with hb | ⟨p', v', hb, hnr⟩ |
    ⟨parent', visited', c, hb, hinv, hsrc, hsv, hpar⟩
  · left
    simp only [augmentOnce, hb]
  · right
    left
    constructor
    · simp only [augmentOnce, hb]
    · exact hnr
  · rcases buildPath_from_sink R source sink visited' parent' hinv hsrc hsv c
        hpar fuel with hbp | ⟨p, hbp, hgood, hmemv, hlen⟩
    · left
      simp only [augmentOnce, hb, hbp]
    · have hentries : ∀ pr ∈ (pathPairs p).reverse, entryExists R pr.1 pr.2 := by
        intro pr hpr
        rw [List.mem_reverse] at hpr
        obtain ⟨inner, hi, cc, hcc, _⟩ :=
          rfun_pos_entry R pr.1 pr.2 (hgood.chain pr hpr)
        exact ⟨inner, hi, by rw [hcc]; rfl⟩
      obtain ⟨r, hbot, hrtop, hrall, hrcases⟩ :=
        bottleneck_spec R ((pathPairs p).reverse) ⊤ hentries
      have hpne : pathPairs p ≠ [] := pathPairs_ne_nil p hlen
      obtain ⟨pr0, hpr0⟩ := List.exists_mem_of_ne_nil _ hpne
      have hr_lt_top : r ≠ ⊤ := by
        intro hcon
        have := hrall pr0 (List.mem_reverse.mpr hpr0)
        rw [hcon] at this
        have h2 := lt_of_le_of_lt this (WithTop.coe_lt_top _)
        exact absurd h2 (lt_irrefl _)
      obtain ⟨f, hf⟩ := WithTop.ne_top_iff_exists.mp hr_lt_top
      subst hf
      have hfcases : ∃ pr ∈ pathPairs p, f = rfun R pr.1 pr.2 := by
        rcases hrcases with hcon | ⟨pr, hpr, heq⟩
        · cases hcon
        · refine ⟨pr, List.mem_reverse.mp hpr, ?_⟩
          exact_mod_cast heq
      have hfall : ∀ pr ∈ pathPairs p, f ≤ rfun R pr.1 pr.2 := by
        intro pr hpr
        have := hrall pr (List.mem_reverse.mpr hpr)
        exact_mod_cast this
      have hfpos : 0 < f := by
        obtain ⟨pr, hpr, heq⟩ := hfcases
        rw [heq]
        exact hgood.chain pr hpr
      have hsndkeys : ∀ pr ∈ (pathPairs p).reverse,
          entryExists R pr.1 pr.2 ∧ pr.2 ∈ dkeys R ∧ pr.1 ≠ pr.2 := by
        intro pr hpr
        rw [List.mem_reverse] at hpr
        refine ⟨hentries pr (List.mem_reverse.mpr hpr), ?_,
          pathPairs_fst_ne_snd p hgood.nodup pr hpr⟩
        have hpnenil : p ≠ [] := by
          intro hcon
          rw [hcon] at hlen
          simp at hlen
        rcases pathPairs_snd_cases p hpnenil pr hpr with h' | ⟨pr2, hpr2, heq⟩
        · rw [h']
          have := hgood.lastok
          rw [List.getLast?_eq_getLast p hpnenil, Option.some_inj] at this
          rw [this]
          exact hsink
        · rw [← heq]
          exact rfun_mem_keys R pr2.1 pr2.2 (hgood.chain pr2 hpr2)
      obtain ⟨R2, hau, hpt, hwf2, hk2, he2⟩ :=
        augmentUpdate_spec f ((pathPairs p).reverse) R hwf hsndkeys
      right
      right
      refine ⟨p, f, R2, ?_, hgood, hlen, hfpos, hfall, hfcases, ?_, hwf2, hk2, he2⟩
      · have huntop : WithTop.untop' 0 ((f : ℤ) : WithTop ℤ) = f := rfl
        simp only [augmentOnce, hb, hbp, hbot, huntop, hau]
      · intro x y
        rw [hpt x y, List.count_reverse, List.count_reverse]

instance (g : CapGraph) : Decidable (CapWF g) := by
  unfold CapWF
  infer_instance

lemma count_eq_one_of_mem_pairs (l : List (ℕ × ℕ)) (a : ℕ × ℕ)
    (hnd : l.Nodup) (h : a ∈ l) : l.count a = 1 := by
  induction l with
  | nil => cases h
  | cons b rest ih =>
    rw [List.count_cons]
    rcases List.mem_cons.mp h with rfl | hmem
    · rw [List.count_eq_zero_of_not_mem (List.nodup_cons.mp hnd).1]
      simp
    · rw [ih (List.nodup_cons.mp hnd).2 hmem]
      have hne2 : a ≠ b := by
        rintro rfl
        exact (List.nodup_cons.mp hnd).1 hmem
      simp [hne2, Ne.symm hne2]

lemma rfun_nonneg_of_entries (g : CapGraph)
    (h : ∀ p ∈ g, ∀ q ∈ p.2, 0 ≤ q.2) : ∀ x y, 0 ≤ rfun g x y := by
  intro x y
  unfold rfun
  rcases hx : dget? g x with _ | inner
  · exact le_rfl
  · show 0 ≤ (dget? inner y).getD 0
    rcases hy : dget? inner y with _ | c
    · simp
    · simp only [Option.getD_some]
      exact h (x, inner) (dget?_mem _ _ _ hx) (y, c) (dget?_mem _ _ _ hy)

/-- the state of `ford_fulkerson`'s augmenting loop after at most `n`
augmentations (the state freezes once the loop guard fails). -/
def ffSteps (source sink innerFuel : ℕ) :
    ℕ → CapGraph → WithTop ℤ → Step (CapGraph × WithTop ℤ)
  | 0, R, F => some (.ok (R, F))
  | n + 1, R, F =>
    match augmentOnce R F source sink innerFuel with
    | none => none
    | some (.error e) => some (.error e)
    | some (.ok none) => some (.ok (R, F))
    | some (.ok (some (R2, F2))) => ffSteps source sink innerFuel n R2 F2

lemma augment_nonneg (R R2 : CapGraph) (p : List ℕ) (f : ℤ)
    (hnd : p.Nodup) (hfpos : 0 < f)
    (hfall : ∀ pr ∈ pathPairs p, f ≤ rfun R pr.1 pr.2)
    (hpt : ∀ x y, rfun R2 x y = rfun R x y
      + f * (((pathPairs p).count (y, x) : ℤ) - ((pathPairs p).count (x, y) : ℤ)))
    (hnn : ∀ x y, 0 ≤ rfun R x y) :
    ∀ x y, 0 ≤ rfun R2 x y := by
  intro x y
  rw [hpt]
  by_cases h1 : (x, y) ∈ pathPairs p
  · have hc1 : (pathPairs p).count (x, y) = 1 :=
      count_eq_one_of_mem_pairs _ _ (pathPairs_nodup p hnd) h1
    have h2 : (y, x) ∉ pathPairs p := pathPairs_no_reverse p hnd x y h1
    have hc2 : (pathPairs p).count (y, x) = 0 :=
      List.count_eq_zero_of_not_mem h2
    rw [hc1, hc2]
    have := hfall (x, y) h1
    push_cast
    linarith
  · have hc1 : (pathPairs p).count (x, y) = 0 := List.count_eq_zero_of_not_mem h1
    rw [hc1]
    by_cases h2 : (y, x) ∈ pathPairs p
    · have hc2 : (pathPairs p).count (y, x) = 1 :=
        count_eq_one_of_mem_pairs _ _ (pathPairs_nodup p hnd) h2
      rw [hc2]
      have := hnn x y
      push_cast
      linarith
    · have hc2 : (pathPairs p).count (y, x) = 0 := List.count_eq_zero_of_not_mem h2
      rw [hc2]
      have := hnn x y
      push_cast
      linarith

lemma ffSteps_inv (source sink innerFuel : ℕ) (hne : source ≠ sink) :
    ∀ n (R : CapGraph) (F : WithTop ℤ), CapWF R → sink ∈ dkeys R →
      (∀ x y, 0 ≤ rfun R x y) →
      ∀ R' F', ffSteps source sink innerFuel n R F = some (.ok (R', F')) →
        CapWF R' ∧ sink ∈ dkeys R' ∧ (∀ x y, 0 ≤ rfun R' x y) := by
  intro n
  induction n with
  | zero =>
    intro R F h1 h2 h3 R' F' h
    simp only [ffSteps, Option.some_inj, Except.ok.injEq, Prod.mk.injEq] at h
    obtain ⟨rfl, rfl⟩ := h
    exact ⟨h1, h2, h3⟩
  | succ n ih =>
    intro R F h1 h2 h3 R' F' h
    rcases augmentOnce_spec R F source sink innerFuel h1 h2 hne with ha |
      ⟨ha, _⟩ | ⟨p, f, R2, ha, hgood, hlen, hfpos, hfall, hfex, hpt, hwf2, hk2, he2⟩
    · rw [ffSteps, ha] at h
      cases h
    · rw [ffSteps, ha] at h
      simp only [Option.some_inj, Except.ok.injEq, Prod.mk.injEq] at h
      obtain ⟨rfl, rfl⟩ := h
      exact ⟨h1, h2, h3⟩
    · rw [ffSteps, ha] at h
      exact ih R2 (F + ((f : ℤ) : WithTop ℤ)) hwf2 (hk2 ▸ h2)
        (augment_nonneg R R2 p f hgood.nodup hfpos hfall hpt h3) R' F' h

/-- C5: throughout `ford_fulkerson`, residual capacities stay nonnegative.
Any state `(R, F)` the augmenting loop can reach from a wellformed
nonnegative capacity graph has all residual values ≥ 0, and whenever the
loop performs one more augmentation, it pushes exactly the bottleneck
`f` (the minimum, strictly positive, residual capacity along the BFS
augmenting path), decrementing each forward residual on the path by `f`,
incrementing each reverse residual by `f`, leaving all other residual
entries unchanged, so that every residual value stays ≥ 0. -/
theorem ford_fulkerson_residuals_nonneg (g : CapGraph) (source sink : ℕ)
    (hwf : CapWF g) (hnn : ∀ x y, 0 ≤ rfun g x y) (hsink : sink ∈ dkeys g)
    (hne : source ≠ sink) (innerFuel : ℕ) :
    ∀ n R F, ffSteps source sink innerFuel n g 0 = some (.ok (R, F)) →
      (∀ x y, 0 ≤ rfun R x y) ∧
      (∀ R2 F2, augmentOnce R F source sink innerFuel = some (.ok (some (R2, F2))) →
        ∃ p f, GoodPath R source sink p ∧ 0 < f ∧
          F2 = F + ((f : ℤ) : WithTop ℤ) ∧
          (∀ pr ∈ pathPairs p, f ≤ rfun R pr.1 pr.2) ∧
          (∃ pr ∈ pathPairs p, f = rfun R pr.1 pr.2) ∧
          (∀ pr ∈ pathPairs p, rfun R2 pr.1 pr.2 = rfun R pr.1 pr.2 - f ∧
            rfun R2 pr.2 pr.1 = rfun R pr.2 pr.1 + f) ∧
          (∀ x y, (x, y) ∉ pathPairs p → (y, x) ∉ pathPairs p →
            rfun R2 x y = rfun R x y) ∧
          (∀ x y, 0 ≤ rfun R2 x y)) := by
  intro n R F h
  obtain ⟨hwfR, hsinkR, hnnR⟩ :=
    ffSteps_inv source sink innerFuel hne n g 0 hwf hsink hnn R F h
  refine ⟨hnnR, ?_⟩
  intro R2 F2 h2
  rcases augmentOnce_spec R F source sink innerFuel hwfR hsinkR hne with ha |
    ⟨ha, _⟩ | ⟨p, f, R2', ha, hgood, hlen, hfpos, hfall, hfex, hpt, hwf2, hk2, he2⟩
  · rw [ha] at h2
    cases h2
  · rw [ha] at h2
    cases h2
  · rw [ha] at h2
    simp only [Option.some_inj, Except.ok.injEq, Option.some_inj,
      Prod.mk.injEq] at h2
    obtain ⟨rfl, rfl⟩ := h2
    refine ⟨p, f, hgood, hfpos, rfl, hfall, hfex, ?_, ?_, ?_⟩
    · intro pr hpr
      have hnd := pathPairs_nodup p hgood.nodup
      have hfwd : (pathPairs p).count (pr.1, pr.2) = 1 :=
        count_eq_one_of_mem_pairs _ _ hnd (by simpa using hpr)
      have hrev : (pathPairs p).count (pr.2, pr.1) = 0 :=
        List.count_eq_zero_of_not_mem
          (pathPairs_no_reverse p hgood.nodup pr.1 pr.2 (by simpa using hpr))
      constructor
      · rw [hpt pr.1 pr.2, hrev, hfwd]
        push_cast
        ring
      · rw [hpt pr.2 pr.1, hrev, hfwd]
        push_cast
        ring
    · intro x y hx hy
      rw [hpt x y, List.count_eq_zero_of_not_mem hy,
        List.count_eq_zero_of_not_mem hx]
      push_cast
      ring
    · exact augment_nonneg R R2' p f hgood.nodup hfpos hfall hpt hnnR

/-- C5 witness: on the two-node graph 0 → 1 with capacity 3, hypotheses
hold and the theorem applies. -/
theorem ford_fulkerson_residuals_nonneg_witness :
    CapWF [(0, [(1, 3)]), (1, [])] ∧
    (∀ x y, 0 ≤ rfun [(0, [(1, 3)]), (1, [])] x y) ∧
    (∀ n R F, ffSteps 0 1 5 n [(0, [(1, 3)]), (1, [])] 0 = some (.ok (R, F)) →
      (∀ x y, 0 ≤ rfun R x y) ∧
      (∀ R2 F2, augmentOnce R F 0 1 5 = some (.ok (some (R2, F2))) →
        ∃ p f, GoodPath R 0 1 p ∧ 0 < f ∧
          F2 = F + ((f : ℤ) : WithTop ℤ) ∧
          (∀ pr ∈ pathPairs p, f ≤ rfun R pr.1 pr.2) ∧
          (∃ pr ∈ pathPairs p, f = rfun R pr.1 pr.2) ∧
          (∀ pr ∈ pathPairs p, rfun R2 pr.1 pr.2 = rfun R pr.1 pr.2 - f ∧
            rfun R2 pr.2 pr.1 = rfun R pr.2 pr.1 + f) ∧
          (∀ x y, (x, y) ∉ pathPairs p → (y, x) ∉ pathPairs p →
            rfun R2 x y = rfun R x y) ∧
          (∀ x y, 0 ≤ rfun R2 x y))) := by
  have hnn : ∀ x y, 0 ≤ rfun [(0, [(1, 3)]), (1, [])] x y :=
    rfun_nonneg_of_entries _ (by decide)
  exact ⟨by decide, hnn,
    ford_fulkerson_residuals_nonneg [(0, [(1, 3)]), (1, [])] 0 1
      (by decide) hnn (by decide) (by decide) 5⟩

lemma ffLoop_no_error (source sink innerFuel : ℕ) (hne : source ≠ sink) :
    ∀ fuel (R : CapGraph) (F : WithTop ℤ), CapWF R → sink ∈ dkeys R →
      ∀ e, ffLoop source sink innerFuel fuel R F ≠ some (.error e) := by
  intro fuel
  induction fuel with
  | zero =>
    intro R F h1 h2 e
    simp [ffLoop]
  | succ fuel ih =>
    intro R F h1 h2 e
    rcases augmentOnce_spec R F source sink innerFuel h1 h2 hne with ha |
      ⟨ha, _⟩ | ⟨p, f, R2, ha, hgood, hlen, hfpos, hfall, hfex, hpt, hwf2, hk2, he2⟩
    · rw [ffLoop, ha]
      simp
    · rw [ffLoop, ha]
      simp
    · rw [ffLoop, ha]
      exact ih R2 (F + ((f : ℤ) : WithTop ℤ)) hwf2 (hk2 ▸ h2) e

/-- C10: with the sink taken from the graph's keys, `ford_fulkerson` never
raises a missing-key error: BFS assigns parents only from nodes with
outgoing residual entries, so every node of an augmenting path except the
source is a key of the residual dict, and the bottleneck lookups
`residual_graph[parent[s]][s]` and the reverse-edge update
`residual_graph[v][u]` always find their keys — even when destination-only
airports never appear as keys of the graph. -/
theorem ford_fulkerson_no_missing_key (g : CapGraph) (source sink : ℕ)
    (hwf : CapWF g) (hsink : sink ∈ dkeys g) (hne : source ≠ sink) :
    ∀ fuel e, ford_fulkerson g source sink fuel ≠ some (.error e) := by
  intro fuel e
  exact ffLoop_no_error source sink fuel hne fuel g 0 hwf hsink e

/-- C10 witness: a graph whose node 2 is destination-only (never a key). -/
theorem ford_fulkerson_no_missing_key_witness :
    CapWF [(0, [(1, 3), (2, 2)]), (1, [(2, 1)])] ∧
    (1 : ℕ) ∈ dkeys [(0, [(1, 3), (2, 2)]), (1, [(2, 1)])] ∧
    (0 : ℕ) ≠ 1 ∧
    (∀ fuel e, ford_fulkerson [(0, [(1, 3), (2, 2)]), (1, [(2, 1)])] 0 1 fuel ≠
      some (.error e)) :=
  ⟨by decide, by decide, by decide,
    ford_fulkerson_no_missing_key [(0, [(1, 3), (2, 2)]), (1, [(2, 1)])] 0 1
      (by decide) (by decide) (by decide)⟩

/-! ## C1 : max-flow / min-cut duality of ford_fulkerson and find_min_cut -/

/-- all node names mentioned by the capacity graph `g` (outer keys and inner
keys): the universe over which flow-conservation sums range. -/
def nodesOf (g : CapGraph) : Finset ℕ :=
  (dkeys g).toFinset ∪ ((g.map (fun p => dkeys p.2)).flatten).toFinset

/-- net flow out of `x` in residual state `R`: original capacity minus
residual capacity, summed over all graph nodes. -/
def netout (g R : CapGraph) (x : ℕ) : ℤ :=
  Finset.sum (nodesOf g) (fun v => rfun g x v - rfun R x v)

lemma mem_nodesOf_of_key (g : CapGraph) (x : ℕ) (h : x ∈ dkeys g) :
    x ∈ nodesOf g :=
  Finset.mem_union_left _ (List.mem_toFinset.mpr h)

lemma mem_nodesOf_of_inner (g : CapGraph) (u : ℕ) (inner : Dict ℕ ℤ)
    (hmem : (u, inner) ∈ g) (y : ℕ) (hy : y ∈ dkeys inner) :
    y ∈ nodesOf g := by
  refine Finset.mem_union_right _ (List.mem_toFinset.mpr ?_)
  exact List.mem_flatten.mpr ⟨dkeys inner, List.mem_map_of_mem _ hmem, hy⟩

lemma rfun_ne_zero_mem_nodesOf (g : CapGraph) (x y : ℕ)
    (h : rfun g x y ≠ 0) : x ∈ nodesOf g ∧ y ∈ nodesOf g := by
  unfold rfun at h
  rcases hx : dget? g x with _ | inner
  · rw [hx] at h
    exact absurd rfl h
  · rw [hx] at h
    have hxk : x ∈ dkeys g := by
      rw [mem_dkeys_iff_isSome, hx]
      rfl
    rcases hy : dget? inner y with _ | c
    · simp only [dgetD, hy, Option.getD_none] at h
      exact absurd rfl h
    · have hyk : y ∈ dkeys inner := by
        rw [mem_dkeys_iff_isSome, hy]
        rfl
      exact ⟨mem_nodesOf_of_key g x hxk,
        mem_nodesOf_of_inner g x inner (dget?_mem _ _ _ hx) y hyk⟩

lemma map_fst_pathPairs : ∀ p : List ℕ, (pathPairs p).map Prod.fst = p.dropLast
  | [] => rfl
  | [_] => rfl
  | a :: b :: rest => by
    show (a, b).1 :: (pathPairs (b :: rest)).map Prod.fst = (a :: b :: rest).dropLast
    rw [map_fst_pathPairs (b :: rest)]
    rfl

lemma map_snd_pathPairs : ∀ p : List ℕ, (pathPairs p).map Prod.snd = p.tail
  | [] => rfl
  | [_] => rfl
  | a :: b :: rest => by
    show (a, b).2 :: (pathPairs (b :: rest)).map Prod.snd = (a :: b :: rest).tail
    rw [map_snd_pathPairs (b :: rest)]
    rfl

lemma countP_beq_of_nodup (l : List ℕ) (hnd : l.Nodup) (x : ℕ) :
    l.countP (fun a => a == x) = if x ∈ l then 1 else 0 := by
  induction l with
  | nil => simp
  | cons a rest ih =>
    rw [List.countP_cons, ih (List.nodup_cons.mp hnd).2]
    by_cases hax : x = a
    · subst hax
      have hnr : x ∉ rest := (List.nodup_cons.mp hnd).1
      simp [hnr]
    · simp [hax, Ne.symm hax]

lemma countP_fst_pathPairs (p : List ℕ) (hnd : p.Nodup) (x : ℕ) :
    (pathPairs p).countP (fun pr => pr.1 == x) =
      if x ∈ p.dropLast then 1 else 0 := by
  have h1 : (pathPairs p).countP (fun pr => pr.1 == x)
      = ((pathPairs p).map Prod.fst).countP (fun a => a == x) := by
    rw [List.countP_map]
    rfl
  rw [h1, map_fst_pathPairs]
  exact countP_beq_of_nodup _ ((List.dropLast_sublist p).nodup hnd) x

lemma countP_snd_pathPairs (p : List ℕ) (hnd : p.Nodup) (x : ℕ) :
    (pathPairs p).countP (fun pr => pr.2 == x) =
      if x ∈ p.tail then 1 else 0 := by
  have h1 : (pathPairs p).countP (fun pr => pr.2 == x)
      = ((pathPairs p).map Prod.snd).countP (fun a => a == x) := by
    rw [List.countP_map]
    rfl
  rw [h1, map_snd_pathPairs]
  exact countP_beq_of_nodup _ ((List.tail_sublist p).nodup hnd) x

lemma mem_dropLast_facts (p : List ℕ) (source sink : ℕ) (hnd : p.Nodup)
    (hhead : p.head? = some source) (hlast : p.getLast? = some sink)
    (hlen : 2 ≤ p.length) :
    (source ∈ p.dropLast ∧ sink ∉ p.dropLast ∧
     sink ∈ p.tail ∧ source ∉ p.tail) ∧
    ∀ x ∈ p, x ≠ source → x ≠ sink → (x ∈ p.dropLast ∧ x ∈ p.tail) := by
  have hpn : p ≠ [] := by
    intro hc
    rw [hc] at hlen
    simp at hlen
  have hlast' : p.getLast hpn = sink := by
    rw [List.getLast?_eq_getLast p hpn, Option.some_inj] at hlast
    exact hlast
  have hsplit : p.dropLast ++ [sink] = p := by
    rw [← hlast']
    exact List.dropLast_append_getLast hpn
  have hndd : (p.dropLast ++ [sink]).Nodup := by
    rw [hsplit]
    exact hnd
  have hsinkd : sink ∉ p.dropLast := by
    rcases List.nodup_append.mp hndd with ⟨_, _, hdisj⟩
    intro hc
    exact hdisj hc (List.mem_singleton.mpr rfl)
  obtain ⟨t, hp⟩ : ∃ t, p = source :: t := by
    cases p with
    | nil => cases hhead
    | cons a t =>
      refine ⟨t, ?_⟩
      have : a = source := by simpa using hhead
      rw [this]
  have htn : t ≠ [] := by
    intro hc
    rw [hp, hc] at hlen
    simp at hlen
  subst hp
  have hsrcd : source ∈ (source :: t).dropLast := by
    cases t with
    | nil => exact absurd rfl htn
    | cons b t2 => exact List.mem_cons_self _ _
  have hsrct : source ∉ (source :: t).tail := by
    rw [List.tail_cons]
    exact (List.nodup_cons.mp hnd).1
  have hsinkt : sink ∈ (source :: t).tail := by
    rw [List.tail_cons]
    have hgl : (source :: t).getLast hpn = t.getLast htn := List.getLast_cons htn
    rw [hgl] at hlast'
    rw [← hlast']
    exact List.getLast_mem htn
  refine ⟨⟨hsrcd, hsinkd, hsinkt, hsrct⟩, ?_⟩
  intro x hx hxs hxk
  constructor
  · rw [← hsplit] at hx
    rcases List.mem_append.mp hx with h' | h'
    · exact h'
    · exact absurd (List.mem_singleton.mp h') hxk
  · rw [List.tail_cons]
    rcases List.mem_cons.mp hx with h' | h'
    · exact absurd h' hxs
    · exact h'

lemma sum_count_fst (pairs : List (ℕ × ℕ)) (N : Finset ℕ) (x : ℕ)
    (h2 : ∀ pr ∈ pairs, pr.2 ∈ N) :
    Finset.sum N (fun v => pairs.count (x, v)) =
      pairs.countP (fun pr => pr.1 == x) := by
  induction pairs with
  | nil => simp
  | cons ab rest ih =>
    obtain ⟨a, b⟩ := ab
    have hb : b ∈ N := h2 (a, b) (List.mem_cons_self _ _)
    have ihr := ih (fun pr hpr => h2 pr (List.mem_cons_of_mem _ hpr))
    have hpt : ∀ v ∈ N, ((a, b) :: rest).count (x, v)
        = rest.count (x, v) + if x = a ∧ v = b then 1 else 0 := by
      intro v _
      rw [List.count_cons]
      by_cases h1 : x = a ∧ v = b
      · obtain ⟨hxa, hvb⟩ := h1
        subst hxa
        subst hvb
        simp
      · rw [if_neg h1]
        have hne : ¬ ((a, b) == (x, v)) = true := by
          simp only [beq_iff_eq, Prod.mk.injEq]
          intro hc
          exact h1 ⟨hc.1.symm, hc.2.symm⟩
        rw [if_neg hne]
    rw [Finset.sum_congr rfl hpt, Finset.sum_add_distrib, ihr,
      List.countP_cons]
    congr 1
    by_cases h1 : x = a
    · have hc : ∀ v ∈ N, (if x = a ∧ v = b then 1 else 0)
          = if v = b then 1 else 0 := by
        intro v _
        simp [h1]
      rw [Finset.sum_congr rfl hc, Finset.sum_ite_eq' N b (fun _ => 1),
        if_pos hb]
      simp [h1]
    · have hc : ∀ v ∈ N, (if x = a ∧ v = b then 1 else 0) = 0 := by
        intro v _
        simp [h1]
      rw [Finset.sum_congr rfl hc]
      simp [beq_iff_eq, Ne.symm h1]

lemma sum_count_snd (pairs : List (ℕ × ℕ)) (N : Finset ℕ) (x : ℕ)
    (h1 : ∀ pr ∈ pairs, pr.1 ∈ N) :
    Finset.sum N (fun v => pairs.count (v, x)) =
      pairs.countP (fun pr => pr.2 == x) := by
  induction pairs with
  | nil => simp
  | cons ab rest ih =>
    obtain ⟨a, b⟩ := ab
    have ha : a ∈ N := h1 (a, b) (List.mem_cons_self _ _)
    have ihr := ih (fun pr hpr => h1 pr (List.mem_cons_of_mem _ hpr))
    have hpt : ∀ v ∈ N, ((a, b) :: rest).count (v, x)
        = rest.count (v, x) + if v = a ∧ x = b then 1 else 0 := by
      intro v _
      rw [List.count_cons]
      by_cases h1 : v = a ∧ x = b
      · obtain ⟨hva, hxb⟩ := h1
        subst hva
        subst hxb
        simp
      · rw [if_neg h1]
        have hne : ¬ ((a, b) == (v, x)) = true := by
          simp only [beq_iff_eq, Prod.mk.injEq]
          intro hc
          exact h1 ⟨hc.1.symm, hc.2.symm⟩
        rw [if_neg hne]
    rw [Finset.sum_congr rfl hpt, Finset.sum_add_distrib, ihr,
      List.countP_cons]
    congr 1
    by_cases hx : x = b
    · have hc : ∀ v ∈ N, (if v = a ∧ x = b then 1 else 0)
          = if v = a then 1 else 0 := by
        intro v _
        simp [hx]
      rw [Finset.sum_congr rfl hc, Finset.sum_ite_eq' N a (fun _ => 1),
        if_pos ha]
      simp [hx]
    · have hc : ∀ v ∈ N, (if v = a ∧ x = b then 1 else 0) = 0 := by
        intro v _
        simp [hx]
      rw [Finset.sum_congr rfl hc]
      simp [beq_iff_eq, Ne.symm hx]

lemma netout_augment (g R R2 : CapGraph) (p : List ℕ) (f : ℤ)
    (source sink : ℕ) (hnd : p.Nodup)
    (hhead : p.head? = some source) (hlast : p.getLast? = some sink)
    (hlen : 2 ≤ p.length)
    (hmem : ∀ pr ∈ pathPairs p, pr.1 ∈ nodesOf g ∧ pr.2 ∈ nodesOf g)
    (hpt : ∀ x y, rfun R2 x y = rfun R x y
      + f * (((pathPairs p).count (y, x) : ℤ)
           - ((pathPairs p).count (x, y) : ℤ))) :
    netout g R2 source = netout g R source + f ∧
    ∀ x, x ≠ source → x ≠ sink → netout g R2 x = netout g R x := by
  have key : ∀ x, netout g R2 x = netout g R x
      + f * ((((pathPairs p).countP (fun pr => pr.1 == x) : ℕ) : ℤ)
           - (((pathPairs p).countP (fun pr => pr.2 == x) : ℕ) : ℤ)) := by
    intro x
    have hpoint : ∀ v ∈ nodesOf g, rfun g x v - rfun R2 x v
        = (rfun g x v - rfun R x v)
          + (f * ((pathPairs p).count (x, v) : ℤ)
             - f * ((pathPairs p).count (v, x) : ℤ)) := by
      intro v _
      rw [hpt x v]
      ring
    have c1 : Finset.sum (nodesOf g)
        (fun v => ((pathPairs p).count (x, v) : ℤ))
        = (((pathPairs p).countP (fun pr => pr.1 == x) : ℕ) : ℤ) := by
      rw [← sum_count_fst (pathPairs p) (nodesOf g) x
        (fun pr hpr => (hmem pr hpr).2)]
      push_cast
      rfl
    have c2 : Finset.sum (nodesOf g)
        (fun v => ((pathPairs p).count (v, x) : ℤ))
        = (((pathPairs p).countP (fun pr => pr.2 == x) : ℕ) : ℤ) := by
      rw [← sum_count_snd (pathPairs p) (nodesOf g) x
        (fun pr hpr => (hmem pr hpr).1)]
      push_cast
      rfl
    unfold netout
    rw [Finset.sum_congr rfl hpoint, Finset.sum_add_distrib,
      Finset.sum_sub_distrib, Finset.sum_sub_distrib,
      ← Finset.mul_sum, ← Finset.mul_sum, c1, c2]
    ring
  obtain ⟨⟨hs1, hs2, hs3, hs4⟩, hint⟩ :=
    mem_dropLast_facts p source sink hnd hhead hlast hlen
  refine ⟨?_, ?_⟩
  · rw [key source, countP_fst_pathPairs p hnd, countP_snd_pathPairs p hnd,
      if_pos hs1, if_neg hs4]
    push_cast
    ring
  · intro x hxs hxk
    rw [key x, countP_fst_pathPairs p hnd, countP_snd_pathPairs p hnd]
    by_cases hx : x ∈ p
    · obtain ⟨hd, ht⟩ := hint x hx hxs hxk
      rw [if_pos hd, if_pos ht]
      push_cast
      ring
    · have hd : x ∉ p.dropLast :=
        fun hc => hx ((List.dropLast_sublist p).subset hc)
      have ht : x ∉ p.tail := fun hc => hx ((List.tail_sublist p).subset hc)
      rw [if_neg hd, if_neg ht]
      push_cast
      ring

/-- invariant carried by `ford_fulkerson`'s augmenting loop: the residual
graph stays wellformed and nonnegative, residual changes are antisymmetric
(skew symmetry of flow), flow is conserved at internal nodes, and the
accumulated `max_flow` equals the net flow out of the source. -/
structure FlowInv (g : CapGraph) (source sink : ℕ) (R : CapGraph)
    (F : WithTop ℤ) : Prop where
  wf : CapWF R
  sink_key : sink ∈ dkeys R
  nonneg : ∀ x y, 0 ≤ rfun R x y
  sym : ∀ x y, rfun R x y + rfun R y x = rfun g x y + rfun g y x
  inside : ∀ x y, rfun R x y ≠ 0 → x ∈ nodesOf g ∧ y ∈ nodesOf g
  conserved : ∀ x, x ≠ source → x ≠ sink → netout g R x = 0
  val : F = ((netout g R source : ℤ) : WithTop ℤ)

lemma flowInv_init (g : CapGraph) (source sink : ℕ) (hwf : CapWF g)
    (hnn : ∀ x y, 0 ≤ rfun g x y) (hsink : sink ∈ dkeys g) :
    FlowInv g source sink g 0 := by
  have hz : ∀ x, netout g g x = 0 := by
    intro x
    unfold netout
    simp
  refine ⟨hwf, hsink, hnn, fun x y => rfl,
    fun x y h => rfun_ne_zero_mem_nodesOf g x y h,
    fun x _ _ => hz x, ?_⟩
  rw [hz source]
  rfl

lemma flowInv_step (g : CapGraph) (source sink : ℕ) (hne : source ≠ sink)
    (R : CapGraph) (F : WithTop ℤ) (inv : FlowInv g source sink R F)
    (innerFuel : ℕ) (R2 : CapGraph) (F2 : WithTop ℤ)
    (h : augmentOnce R F source sink innerFuel = some (.ok (some (R2, F2)))) :
    FlowInv g source sink R2 F2 := by
  rcases augmentOnce_spec R F source sink innerFuel inv.wf inv.sink_key hne
    with ha | ⟨ha, _⟩ |
    ⟨p, f, R2', ha, hgood, hlen, hfpos, hfall, hfex, hpt, hwf2, hk2, he2⟩
  · rw [ha] at h
    cases h
  · rw [ha] at h
    cases h
  · rw [ha] at h
    simp only [Option.some_inj, Except.ok.injEq, Prod.mk.injEq] at h
    obtain ⟨rfl, rfl⟩ := h
    have hmem : ∀ pr ∈ pathPairs p, pr.1 ∈ nodesOf g ∧ pr.2 ∈ nodesOf g := by
      intro pr hpr
      exact inv.inside pr.1 pr.2 (ne_of_gt (hgood.chain pr hpr))
    obtain ⟨hna, hnb⟩ := netout_augment g R R2' p f source sink hgood.nodup
      hgood.headok hgood.lastok hlen hmem hpt
    refine ⟨hwf2, hk2 ▸ inv.sink_key,
      augment_nonneg R R2' p f hgood.nodup hfpos hfall hpt inv.nonneg,
      ?_, ?_, ?_, ?_⟩
    · intro x y
      rw [hpt x y, hpt y x]
      have hs := inv.sym x y
      have hz : f * (((pathPairs p).count (y, x) : ℤ)
            - ((pathPairs p).count (x, y) : ℤ))
          + f * (((pathPairs p).count (x, y) : ℤ)
            - ((pathPairs p).count (y, x) : ℤ)) = 0 := by
        ring
      linarith
    · intro x y hne2
      rw [hpt x y] at hne2
      by_cases hxy : (x, y) ∈ pathPairs p
      · exact ⟨(hmem (x, y) hxy).1, (hmem (x, y) hxy).2⟩
      · by_cases hyx : (y, x) ∈ pathPairs p
        · exact ⟨(hmem (y, x) hyx).2, (hmem (y, x) hyx).1⟩
        · have hr : rfun R x y ≠ 0 := by
            intro hc
            apply hne2
            rw [hc, List.count_eq_zero_of_not_mem hxy,
              List.count_eq_zero_of_not_mem hyx]
            push_cast
            ring
          exact inv.inside x y hr
    · intro x hxs hxk
      rw [hnb x hxs hxk]
      exact inv.conserved x hxs hxk
    · rw [inv.val, hna, ← WithTop.coe_add]

lemma reach_trans (R : CapGraph) (a b c : ℕ) (h1 : Reach R a b)
    (h2 : Reach R b c) : Reach R a c := by
  induction h2 with
  | refl => exact h1
  | step hr hpos ih => exact Reach.step ih hpos

lemma ffLoop_final (g : CapGraph) (source sink innerFuel : ℕ)
    (hne : source ≠ sink) :
    ∀ fuel (R : CapGraph) (F : WithTop ℤ), FlowInv g source sink R F →
      ∀ F' R', ffLoop source sink innerFuel fuel R F = some (.ok (F', R')) →
        FlowInv g source sink R' F' ∧ ¬ Reach R' source sink := by
  intro fuel
  induction fuel with
  | zero =>
    intro R F inv F' R' h
    simp [ffLoop] at h
  | succ fuel ih =>
    intro R F inv F' R' h
    rcases augmentOnce_spec R F source sink innerFuel inv.wf inv.sink_key hne
      with ha | ⟨ha, hnr⟩ |
      ⟨p, f, R2, ha, hgood, hlen, hfpos, hfall, hfex, hpt, hwf2, hk2, he2⟩
    · rw [ffLoop, ha] at h
      cases h
    · rw [ffLoop, ha] at h
      simp only [Option.some_inj, Except.ok.injEq, Prod.mk.injEq] at h
      obtain ⟨rfl, rfl⟩ := h
      exact ⟨inv, hnr⟩
    · rw [ffLoop, ha] at h
      exact ih R2 (F + ((f : ℤ) : WithTop ℤ))
        (flowInv_step g source sink hne R F inv innerFuel R2 _ ha) F' R' h

lemma dfsNbrs_go (R : CapGraph) (hwf : CapWF R) (fuel : ℕ)
    (hP : ∀ node visited visited',
      dfsVisit R fuel node visited = some visited' →
      visited ⊆ visited' ∧ node ∈ visited' ∧
      (∀ x ∈ visited', x ∈ visited ∨ Reach R node x) ∧
      (∀ x ∈ visited', x ∈ visited ∨ ∀ v, 0 < rfun R x v → v ∈ visited')) :
    ∀ l visited visited', dfsNbrs (dfsVisit R fuel) l visited = some visited' →
      visited ⊆ visited' ∧
      (∀ pr ∈ l, 0 < pr.2 → pr.1 ∈ visited') ∧
      (∀ x ∈ visited', x ∈ visited ∨ ∃ pr ∈ l, 0 < pr.2 ∧ Reach R pr.1 x) ∧
      (∀ x ∈ visited', x ∈ visited ∨ ∀ v, 0 < rfun R x v → v ∈ visited') := by
  intro l
  induction l with
  | nil =>
    intro visited visited' h
    simp only [dfsNbrs, Option.some_inj] at h
    subst h
    refine ⟨fun x hx => hx, ?_, fun x hx => Or.inl hx, fun x hx => Or.inl hx⟩
    intro pr hpr
    cases hpr
  | cons nbcap rest ih =>
    intro visited visited' h
    obtain ⟨nb, cap⟩ := nbcap
    rw [dfsNbrs] at h
    by_cases hcond : nb ∉ visited ∧ 0 < cap
    · rw [if_pos hcond] at h
      rcases hv : dfsVisit R fuel nb visited with _ | v2
      · rw [hv] at h
        cases h
      · rw [hv] at h
        obtain ⟨hPs, hPn, hPsound, hPclo⟩ := hP nb visited v2 hv
        obtain ⟨hIs, hIl, hIsound, hIclo⟩ := ih v2 visited' h
        refine ⟨fun x hx => hIs (hPs hx), ?_, ?_, ?_⟩
        · intro pr hpr hpos
          rcases List.mem_cons.mp hpr with heq | hmem
          · subst heq
            exact hIs hPn
          · exact hIl pr hmem hpos
        · intro x hx
          rcases hIsound x hx with hx2 | ⟨pr, hpr, hpos, hre⟩
          · rcases hPsound x hx2 with hx3 | hre
            · exact Or.inl hx3
            · exact Or.inr ⟨(nb, cap), List.mem_cons_self _ _, hcond.2, hre⟩
          · exact Or.inr ⟨pr, List.mem_cons_of_mem _ hpr, hpos, hre⟩
        · intro x hx
          rcases hIclo x hx with hx2 | hclo
          · rcases hPclo x hx2 with hx3 | hclo
            · exact Or.inl hx3
            · exact Or.inr (fun v hv2 => hIs (hclo v hv2))
          · exact Or.inr hclo
    · rw [if_neg hcond] at h
      obtain ⟨hIs, hIl, hIsound, hIclo⟩ := ih visited visited' h
      push_neg at hcond
      refine ⟨hIs, ?_, ?_, hIclo⟩
      · intro pr hpr hpos
        rcases List.mem_cons.mp hpr with heq | hmem
        · subst heq
          have hnb : nb ∈ visited := by
            by_contra hnb
            exact absurd hpos (not_lt.mpr (hcond hnb))
          exact hIs hnb
        · exact hIl pr hmem hpos
      · intro x hx
        rcases hIsound x hx with hx2 | ⟨pr, hpr, hpos, hre⟩
        · exact Or.inl hx2
        · exact Or.inr ⟨pr, List.mem_cons_of_mem _ hpr, hpos, hre⟩

lemma dfsVisit_spec (R : CapGraph) (hwf : CapWF R) :
    ∀ fuel node visited visited',
      dfsVisit R fuel node visited = some visited' →
      visited ⊆ visited' ∧ node ∈ visited' ∧
      (∀ x ∈ visited', x ∈ visited ∨ Reach R node x) ∧
      (∀ x ∈ visited', x ∈ visited ∨ ∀ v, 0 < rfun R x v → v ∈ visited') := by
  intro fuel
  induction fuel with
  | zero =>
    intro node visited visited' h
    simp [dfsVisit] at h
  | succ fuel ih =>
    intro node visited visited' h
    rw [dfsVisit] at h
    obtain ⟨hQs, hQl, hQsound, hQclo⟩ := dfsNbrs_go R hwf fuel ih _ _ _ h
    have hsub : visited ⊆ visited' := fun x hx => hQs (sadd_subset visited node hx)
    have hnode : node ∈ visited' := hQs (sadd_self_mem visited node)
    refine ⟨hsub, hnode, ?_, ?_⟩
    · intro x hx
      rcases hQsound x hx with hx2 | ⟨pr, hpr, hpos, hre⟩
      · rcases (mem_sadd visited node x).mp hx2 with hx3 | hx3
        · exact Or.inl hx3
        · subst hx3
          exact Or.inr Reach.refl
      · have hpos2 : 0 < rfun R node pr.1 := by
          rw [dgetD_entries R hwf node pr hpr]
          exact hpos
        exact Or.inr (reach_trans R node pr.1 x (Reach.step Reach.refl hpos2) hre)
    · intro x hx
      rcases hQclo x hx with hx2 | hclo
      · rcases (mem_sadd visited node x).mp hx2 with hx3 | hx3
        · exact Or.inl hx3
        · subst hx3
          refine Or.inr ?_
          intro v hv
          obtain ⟨inner, hni, c, hvc, hcpos⟩ := rfun_pos_entry R x v hv
          have hmem : (v, c) ∈ dgetD R x [] := by
            rw [dgetD, hni, Option.getD_some]
            exact dget?_mem _ _ _ hvc
          exact hQl (v, c) hmem hcpos
      · exact Or.inr hclo

lemma sum_dgetD : ∀ (inner : Dict ℕ ℤ), (dkeys inner).Nodup →
    ∀ S : Finset ℕ, Finset.sum S (fun v => dgetD inner v 0)
      = ((inner.filter (fun vc => decide (vc.1 ∈ S))).map Prod.snd).sum := by
  intro inner
  induction inner with
  | nil =>
    intro _ S
    simp [dgetD, dget?]
  | cons kc rest ih =>
    intro hnd S
    obtain ⟨k, c⟩ := kc
    have hnd' := List.nodup_cons.mp (show (k :: dkeys rest).Nodup from hnd)
    by_cases hkS : k ∈ S
    · rw [← Finset.add_sum_erase S (fun v => dgetD ((k, c) :: rest) v 0) hkS]
      have h1 : dgetD ((k, c) :: rest) k 0 = c := by
        simp [dgetD, dget?]
      have h2 : ∀ v ∈ S.erase k, dgetD ((k, c) :: rest) v 0
          = dgetD rest v 0 := by
        intro v hv
        have hvk : v ≠ k := Finset.ne_of_mem_erase hv
        simp [dgetD, dget?, hvk]
      rw [h1, Finset.sum_congr rfl h2, ih hnd'.2 (S.erase k)]
      have h3 : (((k, c) :: rest).filter (fun vc => decide (vc.1 ∈ S))).map
            Prod.snd
          = c :: ((rest.filter (fun vc => decide (vc.1 ∈ S))).map Prod.snd) := by
        simp [List.filter_cons, hkS]
      rw [h3, List.sum_cons]
      congr 1
      have h4 : rest.filter (fun vc => decide (vc.1 ∈ S.erase k))
          = rest.filter (fun vc => decide (vc.1 ∈ S)) := by
        apply List.filter_congr
        intro vc hvc
        have hne : vc.1 ≠ k := by
          intro hc
          apply hnd'.1
          rw [← hc]
          exact List.mem_map_of_mem Prod.fst hvc
        simp [Finset.mem_erase, hne]
      rw [h4]
    · have h2 : ∀ v ∈ S, dgetD ((k, c) :: rest) v 0 = dgetD rest v 0 := by
        intro v hv
        have hvk : v ≠ k := by
          intro hc
          subst hc
          exact hkS hv
        simp [dgetD, dget?, hvk]
      rw [Finset.sum_congr rfl h2, ih hnd'.2 S]
      have h3 : ((k, c) :: rest).filter (fun vc => decide (vc.1 ∈ S))
          = rest.filter (fun vc => decide (vc.1 ∈ S)) := by
        simp [List.filter_cons, hkS]
      rw [h3]

lemma filterMap_cut_eq (u : ℕ) (inner : Dict ℕ ℤ) (vis : List ℕ) :
    inner.filterMap (fun vc => if u ∈ vis ∧ vc.1 ∉ vis
        then some (u, vc.1) else none)
      = if u ∈ vis
        then (inner.filter (fun vc => decide (vc.1 ∉ vis))).map
          (fun vc => (u, vc.1))
        else [] := by
  by_cases hu : u ∈ vis
  · rw [if_pos hu]
    induction inner with
    | nil => rfl
    | cons vc rest ih =>
      rw [List.filterMap_cons, List.filter_cons, ih]
      by_cases hv : vc.1 ∉ vis
      · rw [if_pos ⟨hu, hv⟩,
          if_pos (show decide (vc.1 ∉ vis) = true by simpa using hv)]
        rfl
      · rw [if_neg (fun hc => hv hc.2),
          if_neg (show ¬ decide (vc.1 ∉ vis) = true by simpa using hv)]
  · rw [if_neg hu]
    induction inner with
    | nil => rfl
    | cons vc rest ih =>
      rw [List.filterMap_cons, ih, if_neg (fun hc => hu hc.1)]

lemma sum_map_term (u : ℕ) (l : List (ℕ × ℤ)) (g : CapGraph)
    (hval : ∀ vc ∈ l, rfun g u vc.1 = vc.2) :
    ((l.map (fun vc => (u, vc.1))).map (fun pr => rfun g pr.1 pr.2)).sum
      = (l.map Prod.snd).sum := by
  induction l with
  | nil => rfl
  | cons vc rest ih =>
    simp only [List.map_cons, List.sum_cons]
    rw [hval vc (List.mem_cons_self _ _),
      ih (fun vc2 h2 => hval vc2 (List.mem_cons_of_mem _ h2))]

lemma sum_map_flatten (L : List (List (ℕ × ℕ))) (term : ℕ × ℕ → ℤ) :
    ((L.flatten).map term).sum = (L.map (fun l => (l.map term).sum)).sum := by
  induction L with
  | nil => rfl
  | cons a rest ih =>
    rw [List.flatten_cons, List.map_append, List.sum_append, ih,
      List.map_cons, List.sum_cons]

lemma cut_row_sum (g : CapGraph) (hwf : CapWF g) (vis : List ℕ)
    (ui : ℕ × Dict ℕ ℤ) (hui : ui ∈ g) :
    ((ui.2.filterMap (fun vc => if ui.1 ∈ vis ∧ vc.1 ∉ vis
        then some (ui.1, vc.1) else none)).map
          (fun pr => rfun g pr.1 pr.2)).sum
      = if ui.1 ∈ vis
        then Finset.sum ((nodesOf g).filter (fun v => v ∉ vis))
            (fun v => rfun g ui.1 v)
        else 0 := by
  obtain ⟨u, inner⟩ := ui
  have hget : dget? g u = some inner := mem_dget? g u inner hwf.1 hui
  have hndi : (dkeys inner).Nodup := hwf.2 (u, inner) hui
  have hval : ∀ vc ∈ inner, rfun g u vc.1 = vc.2 := by
    intro vc hvc
    have hs : dget? inner vc.1 = some vc.2 :=
      mem_dget? inner vc.1 vc.2 hndi (by simpa using hvc)
    simp [rfun, hget, dgetD, hs]
  rw [filterMap_cut_eq u inner vis]
  by_cases hu : u ∈ vis
  · rw [if_pos hu, if_pos hu]
    rw [sum_map_term u _ g (fun vc hvc => hval vc (List.mem_filter.mp hvc).1)]
    have hpt2 : ∀ v ∈ (nodesOf g).filter (fun v => v ∉ vis),
        rfun g u v = dgetD inner v 0 := by
      intro v _
      simp [rfun, hget]
    rw [Finset.sum_congr rfl hpt2,
      sum_dgetD inner hndi ((nodesOf g).filter (fun v => v ∉ vis))]
    have hfc : inner.filter (fun vc => decide (vc.1 ∉ vis))
        = inner.filter (fun vc =>
            decide (vc.1 ∈ (nodesOf g).filter (fun v => v ∉ vis))) := by
      apply List.filter_congr
      intro vc hvc
      have hvN : vc.1 ∈ nodesOf g := mem_nodesOf_of_inner g u inner hui vc.1
        (List.mem_map_of_mem Prod.fst hvc)
      simp [Finset.mem_filter, hvN]
    rw [hfc]
  · rw [if_neg hu, if_neg hu]
    rfl

lemma cut_sum_rows (g : CapGraph) (hwf : CapWF g) (vis : List ℕ) :
    ∀ G : List (ℕ × Dict ℕ ℤ), (∀ ui ∈ G, ui ∈ g) →
      (((G.map (fun ui => ui.2.filterMap (fun vc =>
          if ui.1 ∈ vis ∧ vc.1 ∉ vis
          then some (ui.1, vc.1) else none))).flatten).map
            (fun pr => rfun g pr.1 pr.2)).sum
        = (G.map (fun ui => if ui.1 ∈ vis
            then Finset.sum ((nodesOf g).filter (fun v => v ∉ vis))
              (fun v => rfun g ui.1 v)
            else 0)).sum := by
  intro G
  induction G with
  | nil =>
    intro _
    rfl
  | cons ui rest ih =>
    intro hsub
    simp only [List.map_cons, List.flatten_cons, List.map_append,
      List.sum_append, List.sum_cons]
    rw [ih (fun x hx => hsub x (List.mem_cons_of_mem _ hx)),
      cut_row_sum g hwf vis ui (hsub ui (List.mem_cons_self _ _))]

lemma find_min_cut_spec (g R : CapGraph) (source : ℕ)
    (hwfg : CapWF g) (hwfR : CapWF R) (fuel : ℕ) (cut : List (ℕ × ℕ))
    (h : find_min_cut g source R fuel = some cut) :
    ∃ vis : List ℕ,
      (∀ x, x ∈ vis ↔ Reach R source x) ∧
      (∀ u v, ((u, v) ∈ cut ↔ entryExists g u v ∧ u ∈ vis ∧ v ∉ vis)) ∧
      (cut.map (fun pr => rfun g pr.1 pr.2)).sum
        = Finset.sum ((nodesOf g).filter (fun u => u ∈ vis))
            (fun u => Finset.sum ((nodesOf g).filter (fun v => v ∉ vis))
              (fun v => rfun g u v)) := by
  unfold find_min_cut at h
  rcases hdfs : dfsVisit R fuel source [] with _ | vis
  · rw [hdfs] at h
    cases h
  · rw [hdfs] at h
    simp only [Option.some_inj] at h
    subst h
    obtain ⟨_, hsrc, hsound, hclo⟩ := dfsVisit_spec R hwfR fuel source [] vis hdfs
    have hviss : ∀ x, x ∈ vis ↔ Reach R source x := by
      intro x
      constructor
      · intro hx
        rcases hsound x hx with hc | hr
        · cases hc
        · exact hr
      · intro hr
        refine reach_mem_closed R source vis hsrc ?_ x hr
        intro y hy v hv
        rcases hclo y hy with hc | hcl
        · cases hc
        · exact hcl v hv
    refine ⟨vis, hviss, ?_, ?_⟩
    · intro u v
      constructor
      · intro hm
        rw [List.mem_flatten] at hm
        obtain ⟨lst, hlst, hmem⟩ := hm
        rw [List.mem_map] at hlst
        obtain ⟨ui, hui, rfl⟩ := hlst
        obtain ⟨u0, inner⟩ := ui
        rw [List.mem_filterMap] at hmem
        obtain ⟨vc, hvc, heq⟩ := hmem
        by_cases hcnd : (u0, inner).1 ∈ vis ∧ vc.1 ∉ vis
        · rw [if_pos hcnd] at heq
          simp only [Option.some_inj, Prod.mk.injEq] at heq
          obtain ⟨h1, h2⟩ := heq
          subst h1
          subst h2
          have hs : dget? inner vc.1 = some vc.2 :=
            mem_dget? inner vc.1 vc.2 (hwfg.2 (u0, inner) hui)
              (by simpa using hvc)
          refine ⟨⟨inner, mem_dget? g u0 inner hwfg.1 hui, ?_⟩,
            hcnd.1, hcnd.2⟩
          rw [hs]
          rfl
        · rw [if_neg hcnd] at heq
          cases heq
      · rintro ⟨⟨inner, hgu, hvsome⟩, huv, hvv⟩
        rw [List.mem_flatten]
        refine ⟨(fun ui => ui.2.filterMap (fun vc =>
            if ui.1 ∈ vis ∧ vc.1 ∉ vis then some (ui.1, vc.1) else none))
              (u, inner),
          List.mem_map_of_mem _ (dget?_mem g u inner hgu), ?_⟩
        rw [List.mem_filterMap]
        obtain ⟨c, hc⟩ := Option.isSome_iff_exists.mp hvsome
        refine ⟨(v, c), dget?_mem inner v c hc, ?_⟩
        rw [if_pos ⟨huv, hvv⟩]
    · rw [cut_sum_rows g hwfg vis g (fun ui hui => hui)]
      have hmm : g.map (fun ui => if ui.1 ∈ vis
            then Finset.sum ((nodesOf g).filter (fun v => v ∉ vis))
              (fun v => rfun g ui.1 v)
            else 0)
          = (dkeys g).map (fun u => if u ∈ vis
            then Finset.sum ((nodesOf g).filter (fun v => v ∉ vis))
              (fun v => rfun g u v)
            else 0) := by
        unfold dkeys
        rw [List.map_map]
        rfl
      rw [hmm, ← List.sum_toFinset _ hwfg.1]
      have hext : Finset.sum (dkeys g).toFinset (fun u => if u ∈ vis
            then Finset.sum ((nodesOf g).filter (fun v => v ∉ vis))
              (fun v => rfun g u v)
            else 0)
          = Finset.sum (nodesOf g) (fun u => if u ∈ vis
            then Finset.sum ((nodesOf g).filter (fun v => v ∉ vis))
              (fun v => rfun g u v)
            else 0) := by
        refine Finset.sum_subset ?_ ?_
        · intro u hu
          exact mem_nodesOf_of_key g u (List.mem_toFinset.mp hu)
        · intro u _ hu
          have hz : ∀ v, rfun g u v = 0 := by
            intro v
            have hnone : dget? g u = none :=
              dget?_eq_none_of_not_mem_keys g u
                (fun hc => hu (List.mem_toFinset.mpr hc))
            simp [rfun, hnone]
          split
          · refine Finset.sum_eq_zero ?_
            intro v _
            exact hz v
          · rfl
      rw [hext, ← Finset.sum_filter]

/-- reachability along edges (entries) of the original graph while avoiding
a removed edge list: models deleting the cut edges from the graph and asking
whether the sink is still reachable from the source. -/
inductive ReachAvoid (g : CapGraph) (cut : List (ℕ × ℕ)) (s : ℕ) : ℕ → Prop
  | refl : ReachAvoid g cut s s
  | step {u v : ℕ} : ReachAvoid g cut s u → entryExists g u v →
      (u, v) ∉ cut → ReachAvoid g cut s v

/-- C1: min-cut / max-flow duality. For a wellformed capacity graph with
nonnegative weights whose keys include the distinct source and sink,
whenever `ford_fulkerson` returns max-flow `F` with final residual graph
`R` and `find_min_cut` returns a cut: the cut is exactly the set of
original edges `(u, v)` with `u` reachable from the source through
strictly positive final residual capacities and `v` not reachable; the sum
of the original capacities of the cut edges equals `F`; and removing the
cut edges from the original graph leaves the sink unreachable from the
source. -/
theorem ford_fulkerson_min_cut_duality (g : CapGraph) (source sink : ℕ)
    (hwf : CapWF g) (hnn : ∀ x y, 0 ≤ rfun g x y)
    (hsrc : source ∈ dkeys g) (hsink : sink ∈ dkeys g) (hne : source ≠ sink)
    (fuel fuel2 : ℕ) (F : WithTop ℤ) (R : CapGraph) (cut : List (ℕ × ℕ))
    (hff : ford_fulkerson g source sink fuel = some (.ok (F, R)))
    (hcut : find_min_cut g source R fuel2 = some cut) :
    (∀ u v, ((u, v) ∈ cut ↔
      entryExists g u v ∧ Reach R source u ∧ ¬ Reach R source v)) ∧
    F = (((cut.map (fun pr => rfun g pr.1 pr.2)).sum : ℤ) : WithTop ℤ) ∧
    ¬ ReachAvoid g cut source sink := by
  obtain ⟨inv, hnr⟩ := ffLoop_final g source sink fuel hne fuel g 0
    (flowInv_init g source sink hwf hnn hsink) F R hff
  obtain ⟨vis, hvis, hmemc, hsum⟩ :=
    find_min_cut_spec g R source hwf inv.wf fuel2 cut hcut
  have hsrcvis : source ∈ vis := (hvis source).mpr Reach.refl
  have hsinkvis : sink ∉ vis := fun hc => hnr ((hvis sink).mp hc)
  refine ⟨?_, ?_, ?_⟩
  · intro u v
    rw [hmemc u v, hvis u, hvis v]
  · have hBC : Finset.sum ((nodesOf g).filter (fun u => u ∈ vis))
        (fun u => Finset.sum ((nodesOf g).filter (fun v => v ∉ vis))
          (fun v => rfun g u v))
        = Finset.sum ((nodesOf g).filter (fun u => u ∈ vis))
          (fun u => Finset.sum ((nodesOf g).filter (fun v => v ∉ vis))
            (fun v => rfun g u v - rfun R u v)) := by
      refine Finset.sum_congr rfl ?_
      intro u hu
      refine Finset.sum_congr rfl ?_
      intro v hv
      have huv : u ∈ vis := (Finset.mem_filter.mp hu).2
      have hvv : v ∉ vis := (Finset.mem_filter.mp hv).2
      have hz : rfun R u v = 0 := by
        by_contra hnz
        have hpos : 0 < rfun R u v :=
          lt_of_le_of_ne (inv.nonneg u v) (Ne.symm hnz)
        exact hvv ((hvis v).mpr (Reach.step ((hvis u).mp huv) hpos))
      rw [hz, sub_zero]
    have hSS : Finset.sum ((nodesOf g).filter (fun u => u ∈ vis))
        (fun u => Finset.sum ((nodesOf g).filter (fun u => u ∈ vis))
          (fun v => rfun g u v - rfun R u v)) = 0 := by
      have hanti : ∀ u v : ℕ, rfun g u v - rfun R u v
          = -(rfun g v u - rfun R v u) := by
        intro u v
        have := inv.sym u v
        linarith
      have h1 : Finset.sum ((nodesOf g).filter (fun u => u ∈ vis))
          (fun u => Finset.sum ((nodesOf g).filter (fun u => u ∈ vis))
            (fun v => rfun g u v - rfun R u v))
          = Finset.sum ((nodesOf g).filter (fun u => u ∈ vis))
            (fun v => Finset.sum ((nodesOf g).filter (fun u => u ∈ vis))
              (fun u => rfun g u v - rfun R u v)) := Finset.sum_comm
      have h2 : Finset.sum ((nodesOf g).filter (fun u => u ∈ vis))
          (fun v => Finset.sum ((nodesOf g).filter (fun u => u ∈ vis))
            (fun u => rfun g u v - rfun R u v))
          = - Finset.sum ((nodesOf g).filter (fun u => u ∈ vis))
            (fun v => Finset.sum ((nodesOf g).filter (fun u => u ∈ vis))
              (fun u => rfun g v u - rfun R v u)) := by
        rw [← Finset.sum_neg_distrib]
        refine Finset.sum_congr rfl ?_
        intro v _
        rw [← Finset.sum_neg_distrib]
        refine Finset.sum_congr rfl ?_
        intro u _
        exact hanti u v
      have h3 : Finset.sum ((nodesOf g).filter (fun u => u ∈ vis))
          (fun v => Finset.sum ((nodesOf g).filter (fun u => u ∈ vis))
            (fun u => rfun g v u - rfun R v u))
          = Finset.sum ((nodesOf g).filter (fun u => u ∈ vis))
            (fun u => Finset.sum ((nodesOf g).filter (fun u => u ∈ vis))
              (fun v => rfun g u v - rfun R u v)) := rfl
      rw [h3] at h2
      have h4 := h1.trans h2
      linarith
    have hsplit : ∀ u : ℕ, Finset.sum ((nodesOf g).filter (fun v => v ∉ vis))
        (fun v => rfun g u v - rfun R u v)
        = netout g R u
          - Finset.sum ((nodesOf g).filter (fun u => u ∈ vis))
            (fun v => rfun g u v - rfun R u v) := by
      intro u
      have hpart := Finset.sum_filter_add_sum_filter_not (nodesOf g)
        (fun v => v ∈ vis) (fun v => rfun g u v - rfun R u v)
      unfold netout
      linarith [hpart]
    have hchain : (cut.map (fun pr => rfun g pr.1 pr.2)).sum
        = netout g R source := by
      rw [hsum, hBC]
      have hcong : Finset.sum ((nodesOf g).filter (fun u => u ∈ vis))
          (fun u => Finset.sum ((nodesOf g).filter (fun v => v ∉ vis))
            (fun v => rfun g u v - rfun R u v))
          = Finset.sum ((nodesOf g).filter (fun u => u ∈ vis))
            (fun u => netout g R u
              - Finset.sum ((nodesOf g).filter (fun u => u ∈ vis))
                (fun v => rfun g u v - rfun R u v)) :=
        Finset.sum_congr rfl (fun u _ => hsplit u)
      rw [hcong, Finset.sum_sub_distrib, hSS, sub_zero]
      refine Finset.sum_eq_single_of_mem source
        (Finset.mem_filter.mpr ⟨mem_nodesOf_of_key g source hsrc, hsrcvis⟩) ?_
      intro u hu hne2
      refine inv.conserved u hne2 ?_
      intro hc
      rw [hc] at hu
      exact hsinkvis (Finset.mem_filter.mp hu).2
    rw [inv.val, hchain]
  · intro hc
    have hstay : ∀ x, ReachAvoid g cut source x → x ∈ vis := by
      intro x hx
      induction hx with
      | refl => exact hsrcvis
      | step h1 h2 h3 ih =>
        by_contra hv
        exact h3 ((hmemc _ _).mpr ⟨h2, ih, hv⟩)
    exact hsinkvis (hstay sink hc)

/-- C1 witness: the diamond graph 0→1 (3), 0→2 (2), 1→3 (2), 2→3 (3) has
max flow 4 and min cut {(0,2), (1,3)} of total capacity 4. -/
theorem ford_fulkerson_min_cut_duality_witness :
    CapWF [(0, [(1, 3), (2, 2)]), (1, [(3, 2)]), (2, [(3, 3)]), (3, [])] ∧
    (∀ x y, 0 ≤ rfun
      [(0, [(1, 3), (2, 2)]), (1, [(3, 2)]), (2, [(3, 3)]), (3, [])] x y) ∧
    (0 : ℕ) ∈ dkeys
      [(0, [(1, 3), (2, 2)]), (1, [(3, 2)]), (2, [(3, 3)]), (3, [])] ∧
    (3 : ℕ) ∈ dkeys
      [(0, [(1, 3), (2, 2)]), (1, [(3, 2)]), (2, [(3, 3)]), (3, [])] ∧
    (0 : ℕ) ≠ 3 ∧
    ∃ F R cut,
      ford_fulkerson
        [(0, [(1, 3), (2, 2)]), (1, [(3, 2)]), (2, [(3, 3)]), (3, [])] 0 3 10
        = some (.ok (F, R)) ∧
      find_min_cut
        [(0, [(1, 3), (2, 2)]), (1, [(3, 2)]), (2, [(3, 3)]), (3, [])] 0 R 10
        = some cut ∧
      ((∀ u v, ((u, v) ∈ cut ↔
        entryExists
          [(0, [(1, 3), (2, 2)]), (1, [(3, 2)]), (2, [(3, 3)]), (3, [])] u v ∧
        Reach R 0 u ∧ ¬ Reach R 0 v)) ∧
      F = (((cut.map (fun pr => rfun
          [(0, [(1, 3), (2, 2)]), (1, [(3, 2)]), (2, [(3, 3)]), (3, [])]
          pr.1 pr.2)).sum : ℤ) : WithTop ℤ) ∧
      ¬ ReachAvoid
        [(0, [(1, 3), (2, 2)]), (1, [(3, 2)]), (2, [(3, 3)]), (3, [])]
        cut 0 3) := by
  have hnn : ∀ x y, 0 ≤ rfun
      [(0, [(1, 3), (2, 2)]), (1, [(3, 2)]), (2, [(3, 3)]), (3, [])] x y :=
    rfun_nonneg_of_entries _ (by decide)
  refine ⟨by decide, hnn, by decide, by decide, by decide,
    ((4 : ℤ) : WithTop ℤ),
    [(0, [(1, 1), (2, 0)]), (1, [(3, 0), (0, 2)]),
      (2, [(3, 1), (0, 2)]), (3, [(1, 2), (2, 2)])],
    [(0, 2), (1, 3)], rfl, rfl, ?_⟩
  exact ford_fulkerson_min_cut_duality
    [(0, [(1, 3), (2, 2)]), (1, [(3, 2)]), (2, [(3, 3)]), (3, [])] 0 3
    (by decide) hnn (by decide) (by decide) (by decide) 10 10
    ((4 : ℤ) : WithTop ℤ)
    [(0, [(1, 1), (2, 0)]), (1, [(3, 0), (0, 2)]),
      (2, [(3, 1), (0, 2)]), (3, [(1, 2), (2, 2)])]
    [(0, 2), (1, 3)] rfl rfl

/-! ## C2 : dijkstra_all_paths distances and all-co-optimal path sets -/

/-- a path of the adjacency structure from `source` to `v`: starts at the
source, ends at `v`, and each consecutive pair follows the adjacency list. -/
def SPath (adj : Dict ℕ (List ℕ)) (source v : ℕ) (p : List ℕ) : Prop :=
  p.head? = some source ∧ p.getLast? = some v ∧
    ∀ pr ∈ pathPairs p, pr.2 ∈ dgetD adj pr.1 []

instance (adj : Dict ℕ (List ℕ)) (source v : ℕ) (p : List ℕ) :
    Decidable (SPath adj source v p) := by
  unfold SPath
  infer_instance

/-- total weight of a path (sum of `graph.edges[u, v]['weight']` along it). -/
def pathW (g : DGraph) : List ℕ → ℤ
  | [] => 0
  | [_] => 0
  | a :: b :: rest => g.w a b + pathW g (b :: rest)

lemma pathW_append_single (g : DGraph) (p : List ℕ) (v : ℕ) (h : p ≠ []) :
    pathW g (p ++ [v]) = pathW g p + g.w (p.getLast h) v := by
  induction p with
  | nil => exact absurd rfl h
  | cons a rest ih =>
    cases rest with
    | nil =>
      simp only [List.nil_append, List.cons_append, pathW, List.getLast_singleton]
      ring
    | cons b rest2 =>
      simp only [List.cons_append, pathW, List.append_eq] at ih ⊢
      rw [ih (by simp)]
      rw [List.getLast_cons (by simp : b :: rest2 ≠ [])]
      ring

lemma pathW_nonneg (g : DGraph) (p : List ℕ)
    (h : ∀ pr ∈ pathPairs p, 0 < g.w pr.1 pr.2) : 0 ≤ pathW g p := by
  induction p with
  | nil => exact le_rfl
  | cons a rest ih =>
    cases rest with
    | nil => exact le_rfl
    | cons b rest2 =>
      have h1 : 0 < g.w a b := h (a, b) (by simp [pathPairs])
      have h2 : 0 ≤ pathW g (b :: rest2) := by
        refine ih ?_
        intro pr hpr
        exact h pr (by simp [pathPairs, hpr])
      show 0 ≤ g.w a b + pathW g (b :: rest2)
      linarith

lemma pathW_pos (g : DGraph) (p : List ℕ) (hlen : 2 ≤ p.length)
    (h : ∀ pr ∈ pathPairs p, 0 < g.w pr.1 pr.2) : 0 < pathW g p := by
  cases p with
  | nil => simp at hlen
  | cons a rest =>
    cases rest with
    | nil => simp at hlen
    | cons b rest2 =>
      have h1 : 0 < g.w a b := h (a, b) (by simp [pathPairs])
      have h2 : 0 ≤ pathW g (b :: rest2) := by
        refine pathW_nonneg g _ ?_
        intro pr hpr
        exact h pr (by simp [pathPairs, hpr])
      show 0 < g.w a b + pathW g (b :: rest2)
      linarith

lemma spath_ne_nil (adj : Dict ℕ (List ℕ)) (source v : ℕ) (p : List ℕ)
    (h : SPath adj source v p) : p ≠ [] := by
  intro hc
  rw [hc] at h
  cases h.1

lemma spath_single (adj : Dict ℕ (List ℕ)) (source v x : ℕ)
    (h : SPath adj source v [x]) : x = source ∧ x = v := by
  obtain ⟨h1, h2, _⟩ := h
  simp only [List.head?_cons, Option.some_inj] at h1
  simp only [List.getLast?_eq_getLast _ (by simp : [x] ≠ []),
    Option.some_inj] at h2
  exact ⟨h1, by simpa using h2⟩

lemma spath_extend (adj : Dict ℕ (List ℕ)) (source cur v : ℕ) (p : List ℕ)
    (h : SPath adj source cur p) (hadj : v ∈ dgetD adj cur []) :
    SPath adj source v (p ++ [v]) := by
  obtain ⟨h1, h2, h3⟩ := h
  have hpn : p ≠ [] := by
    intro hc
    rw [hc] at h1
    cases h1
  have hlast : p.getLast hpn = cur := by
    rw [List.getLast?_eq_getLast p hpn, Option.some_inj] at h2
    exact h2
  refine ⟨?_, ?_, ?_⟩
  · cases p with
    | nil => exact absurd rfl hpn
    | cons a rest => simpa using h1
  · rw [List.getLast?_eq_getLast _ (by simp : p ++ [v] ≠ [])]
    simp [List.getLast_append]
  · intro pr hpr
    rw [pathPairs_append_single p v hpn] at hpr
    rcases List.mem_append.mp hpr with h' | h'
    · exact h3 pr h'
    · simp only [List.mem_singleton] at h'
      subst h'
      simpa [hlast] using hadj

/-- decomposition of a length-≥-2 path: its dropLast is a path to the
second-to-last node, which steps to `v`. -/
lemma spath_decomp (adj : Dict ℕ (List ℕ)) (g : DGraph) (source v : ℕ)
    (p : List ℕ) (h : SPath adj source v p) (hlen : 2 ≤ p.length) :
    ∃ u, SPath adj source u p.dropLast ∧ v ∈ dgetD adj u [] ∧
      pathW g p = pathW g p.dropLast + g.w u v ∧
      p = p.dropLast ++ [v] ∧ 1 ≤ p.dropLast.length := by
  obtain ⟨h1, h2, h3⟩ := h
  have hpn : p ≠ [] := by
    intro hc
    rw [hc] at hlen
    simp at hlen
  have hlast : p.getLast hpn = v := by
    rw [List.getLast?_eq_getLast p hpn, Option.some_inj] at h2
    exact h2
  have hsplit : p.dropLast ++ [v] = p := by
    rw [← hlast]
    exact List.dropLast_append_getLast hpn
  have hdn : p.dropLast ≠ [] := by
    intro hc
    rw [← hsplit, hc] at hlen
    simp at hlen
  have hpp : pathPairs p
      = pathPairs p.dropLast ++ [(p.dropLast.getLast hdn, v)] := by
    conv_lhs => rw [← hsplit]
    rw [pathPairs_append_single _ v hdn]
  refine ⟨p.dropLast.getLast hdn, ⟨?_, ?_, ?_⟩, ?_, ?_, ?_, ?_⟩
  · rcases hd : p.dropLast with _ | ⟨a, t⟩
    · exact absurd hd hdn
    · have h1' : a = source := by
        rw [← hsplit, hd] at h1
        simpa using h1
      rw [h1']
      rfl
  · rw [List.getLast?_eq_getLast _ hdn]
  · intro pr hpr
    refine h3 pr ?_
    rw [hpp]
    exact List.mem_append_left _ hpr
  · refine h3 (p.dropLast.getLast hdn, v) ?_
    rw [hpp]
    simp
  · conv_lhs => rw [← hsplit]
    rw [pathW_append_single g _ v hdn]
  · exact hsplit.symm
  · have := List.length_pos.mpr hdn
    omega

lemma pqLe_refl (a : ℤ × ℕ) : pqLe a a := Or.inr ⟨rfl, le_refl _⟩

lemma pqLe_trans (a b c : ℤ × ℕ) (h1 : pqLe a b) (h2 : pqLe b c) :
    pqLe a c := by
  unfold pqLe at *
  rcases h1 with h1 | ⟨h1a, h1b⟩ <;> rcases h2 with h2 | ⟨h2a, h2b⟩
  · exact Or.inl (lt_trans h1 h2)
  · exact Or.inl (h2a ▸ h1)
  · exact Or.inl (h1a ▸ h2)
  · exact Or.inr ⟨h1a.trans h2a, h1b.trans h2b⟩

lemma pqLe_of_not (a b : ℤ × ℕ) (h : ¬ pqLe a b) : pqLe b a := by
  unfold pqLe at *
  push_neg at h
  obtain ⟨h1, h2⟩ := h
  rcases lt_trichotomy b.1 a.1 with h' | h' | h'
  · exact Or.inl h'
  · exact Or.inr ⟨h', le_of_lt (h2 h'.symm)⟩
  · exact absurd h' (not_lt.mpr h1)

lemma pqMin_none (l : List (ℤ × ℕ)) (h : pqMin l = none) : l = [] := by
  cases l with
  | nil => rfl
  | cons x rest =>
    rw [pqMin] at h
    rcases hr : pqMin rest with _ | m
    · rw [hr] at h
      cases h
    · rw [hr] at h
      cases h

lemma pqMin_spec (l : List (ℤ × ℕ)) :
    ∀ m, pqMin l = some m → m ∈ l ∧ ∀ e ∈ l, pqLe m e := by
  induction l with
  | nil =>
    intro m h
    cases h
  | cons x rest ih =>
    intro m h
    rw [pqMin] at h
    rcases hr : pqMin rest with _ | m'
    · rw [hr] at h
      have hre : rest = [] := pqMin_none rest hr
      simp only [Option.some_inj] at h
      subst h
      subst hre
      refine ⟨List.mem_cons_self _ _, ?_⟩
      intro e he
      simp only [List.mem_singleton] at he
      subst he
      exact pqLe_refl _
    · rw [hr] at h
      obtain ⟨hm'mem, hm'le⟩ := ih m' hr
      simp only [Option.some_inj] at h
      by_cases hle : pqLe x m'
      · rw [if_pos hle] at h
        subst h
        refine ⟨List.mem_cons_self _ _, ?_⟩
        intro e he
        rcases List.mem_cons.mp he with rfl | he'
        · exact pqLe_refl _
        · exact pqLe_trans _ _ _ hle (hm'le e he')
      · rw [if_neg hle] at h
        subst h
        refine ⟨List.mem_cons_of_mem _ hm'mem, ?_⟩
        intro e he
        rcases List.mem_cons.mp he with rfl | he'
        · exact pqLe_of_not _ _ hle
        · exact hm'le e he'

/-- loop invariant of `dijkstra_all_paths`, relative to a ghost list `S` of
settled (processed) nodes; `E` marks nodes whose relaxation obligation is
currently being (re)established by the running iteration. -/
structure DInv (g : DGraph) (adj : Dict ℕ (List ℕ)) (source : ℕ)
    (S : List ℕ) (E : ℕ → Prop) (pq : List (ℤ × ℕ))
    (dist : ℕ → WithTop ℤ) (paths : ℕ → List (List ℕ)) : Prop where
  src_mem : source ∈ S
  set_ok : ∀ u ∈ S,
    (∀ p, p ∈ paths u ↔ (SPath adj source u p ∧
      ((pathW g p : ℤ) : WithTop ℤ) = dist u)) ∧
    (∃ p, p ∈ paths u) ∧
    (∀ q, SPath adj source u q → dist u ≤ ((pathW g q : ℤ) : WithTop ℤ))
  set_relaxed : ∀ u ∈ S, ¬ E u → ∀ v ∈ dgetD adj u [],
    dist v ≤ dist u + ((g.w u v : ℤ) : WithTop ℤ) ∧
    (dist v = dist u + ((g.w u v : ℤ) : WithTop ℤ) →
      ∀ p ∈ paths u, p ++ [v] ∈ paths v)
  unset_sound : ∀ v, v ∉ S →
    (∀ p, p ∈ paths v → SPath adj source v p ∧
      ((pathW g p : ℤ) : WithTop ℤ) = dist v) ∧
    (dist v ≠ ⊤ → ∃ p, p ∈ paths v)
  set_le : ∀ u ∈ S, ∀ v, v ∉ S → dist u ≤ dist v
  pq_sound : ∀ e ∈ pq, dist e.2 ≤ ((e.1 : ℤ) : WithTop ℤ)
  pq_cover : ∀ v, v ∉ S → dist v ≠ ⊤ →
    ∃ d, (d, v) ∈ pq ∧ ((d : ℤ) : WithTop ℤ) = dist v

/-- frontier property: any adjacency path from the source to an unsettled
node witnesses some unsettled node whose tentative distance is at most the
path's weight. -/
lemma dijkstra_frontier (g : DGraph) (adj : Dict ℕ (List ℕ)) (source : ℕ)
    (hpos : ∀ u v, v ∈ dgetD adj u [] → 0 < g.w u v)
    (S : List ℕ) (dist : ℕ → WithTop ℤ)
    (hsrc : source ∈ S)
    (hmin : ∀ u ∈ S, ∀ q, SPath adj source u q →
      dist u ≤ ((pathW g q : ℤ) : WithTop ℤ))
    (hrel : ∀ u ∈ S, ∀ v ∈ dgetD adj u [],
      dist v ≤ dist u + ((g.w u v : ℤ) : WithTop ℤ)) :
    ∀ n (q : List ℕ) (v : ℕ), q.length = n → SPath adj source v q → v ∉ S →
      ∃ v', v' ∉ S ∧ dist v' ≤ ((pathW g q : ℤ) : WithTop ℤ) := by
  intro n
  induction n using Nat.strong_induction_on with
  | _ n ih =>
    intro q v hlen hsp hv
    by_cases hq2 : 2 ≤ q.length
    · obtain ⟨u, hspu, hadj, hw, hsplit, hdl⟩ :=
        spath_decomp adj g source v q hsp hq2
      by_cases hu : u ∈ S
      · refine ⟨v, hv, ?_⟩
        have h1 : dist v ≤ dist u + ((g.w u v : ℤ) : WithTop ℤ) :=
          hrel u hu v hadj
        have h2 : dist u ≤ ((pathW g q.dropLast : ℤ) : WithTop ℤ) :=
          hmin u hu _ hspu
        calc dist v ≤ dist u + ((g.w u v : ℤ) : WithTop ℤ) := h1
          _ ≤ ((pathW g q.dropLast : ℤ) : WithTop ℤ)
              + ((g.w u v : ℤ) : WithTop ℤ) := add_le_add_right h2 _
          _ = ((pathW g q : ℤ) : WithTop ℤ) := by
              rw [hw]
              norm_cast
      · have hlt : q.dropLast.length < n := by
          rw [← hlen]
          conv_rhs => rw [hsplit]
          simp
        obtain ⟨v', hv', hle⟩ := ih q.dropLast.length hlt q.dropLast u rfl
          hspu hu
        refine ⟨v', hv', hle.trans ?_⟩
        have hwpos : 0 < g.w u v := hpos u v hadj
        rw [hw]
        exact_mod_cast
          (by linarith : pathW g q.dropLast ≤ pathW g q.dropLast + g.w u v)
    · have hne := spath_ne_nil adj source v q hsp
      rcases q with _ | ⟨x, t⟩
      · exact absurd rfl hne
      · rcases t with _ | ⟨y, t2⟩
        · obtain ⟨hx1, hx2⟩ := spath_single adj source v x hsp
          exact absurd (by rw [← hx2, hx1]; exact hsrc) hv
        · exact absurd (by simp : 2 ≤ (x :: y :: t2).length) hq2

lemma relaxGo_spec (g : DGraph) (cur : ℕ) (cd : ℤ) :
    ∀ (nbrs : List ℕ) (dist : ℕ → WithTop ℤ) (paths : ℕ → List (List ℕ))
      (pq : List (ℤ × ℕ)),
      (∀ nb ∈ nbrs, 0 < g.w cur nb) →
      ((cd : ℤ) : WithTop ℤ) = dist cur →
      ((relaxGo g cur cd nbrs dist paths pq).1 cur = dist cur ∧
        (relaxGo g cur cd nbrs dist paths pq).2.1 cur = paths cur) ∧
      (∀ v, (relaxGo g cur cd nbrs dist paths pq).1 v ≤ dist v) ∧
      (∀ v, (relaxGo g cur cd nbrs dist paths pq).1 v = dist v ∨
        (v ∈ nbrs ∧ (relaxGo g cur cd nbrs dist paths pq).1 v
          = ((cd + g.w cur v : ℤ) : WithTop ℤ))) ∧
      (∀ v ∈ nbrs, (relaxGo g cur cd nbrs dist paths pq).1 v
        ≤ ((cd + g.w cur v : ℤ) : WithTop ℤ)) ∧
      (∀ v p, p ∈ (relaxGo g cur cd nbrs dist paths pq).2.1 v ↔
        ((p ∈ paths v ∧ (relaxGo g cur cd nbrs dist paths pq).1 v = dist v) ∨
         (v ∈ nbrs ∧ (relaxGo g cur cd nbrs dist paths pq).1 v
            = ((cd + g.w cur v : ℤ) : WithTop ℤ) ∧
          ∃ p', p' ∈ paths cur ∧ p = p' ++ [v]))) ∧
      (∀ v ∈ nbrs, (relaxGo g cur cd nbrs dist paths pq).1 v
          = ((cd + g.w cur v : ℤ) : WithTop ℤ) →
        ∀ p ∈ paths cur, p ++ [v] ∈
          (relaxGo g cur cd nbrs dist paths pq).2.1 v) ∧
      (∀ e ∈ pq, e ∈ (relaxGo g cur cd nbrs dist paths pq).2.2) ∧
      (∀ e ∈ (relaxGo g cur cd nbrs dist paths pq).2.2, e ∈ pq ∨
        ((e.1 : ℤ) : WithTop ℤ)
          = (relaxGo g cur cd nbrs dist paths pq).1 e.2) ∧
      (∀ v, (relaxGo g cur cd nbrs dist paths pq).1 v ≠ dist v →
        ∃ d, (d, v) ∈ (relaxGo g cur cd nbrs dist paths pq).2.2 ∧
          ((d : ℤ) : WithTop ℤ) = (relaxGo g cur cd nbrs dist paths pq).1 v) := by
  intro nbrs
  induction nbrs with
  | nil =>
    intro dist paths pq hpos hcd
    refine ⟨⟨rfl, rfl⟩, fun v => le_rfl, fun v => Or.inl rfl, ?_, ?_, ?_,
      fun e he => he, fun e he => Or.inl he, ?_⟩
    · intro v hv
      cases hv
    · intro v p
      constructor
      · intro hp
        exact Or.inl ⟨hp, rfl⟩
      · rintro (⟨hp, _⟩ | ⟨hv, _⟩)
        · exact hp
        · cases hv
    · intro v hv
      cases hv
    · intro v hv
      exact absurd rfl hv
  | cons nb rest ih =>
    intro dist paths pq hpos hcd
    have hwnb : 0 < g.w cur nb := hpos nb (List.mem_cons_self _ _)
    have hpos' : ∀ x ∈ rest, 0 < g.w cur x :=
      fun x hx => hpos x (List.mem_cons_of_mem _ hx)
    by_cases h1 : ((cd + g.w cur nb : ℤ) : WithTop ℤ) < dist nb
    · -- strict improvement branch
      have hnbcur : nb ≠ cur := by
        rintro rfl
        rw [← hcd] at h1
        have := WithTop.coe_lt_coe.mp h1
        linarith
      have heq : relaxGo g cur cd (nb :: rest) dist paths pq
          = relaxGo g cur cd rest
            (Function.update dist nb ((cd + g.w cur nb : ℤ) : WithTop ℤ))
            (Function.update paths nb
              ((paths cur).map (fun p => p ++ [nb])))
            ((cd + g.w cur nb, nb) :: pq) := by
        simp only [relaxGo]
        rw [if_pos h1]
      have hd1cur : Function.update dist nb
          ((cd + g.w cur nb : ℤ) : WithTop ℤ) cur = dist cur :=
        Function.update_noteq (Ne.symm hnbcur) _ _
      have hp1cur : Function.update paths nb
          ((paths cur).map (fun p => p ++ [nb])) cur = paths cur :=
        Function.update_noteq (Ne.symm hnbcur) _ _
      obtain ⟨ih1, ih2, ih3, ih4, ih5, ih6, ih7, ih8, ih9⟩ :=
        ih (Function.update dist nb ((cd + g.w cur nb : ℤ) : WithTop ℤ))
          (Function.update paths nb ((paths cur).map (fun p => p ++ [nb])))
          ((cd + g.w cur nb, nb) :: pq) hpos' (hcd.trans hd1cur.symm)
      have hd1 : ∀ v, Function.update dist nb
          ((cd + g.w cur nb : ℤ) : WithTop ℤ) v
          = if v = nb then ((cd + g.w cur nb : ℤ) : WithTop ℤ) else dist v := by
        intro v
        by_cases hv : v = nb
        · subst hv
          rw [Function.update_same, if_pos rfl]
        · rw [Function.update_noteq hv, if_neg hv]
      have hp1 : ∀ v, Function.update paths nb
          ((paths cur).map (fun p => p ++ [nb])) v
          = if v = nb then (paths cur).map (fun p => p ++ [nb])
            else paths v := by
        intro v
        by_cases hv : v = nb
        · subst hv
          rw [Function.update_same, if_pos rfl]
        · rw [Function.update_noteq hv, if_neg hv]
      rw [heq]
      refine ⟨⟨ih1.1.trans hd1cur, ih1.2.trans hp1cur⟩, ?_, ?_, ?_, ?_, ?_,
        ?_, ?_, ?_⟩
      · intro v
        refine (ih2 v).trans ?_
        rw [hd1 v]
        by_cases hv : v = nb
        · rw [if_pos hv]
          subst hv
          exact le_of_lt h1
        · rw [if_neg hv]
      · intro v
        rcases ih3 v with h' | ⟨hv, h'⟩
        · rw [hd1 v] at h'
          by_cases hv : v = nb
          · rw [if_pos hv] at h'
            subst hv
            exact Or.inr ⟨List.mem_cons_self _ _, h'⟩
          · rw [if_neg hv] at h'
            exact Or.inl h'
        · exact Or.inr ⟨List.mem_cons_of_mem _ hv, h'⟩
      · intro v hv
        rcases List.mem_cons.mp hv with rfl | hv'
        · refine (ih2 v).trans ?_
          rw [hd1 v, if_pos rfl]
        · exact ih4 v hv'
      · intro v p
        rw [ih5 v p, hp1 v, hd1 v, hp1cur]
        by_cases hv : v = nb
        · subst hv
          rw [if_pos rfl, if_pos rfl]
          have hne : ¬ (relaxGo g cur cd rest
              (Function.update dist v ((cd + g.w cur v : ℤ) : WithTop ℤ))
              (Function.update paths v ((paths cur).map (fun p => p ++ [v])))
              ((cd + g.w cur v, v) :: pq)).1 v = dist v := by
            intro hc
            have := (ih2 v).trans_eq ((hd1 v).trans (if_pos rfl))
            rw [hc] at this
            exact absurd h1 (not_lt.mpr this)
          constructor
          · rintro (⟨hp, hq⟩ | ⟨_, hq, hex⟩)
            · rw [List.mem_map] at hp
              obtain ⟨p', hp', rfl⟩ := hp
              exact Or.inr ⟨List.mem_cons_self _ _, hq, p', hp', rfl⟩
            · exact Or.inr ⟨List.mem_cons_self _ _, hq, hex⟩
          · rintro (⟨hp, hq⟩ | ⟨_, hq, p', hp', rfl⟩)
            · exact absurd hq hne
            · exact Or.inl ⟨List.mem_map_of_mem _ hp', hq⟩
        · rw [if_neg hv, if_neg hv]
          constructor
          · rintro (⟨hp, hq⟩ | ⟨hm, hq, hex⟩)
            · exact Or.inl ⟨hp, hq⟩
            · exact Or.inr ⟨List.mem_cons_of_mem _ hm, hq, hex⟩
          · rintro (⟨hp, hq⟩ | ⟨hm, hq, hex⟩)
            · exact Or.inl ⟨hp, hq⟩
            · rcases List.mem_cons.mp hm with rfl | hm'
              · exact absurd rfl hv
              · exact Or.inr ⟨hm', hq, hex⟩
      · intro v hv hval p hp
        rcases List.mem_cons.mp hv with rfl | hv'
        · rw [ih5 v (p ++ [v]), hp1 v, hd1 v, if_pos rfl, if_pos rfl]
          exact Or.inl ⟨List.mem_map_of_mem _ hp, hval⟩
        · refine ih6 v hv' hval p ?_
          rw [hp1cur]
          exact hp
      · intro e he
        exact ih7 e (List.mem_cons_of_mem _ he)
      · intro e he
        rcases ih8 e he with h' | h'
        · rcases List.mem_cons.mp h' with rfl | h''
          · refine Or.inr ?_
            rcases ih3 nb with h3 | ⟨_, h3⟩
            · rw [hd1 nb, if_pos rfl] at h3
              exact h3.symm
            · exact h3.symm
          · exact Or.inl h''
        · exact Or.inr h'
      · intro v hvne
        by_cases hv : v = nb
        · subst hv
          have hval : (relaxGo g cur cd rest
              (Function.update dist v ((cd + g.w cur v : ℤ) : WithTop ℤ))
              (Function.update paths v ((paths cur).map (fun p => p ++ [v])))
              ((cd + g.w cur v, v) :: pq)).1 v
              = ((cd + g.w cur v : ℤ) : WithTop ℤ) := by
            rcases ih3 v with h3 | ⟨_, h3⟩
            · rw [hd1 v, if_pos rfl] at h3
              exact h3
            · exact h3
          exact ⟨cd + g.w cur v,
            ih7 _ (List.mem_cons_self _ _), hval.symm⟩
        · refine ih9 v ?_
          rw [hd1 v, if_neg hv]
          exact hvne
    · by_cases h2 : ((cd + g.w cur nb : ℤ) : WithTop ℤ) = dist nb
      · -- tie branch
        have hnbcur : nb ≠ cur := by
          rintro rfl
          rw [← hcd] at h2
          have := WithTop.coe_inj.mp h2
          linarith
        have heq : relaxGo g cur cd (nb :: rest) dist paths pq
            = relaxGo g cur cd rest dist
              (Function.update paths nb
                (paths nb ++ (paths cur).map (fun p => p ++ [nb]))) pq := by
          simp only [relaxGo]
          rw [if_neg h1, if_pos h2]
        have hp1cur : Function.update paths nb
            (paths nb ++ (paths cur).map (fun p => p ++ [nb])) cur
            = paths cur :=
          Function.update_noteq (Ne.symm hnbcur) _ _
        obtain ⟨ih1, ih2, ih3, ih4, ih5, ih6, ih7, ih8, ih9⟩ :=
          ih dist
            (Function.update paths nb
              (paths nb ++ (paths cur).map (fun p => p ++ [nb]))) pq hpos' hcd
        have hp1 : ∀ v, Function.update paths nb
            (paths nb ++ (paths cur).map (fun p => p ++ [nb])) v
            = if v = nb then paths nb ++ (paths cur).map (fun p => p ++ [nb])
              else paths v := by
          intro v
          by_cases hv : v = nb
          · subst hv
            rw [Function.update_same, if_pos rfl]
          · rw [Function.update_noteq hv, if_neg hv]
        rw [heq]
        refine ⟨⟨ih1.1, ih1.2.trans hp1cur⟩, ih2, ?_, ?_, ?_, ?_, ih7, ih8,
          ih9⟩
        · intro v
          rcases ih3 v with h' | ⟨hv, h'⟩
          · exact Or.inl h'
          · exact Or.inr ⟨List.mem_cons_of_mem _ hv, h'⟩
        · intro v hv
          rcases List.mem_cons.mp hv with rfl | hv'
          · exact (ih2 v).trans (le_of_eq h2.symm)
          · exact ih4 v hv'
        · intro v p
          rw [ih5 v p, hp1 v, hp1cur]
          by_cases hv : v = nb
          · subst hv
            rw [if_pos rfl]
            constructor
            · rintro (⟨hp, hq⟩ | ⟨hm, hq, hex⟩)
              · rcases List.mem_append.mp hp with hp' | hp'
                · exact Or.inl ⟨hp', hq⟩
                · rw [List.mem_map] at hp'
                  obtain ⟨p', hp', rfl⟩ := hp'
                  exact Or.inr ⟨List.mem_cons_self _ _,
                    hq.trans h2.symm, p', hp', rfl⟩
              · exact Or.inr ⟨List.mem_cons_self _ _, hq, hex⟩
            · rintro (⟨hp, hq⟩ | ⟨hm, hq, p', hp', rfl⟩)
              · exact Or.inl ⟨List.mem_append_left _ hp, hq⟩
              · exact Or.inl ⟨List.mem_append_right _
                  (List.mem_map_of_mem _ hp'), hq.trans h2⟩
          · rw [if_neg hv]
            constructor
            · rintro (⟨hp, hq⟩ | ⟨hm, hq, hex⟩)
              · exact Or.inl ⟨hp, hq⟩
              · exact Or.inr ⟨List.mem_cons_of_mem _ hm, hq, hex⟩
            · rintro (⟨hp, hq⟩ | ⟨hm, hq, hex⟩)
              · exact Or.inl ⟨hp, hq⟩
              · rcases List.mem_cons.mp hm with rfl | hm'
                · exact absurd rfl hv
                · exact Or.inr ⟨hm', hq, hex⟩
        · intro v hv hval p hp
          rcases List.mem_cons.mp hv with rfl | hv'
          · rw [ih5 v (p ++ [v]), hp1 v, if_pos rfl]
            refine Or.inl ⟨List.mem_append_right _
              (List.mem_map_of_mem _ hp), hval.trans h2⟩
          · refine ih6 v hv' hval p ?_
            rw [hp1cur]
            exact hp
      · -- no-op branch
        have heq : relaxGo g cur cd (nb :: rest) dist paths pq
            = relaxGo g cur cd rest dist paths pq := by
          simp only [relaxGo]
          rw [if_neg h1, if_neg h2]
        have hlt : dist nb < ((cd + g.w cur nb : ℤ) : WithTop ℤ) :=
          lt_of_le_of_ne (not_lt.mp h1) (fun hc => h2 hc.symm)
        obtain ⟨ih1, ih2, ih3, ih4, ih5, ih6, ih7, ih8, ih9⟩ :=
          ih dist paths pq hpos' hcd
        rw [heq]
        refine ⟨ih1, ih2, ?_, ?_, ?_, ?_, ih7, ih8, ih9⟩
        · intro v
          rcases ih3 v with h' | ⟨hv, h'⟩
          · exact Or.inl h'
          · exact Or.inr ⟨List.mem_cons_of_mem _ hv, h'⟩
        · intro v hv
          rcases List.mem_cons.mp hv with rfl | hv'
          · exact (ih2 v).trans (le_of_lt hlt)
          · exact ih4 v hv'
        · intro v p
          rw [ih5 v p]
          by_cases hv : v = nb
          · subst hv
            have hne : ¬ (relaxGo g cur cd rest dist paths pq).1 v
                = ((cd + g.w cur v : ℤ) : WithTop ℤ) := by
              intro hc
              have := (ih2 v).trans_lt hlt
              rw [hc] at this
              exact absurd this (lt_irrefl _)
            constructor
            · rintro (⟨hp, hq⟩ | ⟨hm, hq, hex⟩)
              · exact Or.inl ⟨hp, hq⟩
              · exact absurd hq hne
            · rintro (⟨hp, hq⟩ | ⟨hm, hq, hex⟩)
              · exact Or.inl ⟨hp, hq⟩
              · exact absurd hq hne
          · constructor
            · rintro (⟨hp, hq⟩ | ⟨hm, hq, hex⟩)
              · exact Or.inl ⟨hp, hq⟩
              · exact Or.inr ⟨List.mem_cons_of_mem _ hm, hq, hex⟩
            · rintro (⟨hp, hq⟩ | ⟨hm, hq, hex⟩)
              · exact Or.inl ⟨hp, hq⟩
              · rcases List.mem_cons.mp hm with rfl | hm'
                · exact absurd rfl hv
                · exact Or.inr ⟨hm', hq, hex⟩
        · intro v hv hval p hp
          rcases List.mem_cons.mp hv with rfl | hv'
          · have := (ih2 v).trans_lt hlt
            rw [hval] at this
            exact absurd this (lt_irrefl _)
          · exact ih6 v hv' hval p hp

lemma spath_extend_weight (adj : Dict ℕ (List ℕ)) (g : DGraph)
    (source cur v : ℕ) (p : List ℕ) (hsp : SPath adj source cur p)
    (hadj : v ∈ dgetD adj cur []) :
    SPath adj source v (p ++ [v]) ∧
      pathW g (p ++ [v]) = pathW g p + g.w cur v := by
  have hpn := spath_ne_nil adj source cur p hsp
  have hlast : p.getLast hpn = cur := by
    have := hsp.2.1
    rw [List.getLast?_eq_getLast p hpn, Option.some_inj] at this
    exact this
  refine ⟨spath_extend adj source cur v p hsp hadj, ?_⟩
  rw [pathW_append_single g p v hpn, hlast]

lemma relax_dinv (g : DGraph) (adj : Dict ℕ (List ℕ)) (source : ℕ)
    (hpos : ∀ u v, v ∈ dgetD adj u [] → 0 < g.w u v)
    (S : List ℕ) (cur : ℕ) (cd : ℤ) (dist : ℕ → WithTop ℤ)
    (paths : ℕ → List (List ℕ)) (pq : List (ℤ × ℕ))
    (inv : DInv g adj source S (fun u => u = cur) pq dist paths)
    (hcur : cur ∈ S) (hcd : ((cd : ℤ) : WithTop ℤ) = dist cur)
    (htie : ∀ v ∈ S, v ∈ dgetD adj cur [] → dist v
        = ((cd : ℤ) : WithTop ℤ) + ((g.w cur v : ℤ) : WithTop ℤ) →
      ∀ p ∈ paths cur, p ++ [v] ∈ paths v)
    (hscen : (∀ v ∈ dgetD adj cur [],
        dist v ≤ dist cur + ((g.w cur v : ℤ) : WithTop ℤ)) ∨
      (∀ u ∈ S, dist u ≤ dist cur)) :
    DInv g adj source S (fun _ => False)
      (relaxGo g cur cd (dgetD adj cur []) dist paths pq).2.2
      (relaxGo g cur cd (dgetD adj cur []) dist paths pq).1
      (relaxGo g cur cd (dgetD adj cur []) dist paths pq).2.1 := by
  obtain ⟨K1, K2, K3, K4, K5, K6, K7, K8, K9⟩ :=
    relaxGo_spec g cur cd (dgetD adj cur []) dist paths pq
      (fun nb hnb => hpos cur nb hnb) hcd
  set r := relaxGo g cur cd (dgetD adj cur []) dist paths pq with hr
  -- a path of weight cd reaching cur, used for settled bounds
  obtain ⟨pc, hpc⟩ := (inv.set_ok cur hcur).2.1
  obtain ⟨hpcsp, hpcw⟩ := ((inv.set_ok cur hcur).1 pc).mp hpc
  have hcoe : ∀ w : ℤ, ((cd + w : ℤ) : WithTop ℤ)
      = ((cd : ℤ) : WithTop ℤ) + ((w : ℤ) : WithTop ℤ) := by
    intro w
    norm_cast
  have hsetle : ∀ u ∈ S, u ∈ dgetD adj cur [] →
      dist u ≤ ((cd + g.w cur u : ℤ) : WithTop ℤ) := by
    intro u hu hadj
    obtain ⟨hsp, hw⟩ := spath_extend_weight adj g source cur u pc hpcsp hadj
    have := (inv.set_ok u hu).2.2 (pc ++ [u]) hsp
    rw [hw] at this
    refine this.trans (le_of_eq ?_)
    rw [show ((pathW g pc + g.w cur u : ℤ) : WithTop ℤ)
        = ((pathW g pc : ℤ) : WithTop ℤ)
          + ((g.w cur u : ℤ) : WithTop ℤ) from by norm_cast,
      hpcw.trans hcd.symm, hcoe]
  have hA : ∀ u ∈ S, r.1 u = dist u := by
    intro u hu
    rcases K3 u with h | ⟨hmem, hval⟩
    · exact h
    · refine le_antisymm (K2 u) ?_
      rw [hval]
      exact hsetle u hu hmem
  have hB : ∀ u ∈ S, ∀ p, p ∈ r.2.1 u ↔ p ∈ paths u := by
    intro u hu p
    rw [K5 u p]
    constructor
    · rintro (⟨hp, _⟩ | ⟨hm, hval, p', hp', rfl⟩)
      · exact hp
      · have hdu : dist u
            = ((cd : ℤ) : WithTop ℤ) + ((g.w cur u : ℤ) : WithTop ℤ) := by
          rw [← hcoe, ← hval]
          exact (hA u hu).symm
        exact htie u hu hm hdu p' hp'
    · intro hp
      exact Or.inl ⟨hp, hA u hu⟩
  have hcurval : ((cd : ℤ) : WithTop ℤ) = r.1 cur := by
    rw [K1.1]
    exact hcd
  refine ⟨inv.src_mem, ?_, ?_, ?_, ?_, ?_, ?_⟩
  · -- set_ok
    intro u hu
    refine ⟨?_, ?_, ?_⟩
    · intro p
      rw [hB u hu p, (inv.set_ok u hu).1 p, hA u hu]
    · obtain ⟨p, hp⟩ := (inv.set_ok u hu).2.1
      exact ⟨p, (hB u hu p).mpr hp⟩
    · intro q hq
      rw [hA u hu]
      exact (inv.set_ok u hu).2.2 q hq
  · -- set_relaxed
    intro u hu _ v hv
    by_cases hucur : u = cur
    · subst hucur
      constructor
      · refine (K4 v hv).trans (le_of_eq ?_)
        rw [hcoe, hcurval]
      · intro hval p hp
        rw [K1.2] at hp
        refine K6 v hv ?_ p hp
        rw [hval, ← hcurval, hcoe]
    · have hold := inv.set_relaxed u hu hucur v hv
      constructor
      · refine (K2 v).trans (hold.1.trans (le_of_eq ?_))
        rw [hA u hu]
      · intro hval p hp
        rw [hB u hu p] at hp
        by_cases hvd : r.1 v = dist v
        · rw [K5 v (p ++ [v])]
          refine Or.inl ⟨?_, hvd⟩
          refine hold.2 ?_ p hp
          rw [← hvd, hval, hA u hu]
        · rcases K3 v with h | ⟨hmem, h⟩
          · exact absurd h hvd
          · exfalso
            have h1 : dist v ≤ dist u
                + ((g.w u v : ℤ) : WithTop ℤ) := hold.1
            have h2 : r.1 v < dist v := lt_of_le_of_ne (K2 v) hvd
            rw [hval, hA u hu] at h2
            exact absurd h1 (not_le.mpr h2)
  · -- unset_sound
    intro v hv
    constructor
    · intro p hp
      rcases (K5 v p).mp hp with ⟨hp', hvd⟩ | ⟨hm, hval, p', hp', rfl⟩
      · obtain ⟨hsp, hw⟩ := (inv.unset_sound v hv).1 p hp'
        exact ⟨hsp, hw.trans hvd.symm⟩
      · have hp'c := ((inv.set_ok cur hcur).1 p').mp hp'
        obtain ⟨hsp, hw⟩ :=
          spath_extend_weight adj g source cur v p' hp'c.1 hm
        refine ⟨hsp, ?_⟩
        rw [hw, hval, hcoe,
          show ((pathW g p' + g.w cur v : ℤ) : WithTop ℤ)
            = ((pathW g p' : ℤ) : WithTop ℤ)
              + ((g.w cur v : ℤ) : WithTop ℤ) from by norm_cast,
          hp'c.2.trans hcd.symm]
    · intro hne
      by_cases hvd : r.1 v = dist v
      · obtain ⟨p, hp⟩ := (inv.unset_sound v hv).2 (by rw [← hvd]; exact hne)
        exact ⟨p, (K5 v p).mpr (Or.inl ⟨hp, hvd⟩)⟩
      · rcases K3 v with h | ⟨hmem, h⟩
        · exact absurd h hvd
        · exact ⟨pc ++ [v], K6 v hmem h pc hpc⟩
  · -- set_le
    intro u hu v hv
    rw [hA u hu]
    rcases hscen with hleft | hright
    · have hnostrict : r.1 v = dist v := by
        rcases K3 v with h | ⟨hmem, h⟩
        · exact h
        · refine le_antisymm (K2 v) ?_
          rw [h]
          refine (hleft v hmem).trans (le_of_eq ?_)
          rw [hcoe, hcd]
      rw [hnostrict]
      exact inv.set_le u hu v hv
    · rcases K3 v with h | ⟨hmem, h⟩
      · rw [h]
        exact inv.set_le u hu v hv
      · rw [h, hcoe]
        refine ((hright u hu).trans_eq hcd.symm).trans ?_
        have : (0 : WithTop ℤ) ≤ ((g.w cur v : ℤ) : WithTop ℤ) := by
          exact_mod_cast le_of_lt (hpos cur v hmem)
        exact le_add_of_nonneg_right this
  · -- pq_sound
    intro e he
    rcases K8 e he with h | h
    · exact (K2 e.2).trans (inv.pq_sound e h)
    · exact le_of_eq h.symm
  · -- pq_cover
    intro v hv hne
    by_cases hvd : r.1 v = dist v
    · obtain ⟨d, hd, hdv⟩ := inv.pq_cover v hv (by rw [← hvd]; exact hne)
      exact ⟨d, K7 _ hd, hdv.trans hvd.symm⟩
    · obtain ⟨d, hd, hdv⟩ := K9 v hvd
      exact ⟨d, hd, hdv⟩

lemma dijkstra_settle (g : DGraph) (adj : Dict ℕ (List ℕ)) (source : ℕ)
    (hpos : ∀ u v, v ∈ dgetD adj u [] → 0 < g.w u v)
    (S : List ℕ) (pq : List (ℤ × ℕ)) (dist : ℕ → WithTop ℤ)
    (paths : ℕ → List (List ℕ))
    (inv : DInv g adj source S (fun _ => False) pq dist paths)
    (cur : ℕ) (cd : ℤ) (hcurS : cur ∉ S)
    (hcd : ((cd : ℤ) : WithTop ℤ) = dist cur)
    (hmin : ∀ e ∈ pq, pqLe (cd, cur) e) :
    (∀ p, p ∈ paths cur ↔ (SPath adj source cur p ∧
      ((pathW g p : ℤ) : WithTop ℤ) = dist cur)) ∧
    (∃ p, p ∈ paths cur) ∧
    (∀ q, SPath adj source cur q →
      dist cur ≤ ((pathW g q : ℤ) : WithTop ℤ)) ∧
    (∀ x, x ∉ S → dist cur ≤ dist x) := by
  have hfront := dijkstra_frontier g adj source hpos S dist inv.src_mem
    (fun u hu => (inv.set_ok u hu).2.2)
    (fun u hu v hv => (inv.set_relaxed u hu not_false v hv).1)
  have hkey : ∀ x, x ∉ S → dist cur ≤ dist x := by
    intro x hx
    by_cases hxt : dist x = ⊤
    · rw [hxt]
      exact le_top
    · obtain ⟨d, hd, hdv⟩ := inv.pq_cover x hx hxt
      have hle := hmin (d, x) hd
      have hcdd : cd ≤ d := by
        rcases hle with h' | ⟨h', _⟩
        · exact le_of_lt h'
        · exact le_of_eq h'
      rw [← hcd, ← hdv]
      exact_mod_cast hcdd
  have hmin3 : ∀ q, SPath adj source cur q →
      dist cur ≤ ((pathW g q : ℤ) : WithTop ℤ) := by
    intro q hq
    by_contra hlt
    obtain ⟨v', hv', hle⟩ := hfront q.length q cur rfl hq hcurS
    exact hlt ((hkey v' hv').trans hle)
  refine ⟨?_, ?_, hmin3, hkey⟩
  · intro p
    constructor
    · intro hp
      exact (inv.unset_sound cur hcurS).1 p hp
    · rintro ⟨hsp, hw⟩
      by_cases hlen : 2 ≤ p.length
      · obtain ⟨u, hspu, hadj, hwdec, hsplit, _⟩ :=
          spath_decomp adj g source cur p hsp hlen
        have hwuv : 0 < g.w u cur := hpos u cur hadj
        have huS : u ∈ S := by
          by_contra huS
          obtain ⟨v', hv', hle⟩ :=
            hfront p.dropLast.length p.dropLast u rfl hspu huS
          have h1 : dist cur ≤ ((pathW g p.dropLast : ℤ) : WithTop ℤ) :=
            (hkey v' hv').trans hle
          rw [← hw, hwdec] at h1
          have h2 : pathW g p.dropLast + g.w u cur ≤ pathW g p.dropLast := by
            exact_mod_cast h1
          linarith
        have hdu_le : dist u ≤ ((pathW g p.dropLast : ℤ) : WithTop ℤ) :=
          (inv.set_ok u huS).2.2 p.dropLast hspu
        have hrel := inv.set_relaxed u huS not_false cur hadj
        have hdu : dist u = ((pathW g p.dropLast : ℤ) : WithTop ℤ) := by
          refine le_antisymm hdu_le ?_
          by_contra hltu
          have hltu' : dist u < ((pathW g p.dropLast : ℤ) : WithTop ℤ) :=
            lt_of_le_of_ne hdu_le (fun hc => hltu (le_of_eq hc.symm))
          have h1 : dist cur ≤ dist u
              + ((g.w u cur : ℤ) : WithTop ℤ) := hrel.1
          have h2 : dist u + ((g.w u cur : ℤ) : WithTop ℤ)
              < ((pathW g p.dropLast : ℤ) : WithTop ℤ)
                + ((g.w u cur : ℤ) : WithTop ℤ) :=
            WithTop.add_lt_add_right (WithTop.coe_ne_top) hltu'
          have h3 : ((pathW g p.dropLast : ℤ) : WithTop ℤ)
              + ((g.w u cur : ℤ) : WithTop ℤ)
              = ((pathW g p : ℤ) : WithTop ℤ) := by
            rw [hwdec]
            norm_cast
          rw [h3, hw] at h2
          exact absurd (h1.trans_lt h2) (lt_irrefl _)
        have hpd : p.dropLast ∈ paths u :=
          ((inv.set_ok u huS).1 p.dropLast).mpr ⟨hspu, hdu.symm⟩
        have heq : dist cur = dist u + ((g.w u cur : ℤ) : WithTop ℤ) := by
          rw [hdu, ← hw, hwdec]
          norm_cast
        have := hrel.2 heq p.dropLast hpd
        rw [← hsplit] at this
        exact this
      · have hne := spath_ne_nil adj source cur p hsp
        rcases p with _ | ⟨x, t⟩
        · exact absurd rfl hne
        · rcases t with _ | ⟨y, t2⟩
          · obtain ⟨hx1, hx2⟩ := spath_single adj source cur x hsp
            exact absurd (by rw [← hx2, hx1]; exact inv.src_mem) hcurS
          · exact absurd (by simp : 2 ≤ (x :: y :: t2).length) hlen
  · refine (inv.unset_sound cur hcurS).2 ?_
    rw [← hcd]
    exact WithTop.coe_ne_top

lemma dinv_final (g : DGraph) (adj : Dict ℕ (List ℕ)) (source : ℕ)
    (hpos : ∀ u v, v ∈ dgetD adj u [] → 0 < g.w u v)
    (S : List ℕ) (dist : ℕ → WithTop ℤ) (paths : ℕ → List (List ℕ))
    (inv : DInv g adj source S (fun _ => False) [] dist paths) :
    ∀ v : ℕ,
      (∀ q, SPath adj source v q →
        dist v ≤ ((pathW g q : ℤ) : WithTop ℤ)) ∧
      (∀ p, p ∈ paths v ↔ (SPath adj source v p ∧
        ((pathW g p : ℤ) : WithTop ℤ) = dist v)) ∧
      ((∃ q, SPath adj source v q) → ∃ p, p ∈ paths v) := by
  have hnosp : ∀ v, v ∉ S → ∀ q, ¬ SPath adj source v q := by
    intro v hv q hq
    obtain ⟨v', hv', hle⟩ := dijkstra_frontier g adj source hpos S dist
      inv.src_mem (fun u hu => (inv.set_ok u hu).2.2)
      (fun u hu w hw => (inv.set_relaxed u hu not_false w hw).1)
      q.length q v rfl hq hv
    have htop : dist v' = ⊤ := by
      by_contra hxt
      obtain ⟨d, hd, _⟩ := inv.pq_cover v' hv' hxt
      cases hd
    rw [htop] at hle
    exact absurd (top_le_iff.mp hle) WithTop.coe_ne_top
  intro v
  by_cases hv : v ∈ S
  · exact ⟨(inv.set_ok v hv).2.2, (inv.set_ok v hv).1,
      fun _ => (inv.set_ok v hv).2.1⟩
  · refine ⟨?_, ?_, ?_⟩
    · intro q hq
      exact absurd hq (hnosp v hv q)
    · intro p
      constructor
      · intro hp
        exact absurd ((inv.unset_sound v hv).1 p hp).1 (hnosp v hv p)
      · rintro ⟨hsp, _⟩
        exact absurd hsp (hnosp v hv p)
    · rintro ⟨q, hq⟩
      exact absurd hq (hnosp v hv q)

lemma dijkstraLoop_spec (g : DGraph) (adj : Dict ℕ (List ℕ)) (source : ℕ)
    (hpos : ∀ u v, v ∈ dgetD adj u [] → 0 < g.w u v) :
    ∀ fuel (pq : List (ℤ × ℕ)) (dist : ℕ → WithTop ℤ)
      (paths : ℕ → List (List ℕ)) (S : List ℕ),
      DInv g adj source S (fun _ => False) pq dist paths →
      ∀ paths' dist',
        dijkstraLoop g adj fuel pq dist paths = some (paths', dist') →
        ∀ v : ℕ,
          (∀ q, SPath adj source v q →
            dist' v ≤ ((pathW g q : ℤ) : WithTop ℤ)) ∧
          (∀ p, p ∈ paths' v ↔ (SPath adj source v p ∧
            ((pathW g p : ℤ) : WithTop ℤ) = dist' v)) ∧
          ((∃ q, SPath adj source v q) → ∃ p, p ∈ paths' v) := by
  intro fuel
  induction fuel with
  | zero =>
    intro pq dist paths S inv paths' dist' h
    cases pq with
    | nil =>
      simp only [dijkstraLoop, Option.some_inj, Prod.mk.injEq] at h
      obtain ⟨rfl, rfl⟩ := h
      exact dinv_final g adj source hpos S dist paths inv
    | cons x pqrest =>
      simp [dijkstraLoop] at h
  | succ fuel ih =>
    intro pq dist paths S inv paths' dist' h
    cases pq with
    | nil =>
      simp only [dijkstraLoop, Option.some_inj, Prod.mk.injEq] at h
      obtain ⟨rfl, rfl⟩ := h
      exact dinv_final g adj source hpos S dist paths inv
    | cons x pqrest =>
      rcases hq : pqMin (x :: pqrest) with _ | m
      · exact absurd (pqMin_none _ hq) (by simp)
      · obtain ⟨cd, cur⟩ := m
        obtain ⟨hm_mem, hm_le⟩ := pqMin_spec (x :: pqrest) (cd, cur) hq
        have hpop : popMin (x :: pqrest)
            = some ((cd, cur), (x :: pqrest).erase (cd, cur)) := by
          rw [popMin, hq]
        simp only [dijkstraLoop, hpop] at h
        by_cases hskip : dist cur < ((cd : ℤ) : WithTop ℤ)
        · rw [if_pos hskip] at h
          refine ih _ dist paths S ?_ paths' dist' h
          refine ⟨inv.src_mem, inv.set_ok, inv.set_relaxed, inv.unset_sound,
            inv.set_le, ?_, ?_⟩
          · intro e he
            exact inv.pq_sound e (List.mem_of_mem_erase he)
          · intro v hv hvt
            obtain ⟨d, hd, hdv⟩ := inv.pq_cover v hv hvt
            refine ⟨d, ?_, hdv⟩
            have hne : (d, v) ≠ (cd, cur) := by
              intro hc
              rw [Prod.mk.injEq] at hc
              obtain ⟨h1, h2⟩ := hc
              subst h1
              subst h2
              exact absurd hdv (ne_of_gt hskip)
            exact (List.mem_erase_of_ne hne).mpr hd
        · rw [if_neg hskip] at h
          have hcd : ((cd : ℤ) : WithTop ℤ) = dist cur :=
            le_antisymm (not_lt.mp hskip) (inv.pq_sound (cd, cur) hm_mem)
          have hcov : ∀ v, v ∉ S → v ≠ cur → dist v ≠ ⊤ →
              ∃ d, (d, v) ∈ (x :: pqrest).erase (cd, cur) ∧
                ((d : ℤ) : WithTop ℤ) = dist v := by
            intro v hv hvc hvt
            obtain ⟨d, hd, hdv⟩ := inv.pq_cover v hv hvt
            refine ⟨d, ?_, hdv⟩
            have hne : (d, v) ≠ (cd, cur) := by
              intro hc
              rw [Prod.mk.injEq] at hc
              exact hvc hc.2
            exact (List.mem_erase_of_ne hne).mpr hd
          have hltadd : ∀ w : ℤ, 0 < w →
              ((cd : ℤ) : WithTop ℤ) <
                ((cd : ℤ) : WithTop ℤ) + ((w : ℤ) : WithTop ℤ) := by
            intro w hw
            rw [show ((cd : ℤ) : WithTop ℤ) + ((w : ℤ) : WithTop ℤ)
                = ((cd + w : ℤ) : WithTop ℤ) from by norm_cast]
            exact_mod_cast (by linarith : cd < cd + w)
          by_cases hcur : cur ∈ S
          · refine ih _ _ _ S ?_ paths' dist' h
            refine relax_dinv g adj source hpos S cur cd dist paths _
              ?_ hcur hcd ?_ ?_
            · refine ⟨inv.src_mem, inv.set_ok, ?_, inv.unset_sound,
                inv.set_le, ?_, ?_⟩
              · intro u hu _ v hv
                exact inv.set_relaxed u hu not_false v hv
              · intro e he
                exact inv.pq_sound e (List.mem_of_mem_erase he)
              · intro v hv hvt
                refine hcov v hv ?_ hvt
                intro hc
                rw [hc] at hv
                exact hv hcur
            · intro v hv hmem heq p hp
              refine (inv.set_relaxed cur hcur not_false v hmem).2 ?_ p hp
              rw [heq, hcd]
            · exact Or.inl
                (fun v hv => (inv.set_relaxed cur hcur not_false v hv).1)
          · obtain ⟨hok1, hok2, hok3, hkey⟩ := dijkstra_settle g adj source
              hpos S (x :: pqrest) dist paths inv cur cd hcur hcd hm_le
            refine ih _ _ _ (cur :: S) ?_ paths' dist' h
            refine relax_dinv g adj source hpos (cur :: S) cur cd dist paths _
              ?_ (List.mem_cons_self _ _) hcd ?_ ?_
            · refine ⟨List.mem_cons_of_mem _ inv.src_mem, ?_, ?_, ?_, ?_,
                ?_, ?_⟩
              · intro u hu
                rcases List.mem_cons.mp hu with rfl | hu'
                · exact ⟨hok1, hok2, hok3⟩
                · exact inv.set_ok u hu'
              · intro u hu hune v hv
                rcases List.mem_cons.mp hu with rfl | hu'
                · exact absurd rfl hune
                · exact inv.set_relaxed u hu' not_false v hv
              · intro v hv
                exact inv.unset_sound v
                  (fun hc => hv (List.mem_cons_of_mem _ hc))
              · intro u hu v hv
                have hvS : v ∉ S := fun hc => hv (List.mem_cons_of_mem _ hc)
                rcases List.mem_cons.mp hu with rfl | hu'
                · exact hkey v hvS
                · exact inv.set_le u hu' v hvS
              · intro e he
                exact inv.pq_sound e (List.mem_of_mem_erase he)
              · intro v hv hvt
                exact hcov v (fun hc => hv (List.mem_cons_of_mem _ hc))
                  (fun hc => hv (hc ▸ List.mem_cons_self _ _)) hvt
            · intro v hv hmem heq p hp
              exfalso
              have hwp := hpos cur v hmem
              rcases List.mem_cons.mp hv with rfl | hv'
              · rw [← hcd] at heq
                exact absurd heq (ne_of_lt (hltadd _ hwp))
              · have h1 : dist v ≤ dist cur := inv.set_le v hv' cur hcur
                rw [heq] at h1
                exact absurd (h1.trans_eq hcd.symm)
                  (not_le.mpr (hltadd _ hwp))
            · refine Or.inr ?_
              intro u hu
              rcases List.mem_cons.mp hu with rfl | hu'
              · exact le_rfl
              · exact inv.set_le u hu' cur hcur

/-- C2 (amended): with strictly positive edge weights, `dijkstra_all_paths`
computes, for every node, a distance that lower-bounds the weight of every
adjacency path from the source, a path list containing exactly the paths
that realize that distance (complete set of co-optimal paths), and a
nonempty path list for every node reachable from the source. -/
theorem dijkstra_all_paths_correct_pos_weights (g : DGraph)
    (adj : Dict ℕ (List ℕ)) (source : ℕ)
    (hpos : ∀ u v, v ∈ dgetD adj u [] → 0 < g.w u v)
    (fuel : ℕ) (paths : ℕ → List (List ℕ)) (dist : ℕ → WithTop ℤ)
    (hrun : dijkstra_all_paths source g adj fuel = some (paths, dist)) :
    ∀ v : ℕ,
      (∀ q, SPath adj source v q →
        dist v ≤ ((pathW g q : ℤ) : WithTop ℤ)) ∧
      (∀ p, p ∈ paths v ↔ (SPath adj source v p ∧
        ((pathW g p : ℤ) : WithTop ℤ) = dist v)) ∧
      ((∃ q, SPath adj source v q) → ∃ p, p ∈ paths v) := by
  unfold dijkstra_all_paths at hrun
  cases fuel with
  | zero => simp [dijkstraLoop] at hrun
  | succ fuel =>
    have hpop : popMin [((0 : ℤ), source)] = some (((0 : ℤ), source), []) := by
      simp [popMin, pqMin, List.erase_cons_head]
    simp only [dijkstraLoop, hpop] at hrun
    have hcond : ¬ (Function.update (fun _ : ℕ => (⊤ : WithTop ℤ)) source
        ((0 : ℤ) : WithTop ℤ) source < ((0 : ℤ) : WithTop ℤ)) := by
      rw [Function.update_same]
      exact lt_irrefl _
    rw [if_neg hcond] at hrun
    have hsps : SPath adj source source [source] := by
      refine ⟨rfl, rfl, ?_⟩
      intro pr hpr
      simp [pathPairs] at hpr
    have hd0s : Function.update (fun _ : ℕ => (⊤ : WithTop ℤ)) source
        ((0 : ℤ) : WithTop ℤ) source = ((0 : ℤ) : WithTop ℤ) :=
      Function.update_same _ _ _
    have hp0s : Function.update (fun _ : ℕ => ([] : List (List ℕ))) source
        [[source]] source = [[source]] := Function.update_same _ _ _
    have hmin0 : ∀ q, SPath adj source source q →
        Function.update (fun _ : ℕ => (⊤ : WithTop ℤ)) source
          ((0 : ℤ) : WithTop ℤ) source
          ≤ ((pathW g q : ℤ) : WithTop ℤ) := by
      intro q hq
      rw [hd0s]
      have : 0 ≤ pathW g q := by
        refine pathW_nonneg g q ?_
        intro pr hpr
        exact hpos pr.1 pr.2 (hq.2.2 pr hpr)
      exact_mod_cast this
    refine dijkstraLoop_spec g adj source hpos fuel _ _ _ [source]
      (relax_dinv g adj source hpos [source] source 0 _ _ [] ?_
        (List.mem_cons_self _ _) hd0s.symm ?_ ?_) paths dist hrun
    · refine ⟨List.mem_cons_self _ _, ?_, ?_, ?_, ?_, ?_, ?_⟩
      · intro u hu
        obtain rfl := (List.mem_singleton.mp hu).symm
        refine ⟨?_, ?_, hmin0⟩
        · intro p
          rw [hp0s, hd0s]
          constructor
          · intro hp
            rcases List.mem_singleton.mp hp with rfl
            exact ⟨hsps, rfl⟩
          · rintro ⟨hsp, hw⟩
            have hw0 : pathW g p = 0 := by
              exact_mod_cast hw
            by_cases hlen : 2 ≤ p.length
            · exfalso
              have : 0 < pathW g p := by
                refine pathW_pos g p hlen ?_
                intro pr hpr
                exact hpos pr.1 pr.2 (hsp.2.2 pr hpr)
              linarith
            · have hne := spath_ne_nil adj source source p hsp
              rcases p with _ | ⟨x, t⟩
              · exact absurd rfl hne
              · rcases t with _ | ⟨y, t2⟩
                · obtain ⟨hx1, hx2⟩ := spath_single adj source source x hsp
                  rw [hx1]
                  exact List.mem_singleton.mpr rfl
                · exact absurd (by simp : 2 ≤ (x :: y :: t2).length) hlen
        · rw [hp0s]
          exact ⟨[source], List.mem_singleton.mpr rfl⟩
      · intro u hu hune v hv
        obtain rfl := (List.mem_singleton.mp hu).symm
        exact absurd rfl hune
      · intro v hv
        have hvs : v ≠ source := by
          intro hc
          rw [hc] at hv
          exact hv (List.mem_cons_self _ _)
        constructor
        · intro p hp
          rw [Function.update_noteq hvs] at hp
          cases hp
        · intro hne
          rw [Function.update_noteq hvs] at hne
          exact absurd rfl hne
      · intro u hu v hv
        obtain rfl := (List.mem_singleton.mp hu).symm
        have hvs : v ≠ source := by
          intro hc
          rw [hc] at hv
          exact hv (List.mem_cons_self _ _)
        rw [hd0s, Function.update_noteq hvs]
        exact le_top
      · intro e he
        cases he
      · intro v hv hvt
        have hvs : v ≠ source := by
          intro hc
          rw [hc] at hv
          exact hv (List.mem_cons_self _ _)
        rw [Function.update_noteq hvs] at hvt
        exact absurd rfl hvt
    · intro v hv hmem heq p hp
      exfalso
      obtain rfl := (List.mem_singleton.mp hv).symm
      rw [hd0s] at heq
      have hwp := hpos source source hmem
      have : ((0 : ℤ) : WithTop ℤ)
          < ((0 : ℤ) : WithTop ℤ)
            + ((g.w source source : ℤ) : WithTop ℤ) := by
        rw [show ((0 : ℤ) : WithTop ℤ)
              + ((g.w source source : ℤ) : WithTop ℤ)
            = ((0 + g.w source source : ℤ) : WithTop ℤ) from by norm_cast]
        exact_mod_cast (by linarith : (0 : ℤ) < 0 + g.w source source)
      exact absurd heq (ne_of_lt this)
    · refine Or.inr ?_
      intro u hu
      obtain rfl := (List.mem_singleton.mp hu).symm
      exact le_rfl

/-- the zero-weight counterexample graph: edges 0→1 (1), 0→2 (1),
2→1 (0), 1→3 (1). -/
def zwGraph : DGraph := ⟨[0, 1, 2, 3], fun u v =>
  if u = 0 ∧ v = 1 then 1 else if u = 0 ∧ v = 2 then 1
  else if u = 2 ∧ v = 1 then 0 else if u = 1 ∧ v = 3 then 1 else 0⟩

/-- its adjacency list. -/
def zwAdj : Dict ℕ (List ℕ) := [(0, [1, 2]), (1, [3]), (2, [1]), (3, [])]

/-- C2 counterexample: with merely nonnegative weights the returned path
set is not the complete set of co-optimal paths.  On `zwGraph` (all edge
weights ≥ 0, one zero-weight edge 2→1), from source 0 the distance to node
3 is correctly 2, and `[0, 2, 1, 3]` is an adjacency path of weight
exactly 2, yet the returned path set for node 3 is `[[0, 1, 3]]` and
misses it: the co-optimal path through the zero-weight edge is discovered
only after node 1 is already settled, so its extension to 3 is never
recorded. -/
theorem dijkstra_all_paths_zero_weight_incomplete :
    (∀ u v : ℕ, 0 ≤ zwGraph.w u v) ∧
    ∃ paths dist,
      dijkstra_all_paths 0 zwGraph zwAdj 10 = some (paths, dist) ∧
      dist 3 = ((2 : ℤ) : WithTop ℤ) ∧
      SPath zwAdj 0 3 [0, 2, 1, 3] ∧
      ((pathW zwGraph [0, 2, 1, 3] : ℤ) : WithTop ℤ) = dist 3 ∧
      paths 3 = [[0, 1, 3]] ∧
      [0, 2, 1, 3] ∉ paths 3 := by
  refine ⟨?_, _, _, rfl, ?_, ?_, ?_, ?_, ?_⟩
  · intro u v
    show 0 ≤ (if u = 0 ∧ v = 1 then 1 else if u = 0 ∧ v = 2 then 1
      else if u = 2 ∧ v = 1 then 0 else if u = 1 ∧ v = 3 then 1 else 0 : ℤ)
    split_ifs <;> decide
  · decide
  · decide
  · decide
  · decide
  · decide

/-- C2 witness for the amended theorem: on the positive-weight graph
0→1 (1), 1→2 (1), 0→2 (2), the theorem applies; both `[0, 2]` and
`[0, 1, 2]` are co-optimal. -/
theorem dijkstra_all_paths_correct_pos_weights_witness :
    (∀ u v : ℕ, v ∈ dgetD [(0, [1, 2]), (1, [2]), (2, [])] u [] →
      0 < (⟨[0, 1, 2], fun u v => if u = 0 ∧ v = 2 then 2 else 1⟩
        : DGraph).w u v) ∧
    ∃ paths dist,
      dijkstra_all_paths 0
          ⟨[0, 1, 2], fun u v => if u = 0 ∧ v = 2 then 2 else 1⟩
          [(0, [1, 2]), (1, [2]), (2, [])] 10 = some (paths, dist) ∧
      ∀ v : ℕ,
        (∀ q, SPath [(0, [1, 2]), (1, [2]), (2, [])] 0 v q →
          dist v ≤ ((pathW ⟨[0, 1, 2],
            fun u v => if u = 0 ∧ v = 2 then 2 else 1⟩ q : ℤ) : WithTop ℤ)) ∧
        (∀ p, p ∈ paths v ↔
          (SPath [(0, [1, 2]), (1, [2]), (2, [])] 0 v p ∧
          ((pathW ⟨[0, 1, 2], fun u v => if u = 0 ∧ v = 2 then 2 else 1⟩ p
            : ℤ) : WithTop ℤ) = dist v)) ∧
        ((∃ q, SPath [(0, [1, 2]), (1, [2]), (2, [])] 0 v q) →
          ∃ p, p ∈ paths v) := by
  have hpos : ∀ u v : ℕ, v ∈ dgetD [(0, [1, 2]), (1, [2]), (2, [])] u [] →
      0 < (⟨[0, 1, 2], fun u v => if u = 0 ∧ v = 2 then 2 else 1⟩
        : DGraph).w u v := by
    intro u v _
    show 0 < (if u = 0 ∧ v = 2 then 2 else 1 : ℤ)
    split_ifs <;> decide
  refine ⟨hpos, _, _, rfl, ?_⟩
  exact dijkstra_all_paths_correct_pos_weights _ _ 0 hpos 10 _ _ rfl

/-! ## q5_1.py : Girvan-Newman community detection

The `networkx.Graph` argument is the `UGraph` model defined above.  The
fuel-indexed loops return `none` on fuel exhaustion, so termination of the
Python loop corresponds to success for large enough fuel. -/

/-- `tuple(sorted((a, b)))` on a two-element tuple (q5_1.py lines 13, 56). -/
def sortPair (a b : ℕ) : ℕ × ℕ := if a ≤ b then (a, b) else (b, a)

/-- `graph.edges` of a `networkx.Graph`: every undirected edge listed once
as its sorted pair, enumerated from the adjacency lists in node order. -/
def edgesOf (g : UGraph) : List (ℕ × ℕ) :=
  g.nodes.flatMap (fun u =>
    (g.adj u).filterMap (fun v => if u ≤ v then some (u, v) else none))

/-- `graph.remove_edge(u, v)` (q5_1.py line 133): delete the edge in both
adjacency directions; the caller only removes edges that are present. -/
def removeEdge (g : UGraph) (u v : ℕ) : UGraph :=
  ⟨g.nodes, fun x =>
    if x = u then (g.adj u).erase v
    else if x = v then (g.adj v).erase u
    else g.adj x⟩

/-- reachability along the adjacency lists of a `UGraph`. -/
inductive UReach (g : UGraph) (s : ℕ) : ℕ → Prop
  | refl : UReach g s s
  | step : ∀ {u v}, UReach g s u → v ∈ g.adj u → UReach g s v

/-- the neighbor loop of the inner `dfs` of `connected_components`
(q5_1.py lines 102-104), with the recursive visit passed as a function so
the recursion is structural in the fuel; the state is the pair
`(visited, component)`. -/
def ccNbrs (visitF : ℕ → List ℕ × List ℕ → Option (List ℕ × List ℕ)) :
    List ℕ → List ℕ × List ℕ → Option (List ℕ × List ℕ)
  | [], vc => some vc
  | nb :: rest, vc =>
    if nb ∉ vc.1 then
      match visitF nb vc with
      | none => none
      | some vc2 => ccNbrs visitF rest vc2
    else ccNbrs visitF rest vc

/-- the recursive `dfs(node, component)` of `connected_components`
(q5_1.py lines 99-104): mark the node visited, add it to the component,
recurse into unvisited neighbors; fuel bounds the recursion depth. -/
def ccVisit (g : UGraph) : ℕ → ℕ → List ℕ × List ℕ → Option (List ℕ × List ℕ)
  | 0, _, _ => none
  | fuel + 1, node, vc =>
    ccNbrs (ccVisit g fuel) (g.adj node) (sadd vc.1 node, sadd vc.2 node)

/-- the `for node in graph.nodes():` loop of `connected_components`
(q5_1.py lines 106-110), starting a fresh component at each unvisited node. -/
def ccGo (g : UGraph) (fuel : ℕ) :
    List ℕ → List ℕ → List (List ℕ) → Option (List (List ℕ) × List ℕ)
  | [], visited, comps => some (comps, visited)
  | node :: rest, visited, comps =>
    if node ∉ visited then
      match ccVisit g fuel node (visited, []) with
      | none => none
      | some vc2 => ccGo g fuel rest vc2.1 (comps ++ [vc2.2])
    else ccGo g fuel rest visited comps

/-- `connected_components(graph)` (q5_1.py lines 87-112). -/
def connected_components (g : UGraph) (fuel : ℕ) : Option (List (List ℕ)) :=
  (ccGo g fuel g.nodes [] []).map (fun r => r.1)

/-- the per-source BFS state of `edge_betweenness_centrality`: the
`distance` dict (`float('inf')` as `⊤`), the shortest-path counts `sigma`,
the `predecessors` lists, and the pending `queue`. -/
structure EbcBFSState where
  dist : ℕ → WithTop ℕ
  sigma : ℕ → ℕ
  preds : ℕ → List ℕ
  queue : List ℕ

/-- the `for neighbor in graph.neighbors(current):` loop of the BFS
(q5_1.py lines 39-47).  When the first `if` fires (`distance[neighbor]`
infinite) the neighbor's distance becomes `distance[current] + 1`, so the
second condition `distance[neighbor] == distance[current] + 1` then holds
in every case (also when `distance[current]` is infinite, since
`inf == inf + 1` in Python floats, matching `⊤ = ⊤ + 1`); the two `if`s
therefore collapse into the first branch below. -/
def ebcNbrs (current : ℕ) : List ℕ → EbcBFSState → EbcBFSState
  | [], st => st
  | nb :: rest, st =>
    if st.dist nb = ⊤ then
      ebcNbrs current rest
        { dist := Function.update st.dist nb (st.dist current + 1),
          sigma := Function.update st.sigma nb (st.sigma nb + st.sigma current),
          preds := Function.update st.preds nb (st.preds nb ++ [current]),
          queue := st.queue ++ [nb] }
    else if st.dist nb = st.dist current + 1 then
      ebcNbrs current rest
        { st with
          sigma := Function.update st.sigma nb (st.sigma nb + st.sigma current),
          preds := Function.update st.preds nb (st.preds nb ++ [current]) }
    else ebcNbrs current rest st

/-- the `while queue:` BFS loop (q5_1.py lines 34-47): pop from the left,
push onto the stack, scan the neighbors; fuel bounds the iterations. -/
def ebcBFS (g : UGraph) : ℕ → EbcBFSState → List ℕ → Option (List ℕ × EbcBFSState)
  | 0, _, _ => none
  | fuel + 1, st, stack =>
    match st.queue with
    | [] => some (stack, st)
    | current :: qrest =>
      ebcBFS g fuel (ebcNbrs current (g.adj current) { st with queue := qrest })
        (stack ++ [current])

/-- the `for pred in predecessors[node]:` loop of the dependency
accumulation (q5_1.py lines 54-58): each predecessor receives
`sigma[pred]/sigma[node] * (1 + delta[node])`, added to the sorted edge's
score and to `delta[pred]`; the division raises `ZeroDivisionError` when
`sigma[node]` is zero, and a score key absent from the dict would raise
`KeyError`. -/
def ebcPreds (sigma : ℕ → ℕ) (node : ℕ) :
    List ℕ → Dict (ℕ × ℕ) ℚ → (ℕ → ℚ) → Except PyErr (Dict (ℕ × ℕ) ℚ × (ℕ → ℚ))
  | [], ebc, delta => .ok (ebc, delta)
  | pred :: rest, ebc, delta =>
    match pydiv (sigma pred : ℚ) (sigma node : ℚ) with
    | .error e => .error e
    | .ok q =>
      let contribution := q * (1 + delta node)
      match dget? ebc (sortPair node pred) with
      | none => .error .keyError
      | some c =>
        ebcPreds sigma node rest (dset ebc (sortPair node pred) (c + contribution))
          (Function.update delta pred (delta pred + contribution))

/-- the `while stack:` loop (q5_1.py lines 52-58); `stack.pop()` takes from
the right, so this is called on the reversed stack. -/
def ebcStack (sigma : ℕ → ℕ) (preds : ℕ → List ℕ) :
    List ℕ → Dict (ℕ × ℕ) ℚ → (ℕ → ℚ) → Except PyErr (Dict (ℕ × ℕ) ℚ)
  | [], ebc, _ => .ok ebc
  | node :: rest, ebc, delta =>
    match ebcPreds sigma node (preds node) ebc delta with
    | .error e => .error e
    | .ok r => ebcStack sigma preds rest r.1 r.2

/-- one iteration of the `for source in graph.nodes():` loop of
`edge_betweenness_centrality` (q5_1.py lines 15-58): BFS from the source,
then dependency accumulation along the stack in reverse push order. -/
def ebcSource (g : UGraph) (fuel source : ℕ) (ebc : Dict (ℕ × ℕ) ℚ) :
    Step (Dict (ℕ × ℕ) ℚ) :=
  match ebcBFS g fuel
      ⟨Function.update (fun _ => ⊤) source 0,
       Function.update (fun _ => 0) source 1,
       fun _ => [], [source]⟩ [] with
  | none => none
  | some r => some (ebcStack r.2.sigma r.2.preds r.1.reverse ebc (fun _ => 0))

/-- the source loop of `edge_betweenness_centrality`. -/
def ebcGo (g : UGraph) (fuel : ℕ) :
    List ℕ → Dict (ℕ × ℕ) ℚ → Step (Dict (ℕ × ℕ) ℚ)
  | [], ebc => some (.ok ebc)
  | s :: rest, ebc =>
    match ebcSource g fuel s ebc with
    | none => none
    | some (.error e) => some (.error e)
    | some (.ok ebc2) => ebcGo g fuel rest ebc2

/-- `edge_betweenness_centrality(graph)` (q5_1.py lines 4-64): initialize
every sorted edge's score to zero, accumulate over all sources, then halve
every score. -/
def edge_betweenness_centrality (g : UGraph) (fuel : ℕ) :
    Step (Dict (ℕ × ℕ) ℚ) :=
  match ebcGo g fuel g.nodes ((edgesOf g).map (fun e => (e, (0 : ℚ)))) with
  | none => none
  | some (.error e) => some (.error e)
  | some (.ok d) => some (.ok (d.map (fun kv => (kv.1, kv.2 / 2))))

/-- `max(N_dict, key=N_dict.get)` (q5_1.py line 80) on a nonempty dict:
the first key attaining the maximal value, in insertion order. -/
def pymaxVal : (ℕ × ℕ) × ℚ → List ((ℕ × ℕ) × ℚ) → ℕ × ℕ
  | best, [] => best.1
  | best, kv :: rest => if best.2 < kv.2 then pymaxVal kv rest else pymaxVal best rest

/-- `edge_to_remove(graph)` (q5_1.py lines 69-82); Python's `max` raises
`ValueError` on an empty dict. -/
def edge_to_remove (g : UGraph) (fuel : ℕ) : Step (ℕ × ℕ) :=
  match edge_betweenness_centrality g fuel with
  | none => none
  | some (.error e) => some (.error e)
  | some (.ok d) =>
    match d with
    | [] => some (.error .valueError)
    | kv :: rest => some (.ok (pymaxVal kv rest))

/-- the `while sg_count == 1:` loop of `girvan_newman` (q5_1.py lines
131-135): remove the highest-betweenness edge and recompute the connected
components; fuel bounds the iterations. -/
def gnLoop (fuelE fuelC : ℕ) : ℕ → UGraph → List (List ℕ) → Step (List (List ℕ))
  | 0, _, _ => none
  | fuel + 1, g, sg =>
    if sg.length = 1 then
      match edge_to_remove g fuelE with
      | none => none
      | some (.error e) => some (.error e)
      | some (.ok edge) =>
        match connected_components (removeEdge g edge.1 edge.2) fuelC with
        | none => none
        | some sg2 => gnLoop fuelE fuelC fuel (removeEdge g edge.1 edge.2) sg2
    else some (.ok sg)

/-- `girvan_newman(graph)` (q5_1.py lines 117-136). -/
def girvan_newman (g : UGraph) (fuelE fuelC fuel : ℕ) : Step (List (List ℕ)) :=
  match connected_components g fuelC with
  | none => none
  | some sg => gnLoop fuelE fuelC fuel g sg

/-! ### Girvan-Newman: reachability, edge set and edge removal -/

lemma ureach_trans {g : UGraph} {a b c : ℕ} (h1 : UReach g a b)
    (h2 : UReach g b c) : UReach g a c := by
  induction h2 with
  | refl => exact h1
  | step h hadj ih => exact UReach.step ih hadj

lemma ureach_symm {g : UGraph} (hsym : ∀ u v, v ∈ g.adj u ↔ u ∈ g.adj v)
    {a b : ℕ} (h : UReach g a b) : UReach g b a := by
  induction h with
  | refl => exact UReach.refl
  | step h hadj ih =>
    exact ureach_trans (UReach.step UReach.refl ((hsym _ _).mp hadj)) ih

lemma mem_edgesOf {g : UGraph} (hwf : g.wf) {u v : ℕ} :
    (u, v) ∈ edgesOf g ↔ v ∈ g.adj u ∧ u ≤ v := by
  constructor
  · intro h
    simp only [edgesOf, List.mem_flatMap, List.mem_filterMap] at h
    obtain ⟨a, _, w, hw, heq⟩ := h
    by_cases hle : a ≤ w
    · rw [if_pos hle] at heq
      obtain ⟨rfl, rfl⟩ : a = u ∧ w = v := by
        have := Option.some.inj heq
        exact ⟨congrArg Prod.fst this, congrArg Prod.snd this⟩
      exact ⟨hw, hle⟩
    · rw [if_neg hle] at heq
      cases heq
  · rintro ⟨hv, hle⟩
    simp only [edgesOf, List.mem_flatMap, List.mem_filterMap]
    exact ⟨u, (hwf.2.2.1 u v hv).1, v, hv, by rw [if_pos hle]⟩

lemma sortPair_mem_edgesOf {g : UGraph} (hwf : g.wf) {x p : ℕ}
    (h : x ∈ g.adj p) : sortPair x p ∈ edgesOf g := by
  unfold sortPair
  by_cases hle : x ≤ p
  · rw [if_pos hle]
    exact (mem_edgesOf hwf).mpr ⟨(hwf.2.2.2.1 p x).mp h, hle⟩
  · rw [if_neg hle]
    exact (mem_edgesOf hwf).mpr ⟨h, Nat.le_of_not_le hle⟩

lemma edge_facts {g : UGraph} (hwf : g.wf) {e : ℕ × ℕ}
    (h : e ∈ edgesOf g) :
    e.1 ∈ g.nodes ∧ e.2 ∈ g.nodes ∧ e.2 ∈ g.adj e.1 ∧ e.1 < e.2 := by
  obtain ⟨a, b⟩ := e
  rw [mem_edgesOf hwf] at h
  have hcl := hwf.2.2.1 a b h.1
  refine ⟨hcl.1, hcl.2, h.1, lt_of_le_of_ne h.2 ?_⟩
  intro hab
  have hab' : a = b := hab
  subst hab'
  exact hwf.2.2.2.2 a h.1

lemma edgesOf_ne_nil_of_reach {g : UGraph} (hwf : g.wf) {a b : ℕ}
    (h : UReach g a b) (hne : a ≠ b) : edgesOf g ≠ [] := by
  induction h with
  | refl => exact absurd rfl hne
  | step h hadj ih =>
    intro hnil
    have hm := sortPair_mem_edgesOf hwf hadj
    rw [hnil] at hm
    exact (List.not_mem_nil _) hm

lemma mem_removeEdge_adj {g : UGraph} (hwf : g.wf) {u v : ℕ} (huv : u ≠ v)
    {x y : ℕ} :
    y ∈ (removeEdge g u v).adj x ↔
      y ∈ g.adj x ∧ ¬(x = u ∧ y = v) ∧ ¬(x = v ∧ y = u) := by
  simp only [removeEdge]
  by_cases hxu : x = u
  · subst hxu
    rw [if_pos rfl, List.Nodup.mem_erase_iff (hwf.2.1 x)]
    constructor
    · rintro ⟨hne, hmem⟩
      exact ⟨hmem, fun hc => hne hc.2, fun hc => huv hc.1⟩
    · rintro ⟨hmem, h1, _⟩
      exact ⟨fun hy => h1 ⟨rfl, hy⟩, hmem⟩
  · rw [if_neg hxu]
    by_cases hxv : x = v
    · subst hxv
      rw [if_pos rfl, List.Nodup.mem_erase_iff (hwf.2.1 x)]
      constructor
      · rintro ⟨hne, hmem⟩
        exact ⟨hmem, fun hc => hxu hc.1, fun hc => hne hc.2⟩
      · rintro ⟨hmem, _, h2⟩
        exact ⟨fun hy => h2 ⟨rfl, hy⟩, hmem⟩
    · rw [if_neg hxv]
      constructor
      · intro hm
        exact ⟨hm, fun hc => hxu hc.1, fun hc => hxv hc.1⟩
      · exact fun h => h.1

lemma removeEdge_wf {g : UGraph} (hwf : g.wf) {u v : ℕ} (huv : u ≠ v) :
    (removeEdge g u v).wf := by
  refine ⟨hwf.1, ?_, ?_, ?_, ?_⟩
  · intro x
    simp only [removeEdge]
    split
    · exact (hwf.2.1 u).erase _
    · split
      · exact (hwf.2.1 v).erase _
      · exact hwf.2.1 x
  · intro a b hb
    rw [mem_removeEdge_adj hwf huv] at hb
    exact hwf.2.2.1 a b hb.1
  · intro a b
    rw [mem_removeEdge_adj hwf huv, mem_removeEdge_adj hwf huv,
      hwf.2.2.2.1 a b]
    constructor
    · rintro ⟨hm, h1, h2⟩
      exact ⟨hm, fun hc => h2 ⟨hc.2, hc.1⟩, fun hc => h1 ⟨hc.2, hc.1⟩⟩
    · rintro ⟨hm, h1, h2⟩
      exact ⟨hm, fun hc => h2 ⟨hc.2, hc.1⟩, fun hc => h1 ⟨hc.2, hc.1⟩⟩
  · intro a ha
    rw [mem_removeEdge_adj hwf huv] at ha
    exact hwf.2.2.2.2 a ha.1

lemma edgesOf_removeEdge_subset {g : UGraph} (hwf : g.wf) {u v : ℕ}
    (huv : u ≠ v) {e : ℕ × ℕ} (h : e ∈ edgesOf (removeEdge g u v)) :
    e ∈ edgesOf g := by
  obtain ⟨a, b⟩ := e
  rw [mem_edgesOf (removeEdge_wf hwf huv)] at h
  rw [mem_edgesOf hwf]
  exact ⟨((mem_removeEdge_adj hwf huv).mp h.1).1, h.2⟩

lemma not_mem_edges_removeEdge {g : UGraph} (hwf : g.wf) {u v : ℕ}
    (huv : u < v) : (u, v) ∉ edgesOf (removeEdge g u v) := by
  intro h
  rw [mem_edgesOf (removeEdge_wf hwf (Nat.ne_of_lt huv))] at h
  exact ((mem_removeEdge_adj hwf (Nat.ne_of_lt huv)).mp h.1).2.1 ⟨rfl, rfl⟩

lemma card_edges_removeEdge {g : UGraph} (hwf : g.wf) {u v : ℕ}
    (huv : u < v) (hmem : v ∈ g.adj u) :
    (edgesOf (removeEdge g u v)).toFinset.card <
      (edgesOf g).toFinset.card := by
  apply Finset.card_lt_card
  constructor
  · intro e he
    rw [List.mem_toFinset] at he ⊢
    exact edgesOf_removeEdge_subset hwf (Nat.ne_of_lt huv) he
  · intro hsup
    have h1 : (u, v) ∈ (edgesOf g).toFinset := by
      rw [List.mem_toFinset]
      exact (mem_edgesOf hwf).mpr ⟨hmem, Nat.le_of_lt huv⟩
    have h2 := hsup h1
    rw [List.mem_toFinset] at h2
    exact not_mem_edges_removeEdge hwf huv h2

/-! ### Girvan-Newman: connected components -/

lemma countP_lt_of_mem {l : List ℕ} {a : ℕ} (ha : a ∈ l) {p q : ℕ → Bool}
    (hpq : ∀ x, p x = true → q x = true) (hqa : q a = true)
    (hpa : p a = false) : l.countP p < l.countP q := by
  induction l with
  | nil => cases ha
  | cons b t ih =>
    have hb : (if p b = true then 1 else 0) ≤ (if q b = true then 1 else 0) := by
      by_cases hpb : p b = true
      · simp [hpb, hpq b hpb]
      · simp [hpb]
    rcases List.mem_cons.mp ha with rfl | hat
    · have hle : t.countP p ≤ t.countP q :=
        List.countP_mono_left (fun x _ => hpq x)
      simp only [List.countP_cons, hqa, hpa]
      simp
      omega
    · have := ih hat
      simp only [List.countP_cons]
      omega

/-- count of nodes not yet visited: the DFS recursion measure. -/
def unvisN (g : UGraph) (vis : List ℕ) : ℕ :=
  g.nodes.countP (fun x => decide (x ∉ vis))

lemma unvisN_mono {g : UGraph} {vis vis' : List ℕ}
    (h : ∀ x ∈ vis, x ∈ vis') : unvisN g vis' ≤ unvisN g vis := by
  apply List.countP_mono_left
  intro x _ hx
  simp only [decide_eq_true_eq] at hx ⊢
  exact fun hm => hx (h x hm)

lemma unvisN_sadd_lt {g : UGraph} {vis : List ℕ} {node : ℕ}
    (hn : node ∈ g.nodes) (hv : node ∉ vis) :
    unvisN g (sadd vis node) < unvisN g vis := by
  apply countP_lt_of_mem hn
  · intro x hx
    simp only [decide_eq_true_eq] at hx ⊢
    exact fun hm => hx (sadd_subset vis node hm)
  · simpa using hv
  · simpa using sadd_self_mem vis node

lemma unvisN_le (g : UGraph) (vis : List ℕ) :
    unvisN g vis ≤ g.nodes.length :=
  List.countP_le_length _

lemma ccNbrs_go (g : UGraph)
    (f : ℕ → List ℕ × List ℕ → Option (List ℕ × List ℕ))
    (hf : ∀ nb vc r, f nb vc = some r →
      (∀ x ∈ vc.1, x ∈ r.1) ∧ (∀ x ∈ vc.2, x ∈ r.2) ∧
      (∀ x ∈ r.1, x ∈ vc.1 ∨ x ∈ r.2) ∧
      (∀ x ∈ r.2, x ∈ vc.2 ∨ (x ∈ r.1 ∧ UReach g nb x))) :
    ∀ l vc r, ccNbrs f l vc = some r →
      (∀ x ∈ vc.1, x ∈ r.1) ∧ (∀ x ∈ vc.2, x ∈ r.2) ∧
      (∀ x ∈ r.1, x ∈ vc.1 ∨ x ∈ r.2) ∧
      (∀ x ∈ r.2, x ∈ vc.2 ∨ (x ∈ r.1 ∧ ∃ nb ∈ l, UReach g nb x)) := by
  intro l
  induction l with
  | nil =>
    intro vc r h
    simp only [ccNbrs] at h
    cases h
    exact ⟨fun x hx => hx, fun x hx => hx, fun x hx => Or.inl hx,
      fun x hx => Or.inl hx⟩
  | cons nb rest ih =>
    intro vc r h
    simp only [ccNbrs] at h
    split at h
    · rename_i hnb
      revert h
      cases hcall : f nb vc with
      | none => intro h; cases h
      | some vc2 =>
        intro h
        have h1 := hf nb vc vc2 hcall
        have h2 := ih vc2 r h
        refine ⟨fun x hx => h2.1 x (h1.1 x hx),
          fun x hx => h2.2.1 x (h1.2.1 x hx), ?_, ?_⟩
        · intro x hx
          rcases h2.2.2.1 x hx with hx2 | hx2
          · rcases h1.2.2.1 x hx2 with hx3 | hx3
            · exact Or.inl hx3
            · exact Or.inr (h2.2.1 x hx3)
          · exact Or.inr hx2
        · intro x hx
          rcases h2.2.2.2 x hx with hx2 | hx2
          · rcases h1.2.2.2 x hx2 with hx3 | hx3
            · exact Or.inl hx3
            · exact Or.inr ⟨h2.1 x hx3.1, nb, List.mem_cons_self nb rest,
                hx3.2⟩
          · exact Or.inr ⟨hx2.1, hx2.2.choose,
              List.mem_cons_of_mem nb hx2.2.choose_spec.1,
              hx2.2.choose_spec.2⟩
    · have h2 := ih vc r h
      refine ⟨h2.1, h2.2.1, h2.2.2.1, ?_⟩
      intro x hx
      rcases h2.2.2.2 x hx with hx2 | hx2
      · exact Or.inl hx2
      · exact Or.inr ⟨hx2.1, hx2.2.choose,
          List.mem_cons_of_mem nb hx2.2.choose_spec.1, hx2.2.choose_spec.2⟩

lemma ccVisit_spec (g : UGraph) :
    ∀ fuel node vc r, ccVisit g fuel node vc = some r →
      (∀ x ∈ vc.1, x ∈ r.1) ∧ (∀ x ∈ vc.2, x ∈ r.2) ∧
      (∀ x ∈ r.1, x ∈ vc.1 ∨ x ∈ r.2) ∧
      (∀ x ∈ r.2, x ∈ vc.2 ∨ (x ∈ r.1 ∧ UReach g node x)) ∧
      node ∈ r.1 ∧ node ∈ r.2 := by
  intro fuel
  induction fuel with
  | zero => intro node vc r h; cases h
  | succ fuel ih =>
    intro node vc r h
    simp only [ccVisit] at h
    have hgo := ccNbrs_go g (ccVisit g fuel)
      (fun nb vc' r' hc => ((ih nb vc' r' hc).imp_right
        (fun w => ⟨w.1, w.2.1, w.2.2.1⟩))) _ _ _ h
    have hnodev : node ∈ r.1 := hgo.1 node (sadd_self_mem _ _)
    have hnodec : node ∈ r.2 := hgo.2.1 node (sadd_self_mem _ _)
    refine ⟨fun x hx => hgo.1 x (sadd_subset _ _ hx),
      fun x hx => hgo.2.1 x (sadd_subset _ _ hx), ?_, ?_, hnodev, hnodec⟩
    · intro x hx
      rcases hgo.2.2.1 x hx with hx2 | hx2
      · rcases (mem_sadd _ _ _).mp hx2 with hx3 | rfl
        · exact Or.inl hx3
        · exact Or.inr hnodec
      · exact Or.inr hx2
    · intro x hx
      rcases hgo.2.2.2 x hx with hx2 | hx2
      · rcases (mem_sadd _ _ _).mp hx2 with hx3 | rfl
        · exact Or.inl hx3
        · exact Or.inr ⟨hnodev, UReach.refl⟩
      · obtain ⟨hxr, nb, hnb, hreach⟩ := hx2
        exact Or.inr ⟨hxr,
          ureach_trans (UReach.step UReach.refl hnb) hreach⟩

lemma ccNbrs_exists (g : UGraph) (hwf : g.wf) (fuel : ℕ)
    (hex : ∀ nb vis comp, nb ∈ g.nodes → nb ∉ vis → unvisN g vis < fuel →
      ∃ r, ccVisit g fuel nb (vis, comp) = some r) :
    ∀ l vc, (∀ nb ∈ l, nb ∈ g.nodes) → unvisN g vc.1 < fuel →
      ∃ r, ccNbrs (ccVisit g fuel) l vc = some r := by
  intro l
  induction l with
  | nil => exact fun vc _ _ => ⟨vc, rfl⟩
  | cons nb rest ih =>
    intro vc hl hm
    simp only [ccNbrs]
    by_cases hnb : nb ∈ vc.1
    · rw [if_neg (by simpa using hnb)]
      exact ih vc (fun x hx => hl x (List.mem_cons_of_mem nb hx)) hm
    · rw [if_pos (by simpa using hnb)]
      obtain ⟨r1, hr1⟩ := hex nb vc.1 vc.2 (hl nb (List.mem_cons_self nb rest))
        hnb hm
      have hmono := (ccVisit_spec g fuel nb (vc.1, vc.2) r1 hr1).1
      have hm1 : unvisN g r1.1 < fuel :=
        lt_of_le_of_lt (unvisN_mono (fun x hx => hmono x hx)) hm
      obtain ⟨r2, hr2⟩ := ih r1 (fun x hx => hl x (List.mem_cons_of_mem nb hx))
        hm1
      have hvc : ccVisit g fuel nb vc = some r1 := hr1
      rw [hvc]
      exact ⟨r2, hr2⟩

lemma ccVisit_exists (g : UGraph) (hwf : g.wf) :
    ∀ fuel node vis comp, node ∈ g.nodes → node ∉ vis →
      unvisN g vis < fuel → ∃ r, ccVisit g fuel node (vis, comp) = some r := by
  intro fuel
  induction fuel with
  | zero => intro node vis comp _ _ h; omega
  | succ fuel ih =>
    intro node vis comp hn hv hm
    simp only [ccVisit]
    apply ccNbrs_exists g hwf fuel (fun nb vis' comp' h1 h2 h3 => ih nb vis' comp' h1 h2 h3)
    · exact fun nb hnb => (hwf.2.2.1 node nb hnb).2
    · have h1 : unvisN g (sadd vis node) < unvisN g vis := unvisN_sadd_lt hn hv
      have h2 : unvisN g (sadd vis node, sadd comp node).1 =
        unvisN g (sadd vis node) := rfl
      omega

lemma ccGo_spec (g : UGraph) (fuel : ℕ) :
    ∀ ns vis comps r, ccGo g fuel ns vis comps = some r →
      (∀ C ∈ comps, C ∈ r.1) ∧
      (∀ x ∈ vis, x ∈ r.2) ∧
      (∀ n ∈ ns, n ∈ r.2) ∧
      (∀ x ∈ r.2, x ∈ vis ∨ ∃ C ∈ r.1, x ∈ C) ∧
      (∀ C ∈ r.1, C ∈ comps ∨ ∃ root, ∀ x ∈ C, UReach g root x) := by
  intro ns
  induction ns with
  | nil =>
    intro vis comps r h
    simp only [ccGo] at h
    cases h
    exact ⟨fun C hC => hC, fun x hx => hx, fun n hn => (List.not_mem_nil n hn).elim,
      fun x hx => Or.inl hx, fun C hC => Or.inl hC⟩
  | cons node rest ih =>
    intro vis comps r h
    simp only [ccGo] at h
    split at h
    · rename_i hnode
      revert h
      cases hcall : ccVisit g fuel node (vis, []) with
      | none => intro h; cases h
      | some vc2 =>
        intro h
        have hsp := ccVisit_spec g fuel node (vis, []) vc2 hcall
        have h2 := ih vc2.1 (comps ++ [vc2.2]) r h
        refine ⟨fun C hC => h2.1 C (List.mem_append_left _ hC), ?_, ?_, ?_, ?_⟩
        · exact fun x hx => h2.2.1 x (hsp.1 x hx)
        · intro n hn
          rcases List.mem_cons.mp hn with rfl | hn2
          · exact h2.2.1 n (hsp.2.2.2.2.1)
          · exact h2.2.2.1 n hn2
        · intro x hx
          rcases h2.2.2.2.1 x hx with hx2 | hx2
          · rcases hsp.2.2.1 x hx2 with hx3 | hx3
            · exact Or.inl hx3
            · exact Or.inr ⟨vc2.2, h2.1 vc2.2
                (List.mem_append_right _ (List.mem_singleton_self _)), hx3⟩
          · exact Or.inr hx2
        · intro C hC
          rcases h2.2.2.2.2 C hC with hC2 | hC2
          · rcases List.mem_append.mp hC2 with hC3 | hC3
            · exact Or.inl hC3
            · rw [List.mem_singleton] at hC3
              subst hC3
              refine Or.inr ⟨node, fun x hx => ?_⟩
              rcases hsp.2.2.2.1 x hx with hx2 | hx2
              · cases hx2
              · exact hx2.2
          · exact Or.inr hC2
    · have h2 := ih vis comps r h
      refine ⟨h2.1, h2.2.1, ?_, h2.2.2.2.1, h2.2.2.2.2⟩
      intro n hn
      rcases List.mem_cons.mp hn with rfl | hn2
      · rename_i hnode
        exact h2.2.1 n (by simpa using hnode)
      · exact h2.2.2.1 n hn2

lemma ccGo_exists (g : UGraph) (hwf : g.wf) (fuel : ℕ)
    (hfuel : g.nodes.length < fuel) :
    ∀ ns vis comps, (∀ n ∈ ns, n ∈ g.nodes) →
      ∃ r, ccGo g fuel ns vis comps = some r := by
  intro ns
  induction ns with
  | nil => exact fun vis comps _ => ⟨_, rfl⟩
  | cons node rest ih =>
    intro vis comps hns
    simp only [ccGo]
    by_cases hnode : node ∈ vis
    · rw [if_neg (by simpa using hnode)]
      exact ih vis comps (fun n hn => hns n (List.mem_cons_of_mem node hn))
    · rw [if_pos (by simpa using hnode)]
      obtain ⟨r1, hr1⟩ := ccVisit_exists g hwf fuel node vis []
        (hns node (List.mem_cons_self node rest)) hnode
        (lt_of_le_of_lt (unvisN_le g vis) hfuel)
      rw [hr1]
      exact ih r1.1 (comps ++ [r1.2]) (fun n hn => hns n (List.mem_cons_of_mem node hn))

lemma connected_components_exists (g : UGraph) (hwf : g.wf) (fuel : ℕ)
    (hfuel : g.nodes.length < fuel) :
    ∃ comps, connected_components g fuel = some comps := by
  obtain ⟨r, hr⟩ := ccGo_exists g hwf fuel hfuel g.nodes [] [] (fun n hn => hn)
  exact ⟨r.1, by simp [connected_components, hr]⟩

lemma connected_components_spec (g : UGraph) (hwf : g.wf) (fuel : ℕ)
    {comps : List (List ℕ)} (h : connected_components g fuel = some comps) :
    (g.nodes ≠ [] → comps ≠ []) ∧
    (comps.length = 1 → ∀ x ∈ g.nodes, ∀ y ∈ g.nodes, UReach g x y) := by
  simp only [connected_components] at h
  cases hgo : ccGo g fuel g.nodes [] [] with
  | none => rw [hgo] at h; cases h
  | some r =>
    rw [hgo] at h
    obtain rfl : r.1 = comps := by simpa using h
    have hsp := ccGo_spec g fuel g.nodes [] [] r hgo
    constructor
    · intro hne hcomps
      obtain ⟨n, hn⟩ := List.exists_mem_of_ne_nil g.nodes hne
      have hn2 := hsp.2.2.1 n hn
      rcases hsp.2.2.2.1 n hn2 with h3 | ⟨C, hC, _⟩
      · cases h3
      · rw [hcomps] at hC
        exact List.not_mem_nil C hC
    · intro hlen x hx y hy
      obtain ⟨C, hCeq⟩ : ∃ C, r.1 = [C] := List.length_eq_one.mp hlen
      have hmemC : ∀ z ∈ g.nodes, z ∈ C := by
        intro z hz
        have hz2 := hsp.2.2.1 z hz
        rcases hsp.2.2.2.1 z hz2 with h3 | ⟨C', hC', hzC⟩
        · cases h3
        · rw [hCeq, List.mem_singleton] at hC'
          subst hC'
          exact hzC
      have hroot : ∃ root, ∀ z ∈ C, UReach g root z := by
        have := hsp.2.2.2.2 C (by rw [hCeq]; exact List.mem_singleton_self C)
        rcases this with h3 | h3
        · cases h3
        · exact h3
      obtain ⟨root, hroot⟩ := hroot
      exact ureach_trans
        (ureach_symm hwf.2.2.2.1 (hroot x (hmemC x hx)))
        (hroot y (hmemC y hy))

/-! ### Girvan-Newman: edge betweenness centrality never fails -/

/-- count of nodes still at infinite distance: part of the BFS measure. -/
def topCount (g : UGraph) (d : ℕ → WithTop ℕ) : ℕ :=
  g.nodes.countP (fun x => decide (d x = ⊤))

lemma countP_eq_of_eq {l : List ℕ} {p q : ℕ → Bool}
    (h : ∀ x ∈ l, p x = q x) : l.countP p = l.countP q :=
  le_antisymm
    (List.countP_mono_left (fun x hx hp => (h x hx) ▸ hp))
    (List.countP_mono_left (fun x hx hq => (h x hx).symm ▸ hq))

lemma countP_update_decr {l : List ℕ} (hl : l.Nodup) {a : ℕ} (ha : a ∈ l)
    {p q : ℕ → Bool} (hpq : ∀ x, x ≠ a → p x = q x)
    (hpa : p a = true) (hqa : q a = false) :
    l.countP q + 1 = l.countP p := by
  induction l with
  | nil => cases ha
  | cons b t ih =>
    rcases List.mem_cons.mp ha with rfl | hat
    · have hnt : a ∉ t := (List.nodup_cons.mp hl).1
      have heq : t.countP p = t.countP q :=
        countP_eq_of_eq (fun x hx => hpq x (fun hxa => hnt (hxa ▸ hx)))
      simp only [List.countP_cons, hpa, hqa, if_true, Bool.false_eq_true,
        if_false]
      omega
    · have hba : b ≠ a := fun hba => (List.nodup_cons.mp hl).1 (hba ▸ hat)
      have h2 := ih (List.nodup_cons.mp hl).2 hat
      simp only [List.countP_cons, hpq b hba]
      omega

lemma ebcNbrs_spec (g : UGraph) (hwf : g.wf) (current : ℕ) :
    ∀ (l : List ℕ) (d : ℕ → WithTop ℕ) (s : ℕ → ℕ) (p : ℕ → List ℕ)
      (q : List ℕ),
      (∀ nb ∈ l, nb ∈ g.adj current) → d current ≠ ⊤ → 1 ≤ s current →
      (∀ x, s x ≤ (ebcNbrs current l ⟨d, s, p, q⟩).sigma x) ∧
      ((ebcNbrs current l ⟨d, s, p, q⟩).sigma current = s current) ∧
      (∀ x, d x ≠ ⊤ → (ebcNbrs current l ⟨d, s, p, q⟩).dist x = d x) ∧
      (∀ x pr, pr ∈ (ebcNbrs current l ⟨d, s, p, q⟩).preds x →
        pr ∈ p x ∨ (pr = current ∧ x ∈ g.adj current)) ∧
      ∃ E, (ebcNbrs current l ⟨d, s, p, q⟩).queue = q ++ E ∧
        (∀ x ∈ E, x ∈ g.nodes ∧ (ebcNbrs current l ⟨d, s, p, q⟩).dist x ≠ ⊤ ∧
          1 ≤ (ebcNbrs current l ⟨d, s, p, q⟩).sigma x) ∧
        topCount g (ebcNbrs current l ⟨d, s, p, q⟩).dist + E.length =
          topCount g d := by
  intro l
  induction l with
  | nil =>
    intro d s p q hl hcur hsig
    exact ⟨fun x => le_refl _, rfl, fun x _ => rfl, fun x pr hp => Or.inl hp,
      [], by simp [ebcNbrs], fun x hx => (List.not_mem_nil x hx).elim,
      by simp [ebcNbrs]⟩
  | cons nb rest ih =>
    intro d s p q hl hcur hsig
    have hnbadj : nb ∈ g.adj current := hl nb (List.mem_cons_self nb rest)
    have hnbnodes : nb ∈ g.nodes := (hwf.2.2.1 current nb hnbadj).2
    have hcurnb : current ≠ nb := by
      intro h
      exact hwf.2.2.2.2 current (h ▸ hnbadj)
    have hrest : ∀ x ∈ rest, x ∈ g.adj current :=
      fun x hx => hl x (List.mem_cons_of_mem nb hx)
    by_cases hd : d nb = ⊤
    · -- first branch: the neighbor is newly discovered
      have hstep : ebcNbrs current (nb :: rest) ⟨d, s, p, q⟩ =
          ebcNbrs current rest
            ⟨Function.update d nb (d current + 1),
             Function.update s nb (s nb + s current),
             Function.update p nb (p nb ++ [current]),
             q ++ [nb]⟩ := by
        simp only [ebcNbrs]
        rw [if_pos hd]
      rw [hstep]
      have hcur2 : Function.update d nb (d current + 1) current = d current :=
        Function.update_noteq hcurnb _ _
      have hsig2 : Function.update s nb (s nb + s current) current = s current :=
        Function.update_noteq hcurnb _ _
      have hdnbne : d current + 1 ≠ ⊤ :=
        WithTop.add_ne_top.mpr ⟨hcur, WithTop.one_ne_top⟩
      obtain ⟨ih1, ih2, ih3, ih4, E', hE1, hE2, hE3⟩ :=
        ih (Function.update d nb (d current + 1))
          (Function.update s nb (s nb + s current))
          (Function.update p nb (p nb ++ [current])) (q ++ [nb]) hrest
          (by rw [hcur2]; exact hcur) (by rw [hsig2]; exact hsig)
      have hsnb : ∀ x, s x ≤ Function.update s nb (s nb + s current) x := by
        intro x
        by_cases hx : x = nb
        · subst hx
          rw [Function.update_same]
          exact Nat.le_add_right _ _
        · rw [Function.update_noteq hx]
      have hdstable : ∀ x, d x ≠ ⊤ →
          Function.update d nb (d current + 1) x = d x := by
        intro x hx
        have hxnb : x ≠ nb := fun h => hx (h ▸ hd)
        exact Function.update_noteq hxnb _ _
      refine ⟨fun x => le_trans (hsnb x) (ih1 x), by rw [ih2]; exact hsig2,
        ?_, ?_, nb :: E', ?_, ?_, ?_⟩
      · intro x hx
        have h2 := hdstable x hx
        rw [ih3 x (by rw [h2]; exact hx)]
        exact h2
      · intro x pr hp
        rcases ih4 x pr hp with hp2 | hp2
        · by_cases hx : x = nb
          · subst hx
            rw [Function.update_same] at hp2
            rcases List.mem_append.mp hp2 with h3 | h3
            · exact Or.inl h3
            · rw [List.mem_singleton] at h3
              exact Or.inr ⟨h3, hnbadj⟩
          · rw [Function.update_noteq hx] at hp2
            exact Or.inl hp2
        · exact Or.inr hp2
      · rw [hE1, List.append_assoc]
        rfl
      · intro x hx
        rcases List.mem_cons.mp hx with rfl | hx2
        · refine ⟨hnbnodes, ?_, ?_⟩
          · rw [ih3 x (by rw [Function.update_same]; exact hdnbne),
              Function.update_same]
            exact hdnbne
          · refine le_trans ?_ (ih1 x)
            rw [Function.update_same]
            exact le_trans hsig (Nat.le_add_left _ _)
        · exact hE2 x hx2
      · have hdec : topCount g (Function.update d nb (d current + 1)) + 1 =
            topCount g d := by
          apply countP_update_decr hwf.1 hnbnodes
          · intro x hx
            rw [Function.update_noteq hx]
          · simpa using hd
          · simp only [decide_eq_false_iff_not]
            rw [Function.update_same]
            exact hdnbne
        simp only [List.length_cons]
        omega
    · rw [show ebcNbrs current (nb :: rest) ⟨d, s, p, q⟩ =
          (if d nb = d current + 1 then
            ebcNbrs current rest
              ⟨d, Function.update s nb (s nb + s current),
               Function.update p nb (p nb ++ [current]), q⟩
          else ebcNbrs current rest ⟨d, s, p, q⟩) from by
        simp only [ebcNbrs]
        rw [if_neg hd]]
      by_cases he : d nb = d current + 1
      · rw [if_pos he]
        have hsig2 : Function.update s nb (s nb + s current) current =
            s current := Function.update_noteq hcurnb _ _
        obtain ⟨ih1, ih2, ih3, ih4, E', hE1, hE2, hE3⟩ :=
          ih d (Function.update s nb (s nb + s current))
            (Function.update p nb (p nb ++ [current])) q hrest hcur
            (by rw [hsig2]; exact hsig)
        have hsnb : ∀ x, s x ≤ Function.update s nb (s nb + s current) x := by
          intro x
          by_cases hx : x = nb
          · subst hx
            rw [Function.update_same]
            exact Nat.le_add_right _ _
          · rw [Function.update_noteq hx]
        refine ⟨fun x => le_trans (hsnb x) (ih1 x), by rw [ih2]; exact hsig2,
          ih3, ?_, E', hE1, hE2, hE3⟩
        intro x pr hp
        rcases ih4 x pr hp with hp2 | hp2
        · by_cases hx : x = nb
          · subst hx
            rw [Function.update_same] at hp2
            rcases List.mem_append.mp hp2 with h3 | h3
            · exact Or.inl h3
            · rw [List.mem_singleton] at h3
              exact Or.inr ⟨h3, hnbadj⟩
          · rw [Function.update_noteq hx] at hp2
            exact Or.inl hp2
        · exact Or.inr hp2
      · rw [if_neg he]
        exact ih d s p q hrest hcur hsig

lemma ebcBFS_spec (g : UGraph) (hwf : g.wf) :
    ∀ fuel (st : EbcBFSState) stack r,
      (∀ x ∈ st.queue, st.dist x ≠ ⊤ ∧ x ∈ g.nodes ∧ 1 ≤ st.sigma x) →
      (∀ x ∈ stack, 1 ≤ st.sigma x) →
      (∀ x pr, pr ∈ st.preds x → x ∈ g.adj pr) →
      ebcBFS g fuel st stack = some r →
      (∀ x ∈ r.1, 1 ≤ r.2.sigma x) ∧
      (∀ x pr, pr ∈ r.2.preds x → x ∈ g.adj pr) := by
  intro fuel
  induction fuel with
  | zero => intro st stack r _ _ _ h; cases h
  | succ fuel ih =>
    intro st
    obtain ⟨d, s, p, q⟩ := st
    intro stack r hq hs hp h
    simp only [ebcBFS] at h
    dsimp only at h hq hs hp
    cases q with
    | nil =>
      obtain rfl : (stack, (⟨d, s, p, []⟩ : EbcBFSState)) = r :=
        Option.some.inj h
      exact ⟨hs, hp⟩
    | cons current qrest =>
      have hcq := hq current (List.mem_cons_self current qrest)
      obtain ⟨sp1, sp2, sp3, sp4, E, hE1, hE2, hE3⟩ :=
        ebcNbrs_spec g hwf current (g.adj current) d s p qrest
          (fun _ hx => hx) hcq.1 hcq.2.2
      apply ih (ebcNbrs current (g.adj current) ⟨d, s, p, qrest⟩)
        (stack ++ [current]) r ?_ ?_ ?_ h
      · intro x hx
        rw [hE1] at hx
        rcases List.mem_append.mp hx with hx2 | hx2
        · have hqx := hq x (List.mem_cons_of_mem current hx2)
          exact ⟨by rw [sp3 x hqx.1]; exact hqx.1, hqx.2.1,
            le_trans hqx.2.2 (sp1 x)⟩
        · have := hE2 x hx2
          exact ⟨this.2.1, this.1, this.2.2⟩
      · intro x hx
        rcases List.mem_append.mp hx with hx2 | hx2
        · exact le_trans (hs x hx2) (sp1 x)
        · rw [List.mem_singleton] at hx2
          subst hx2
          rw [sp2]
          exact hcq.2.2
      · intro x pr hpr
        rcases sp4 x pr hpr with h2 | h2
        · exact hp x pr h2
        · obtain ⟨rfl, hx⟩ := h2
          exact hx

lemma ebcBFS_exists (g : UGraph) (hwf : g.wf) :
    ∀ fuel (st : EbcBFSState) stack,
      (∀ x ∈ st.queue, st.dist x ≠ ⊤ ∧ x ∈ g.nodes ∧ 1 ≤ st.sigma x) →
      st.queue.length + topCount g st.dist < fuel →
      ∃ r, ebcBFS g fuel st stack = some r := by
  intro fuel
  induction fuel with
  | zero => intro st stack _ h; omega
  | succ fuel ih =>
    intro st
    obtain ⟨d, s, p, q⟩ := st
    intro stack hq hm
    dsimp only at hq hm
    cases q with
    | nil => exact ⟨(stack, ⟨d, s, p, []⟩), rfl⟩
    | cons current qrest =>
      have hcq := hq current (List.mem_cons_self current qrest)
      obtain ⟨sp1, sp2, sp3, sp4, E, hE1, hE2, hE3⟩ :=
        ebcNbrs_spec g hwf current (g.adj current) d s p qrest
          (fun _ hx => hx) hcq.1 hcq.2.2
      have hinv : ∀ x ∈ (ebcNbrs current (g.adj current) ⟨d, s, p, qrest⟩).queue,
          (ebcNbrs current (g.adj current) ⟨d, s, p, qrest⟩).dist x ≠ ⊤ ∧
          x ∈ g.nodes ∧
          1 ≤ (ebcNbrs current (g.adj current) ⟨d, s, p, qrest⟩).sigma x := by
        intro x hx
        rw [hE1] at hx
        rcases List.mem_append.mp hx with hx2 | hx2
        · have hqx := hq x (List.mem_cons_of_mem current hx2)
          exact ⟨by rw [sp3 x hqx.1]; exact hqx.1, hqx.2.1,
            le_trans hqx.2.2 (sp1 x)⟩
        · have := hE2 x hx2
          exact ⟨this.2.1, this.1, this.2.2⟩
      have hmeas :
          (ebcNbrs current (g.adj current) ⟨d, s, p, qrest⟩).queue.length +
          topCount g (ebcNbrs current (g.adj current) ⟨d, s, p, qrest⟩).dist <
          fuel := by
        rw [hE1, List.length_append]
        simp only [List.length_cons] at hm
        omega
      obtain ⟨r, hr⟩ := ih (ebcNbrs current (g.adj current) ⟨d, s, p, qrest⟩)
        (stack ++ [current]) hinv hmeas
      exact ⟨r, hr⟩

lemma ebcPreds_ok (s : ℕ → ℕ) (node : ℕ) (hs : s node ≠ 0) :
    ∀ (l : List ℕ) (ebc : Dict (ℕ × ℕ) ℚ) (delta : ℕ → ℚ),
      (∀ pr ∈ l, sortPair node pr ∈ dkeys ebc) →
      ∃ r, ebcPreds s node l ebc delta = .ok r ∧ dkeys r.1 = dkeys ebc := by
  intro l
  induction l with
  | nil => exact fun ebc delta _ => ⟨(ebc, delta), rfl, rfl⟩
  | cons pr rest ih =>
    intro ebc delta hl
    simp only [ebcPreds, pydiv]
    rw [if_neg (show ¬((s node : ℚ) = 0) from by exact_mod_cast hs)]
    have hkey : sortPair node pr ∈ dkeys ebc := hl pr (List.mem_cons_self pr rest)
    obtain ⟨c, hc⟩ := Option.isSome_iff_exists.mp
      ((mem_dkeys_iff_isSome ebc _).mp hkey)
    rw [hc]
    obtain ⟨r, hr, hkeys⟩ := ih
      (dset ebc (sortPair node pr)
        (c + (s pr : ℚ) / (s node : ℚ) * (1 + delta node)))
      (Function.update delta pr
        (delta pr + (s pr : ℚ) / (s node : ℚ) * (1 + delta node)))
      (fun x hx => by
        rw [dkeys_dset_of_mem _ _ _ hkey]
        exact hl x (List.mem_cons_of_mem pr hx))
    exact ⟨r, hr, by rw [hkeys, dkeys_dset_of_mem _ _ _ hkey]⟩

lemma ebcStack_ok (s : ℕ → ℕ) (p : ℕ → List ℕ) :
    ∀ (l : List ℕ) (ebc : Dict (ℕ × ℕ) ℚ) (delta : ℕ → ℚ),
      (∀ node ∈ l, s node ≠ 0) →
      (∀ node ∈ l, ∀ pr ∈ p node, sortPair node pr ∈ dkeys ebc) →
      ∃ d2, ebcStack s p l ebc delta = .ok d2 ∧ dkeys d2 = dkeys ebc := by
  intro l
  induction l with
  | nil => exact fun ebc delta _ _ => ⟨ebc, rfl, rfl⟩
  | cons node rest ih =>
    intro ebc delta h1 h2
    simp only [ebcStack]
    obtain ⟨r, hr, hkeys⟩ := ebcPreds_ok s node
      (h1 node (List.mem_cons_self node rest)) (p node) ebc delta
      (h2 node (List.mem_cons_self node rest))
    rw [hr]
    obtain ⟨d2, hd2, hk2⟩ := ih r.1 r.2
      (fun x hx => h1 x (List.mem_cons_of_mem node hx))
      (fun x hx pr hpr => by
        rw [hkeys]
        exact h2 x (List.mem_cons_of_mem node hx) pr hpr)
    exact ⟨d2, hd2, hk2.trans hkeys⟩

lemma ebcSource_ok (g : UGraph) (hwf : g.wf) (fuel source : ℕ)
    (hsource : source ∈ g.nodes) (hfuel : g.nodes.length + 2 ≤ fuel)
    (ebc : Dict (ℕ × ℕ) ℚ)
    (hkeys : ∀ x pr, x ∈ g.adj pr → sortPair x pr ∈ dkeys ebc) :
    ∃ d2, ebcSource g fuel source ebc = some (.ok d2) ∧
      dkeys d2 = dkeys ebc := by
  have hq : ∀ x ∈ [source],
      (Function.update (fun _ => (⊤ : WithTop ℕ)) source 0) x ≠ ⊤ ∧
      x ∈ g.nodes ∧ 1 ≤ (Function.update (fun _ => 0) source 1) x := by
    intro x hx
    rw [List.mem_singleton] at hx
    subst hx
    rw [Function.update_same, Function.update_same]
    exact ⟨by simp, hsource, le_refl 1⟩
  obtain ⟨r, hr⟩ := ebcBFS_exists g hwf fuel
    ⟨Function.update (fun _ => ⊤) source 0,
     Function.update (fun _ => 0) source 1, fun _ => [], [source]⟩ [] hq
    (by
      have h1 : topCount g (Function.update (fun _ => (⊤ : WithTop ℕ)) source 0) ≤
          g.nodes.length := List.countP_le_length _
      dsimp only
      simp only [List.length_singleton]
      omega)
  have hsp := ebcBFS_spec g hwf fuel
    ⟨Function.update (fun _ => ⊤) source 0,
     Function.update (fun _ => 0) source 1, fun _ => [], [source]⟩ [] r hq
    (fun x hx => (List.not_mem_nil x hx).elim)
    (fun x pr hpr => (List.not_mem_nil pr hpr).elim) hr
  obtain ⟨d2, hd2, hk2⟩ := ebcStack_ok r.2.sigma r.2.preds r.1.reverse ebc
    (fun _ => 0)
    (fun node hn => by
      have := hsp.1 node (List.mem_reverse.mp hn)
      omega)
    (fun node hn pr hpr => hkeys node pr (hsp.2 node pr hpr))
  refine ⟨d2, ?_, hk2⟩
  simp only [ebcSource]
  rw [hr]
  show some (ebcStack r.2.sigma r.2.preds r.1.reverse ebc fun _ => 0) =
    some (Except.ok d2)
  rw [hd2]

lemma ebcGo_ok (g : UGraph) (hwf : g.wf) (fuel : ℕ)
    (hfuel : g.nodes.length + 2 ≤ fuel) :
    ∀ (srcs : List ℕ) (ebc : Dict (ℕ × ℕ) ℚ), (∀ s0 ∈ srcs, s0 ∈ g.nodes) →
      (∀ x pr, x ∈ g.adj pr → sortPair x pr ∈ dkeys ebc) →
      ∃ d2, ebcGo g fuel srcs ebc = some (.ok d2) ∧
        dkeys d2 = dkeys ebc := by
  intro srcs
  induction srcs with
  | nil => exact fun ebc _ _ => ⟨ebc, rfl, rfl⟩
  | cons s0 rest ih =>
    intro ebc hsrcs hkeys
    simp only [ebcGo]
    obtain ⟨d2, hd2, hk2⟩ := ebcSource_ok g hwf fuel s0
      (hsrcs s0 (List.mem_cons_self s0 rest)) hfuel ebc hkeys
    rw [hd2]
    obtain ⟨d3, hd3, hk3⟩ := ih d2
      (fun x hx => hsrcs x (List.mem_cons_of_mem s0 hx))
      (fun x pr hadj => by rw [hk2]; exact hkeys x pr hadj)
    exact ⟨d3, hd3, hk3.trans hk2⟩

lemma edge_betweenness_ok (g : UGraph) (hwf : g.wf) (fuel : ℕ)
    (hfuel : g.nodes.length + 2 ≤ fuel) :
    ∃ d, edge_betweenness_centrality g fuel = some (.ok d) ∧
      dkeys d = edgesOf g := by
  have hkey0 : dkeys ((edgesOf g).map (fun e => (e, (0 : ℚ)))) = edgesOf g := by
    have hcomp : (Prod.fst ∘ fun e : ℕ × ℕ => (e, (0 : ℚ))) = id := rfl
    simp [dkeys, List.map_map, hcomp]
  obtain ⟨d2, hd2, hk2⟩ := ebcGo_ok g hwf fuel hfuel g.nodes _
    (fun x hx => hx)
    (fun x pr hadj => by rw [hkey0]; exact sortPair_mem_edgesOf hwf hadj)
  refine ⟨d2.map (fun kv => (kv.1, kv.2 / 2)), ?_, ?_⟩
  · simp only [edge_betweenness_centrality]
    rw [hd2]
  · have hcomp2 : (Prod.fst ∘ fun kv : (ℕ × ℕ) × ℚ => (kv.1, kv.2 / 2)) =
        Prod.fst := rfl
    have : dkeys (d2.map fun kv => (kv.1, kv.2 / 2)) = dkeys d2 := by
      simp [dkeys, List.map_map, hcomp2]
    rw [this, hk2, hkey0]

lemma pymaxVal_mem : ∀ (rest : List ((ℕ × ℕ) × ℚ)) (best : (ℕ × ℕ) × ℚ),
    pymaxVal best rest = best.1 ∨ pymaxVal best rest ∈ rest.map Prod.fst := by
  intro rest
  induction rest with
  | nil => exact fun best => Or.inl rfl
  | cons kv t ih =>
    intro best
    simp only [pymaxVal]
    split
    · rcases ih kv with h | h
      · exact Or.inr (by rw [h]; exact List.mem_map_of_mem _ (List.mem_cons_self kv t))
      · exact Or.inr (by rw [List.map_cons]; exact List.mem_cons_of_mem _ h)
    · rcases ih best with h | h
      · exact Or.inl h
      · exact Or.inr (by rw [List.map_cons]; exact List.mem_cons_of_mem _ h)

lemma edge_to_remove_ok (g : UGraph) (hwf : g.wf) (fuel : ℕ)
    (hfuel : g.nodes.length + 2 ≤ fuel) (hne : edgesOf g ≠ []) :
    ∃ e, edge_to_remove g fuel = some (.ok e) ∧ e ∈ edgesOf g := by
  obtain ⟨d, hd, hk⟩ := edge_betweenness_ok g hwf fuel hfuel
  simp only [edge_to_remove]
  rw [hd]
  cases hdd : d with
  | nil =>
    exfalso
    apply hne
    rw [← hk, hdd]
    rfl
  | cons kv rest =>
    refine ⟨pymaxVal kv rest, rfl, ?_⟩
    rw [← hk, hdd]
    rcases pymaxVal_mem rest kv with h | h
    · rw [h]
      exact List.mem_map_of_mem _ (List.mem_cons_self kv rest)
    · rw [show dkeys (kv :: rest) = kv.1 :: rest.map Prod.fst from rfl]
      exact List.mem_cons_of_mem _ h

/-! ### Girvan-Newman: termination of the removal loop -/

lemma gnLoop_ok (fuelE fuelC : ℕ) :
    ∀ n (g : UGraph) (sg : List (List ℕ)), g.wf →
      g.nodes.length + 2 ≤ fuelE → g.nodes.length < fuelC →
      (edgesOf g).toFinset.card < n →
      (∃ a b, a ∈ g.nodes ∧ b ∈ g.nodes ∧ a ≠ b) →
      (sg.length = 1 → ∀ x ∈ g.nodes, ∀ y ∈ g.nodes, UReach g x y) →
      sg ≠ [] →
      ∃ r, gnLoop fuelE fuelC n g sg = some (.ok r) ∧ 1 < r.length := by
  intro n
  induction n with
  | zero => intro g sg _ _ _ hcard _ _ _; omega
  | succ n ih =>
    intro g sg hwf hfE hfC hcard hab hconn hne
    by_cases hlen : sg.length = 1
    · have hreach := hconn hlen
      obtain ⟨a, b, ha, hb, hab2⟩ := hab
      have hedge : edgesOf g ≠ [] :=
        edgesOf_ne_nil_of_reach hwf (hreach a ha b hb) hab2
      obtain ⟨e, he, hemem⟩ := edge_to_remove_ok g hwf fuelE hfE hedge
      have hef := edge_facts hwf hemem
      have hne12 : e.1 ≠ e.2 := Nat.ne_of_lt hef.2.2.2
      have hwf2 : (removeEdge g e.1 e.2).wf := removeEdge_wf hwf hne12
      have hnodes2 : (removeEdge g e.1 e.2).nodes = g.nodes := rfl
      obtain ⟨sg2, hsg2⟩ := connected_components_exists (removeEdge g e.1 e.2)
        hwf2 fuelC (by rw [hnodes2]; exact hfC)
      have hsp := connected_components_spec _ hwf2 fuelC hsg2
      have hcard2 : (edgesOf (removeEdge g e.1 e.2)).toFinset.card < n := by
        have := card_edges_removeEdge hwf hef.2.2.2 hef.2.2.1
        omega
      obtain ⟨r, hr, hr2⟩ := ih (removeEdge g e.1 e.2) sg2 hwf2
        (by rw [hnodes2]; exact hfE) (by rw [hnodes2]; exact hfC) hcard2
        ⟨a, b, by rw [hnodes2]; exact ha, by rw [hnodes2]; exact hb, hab2⟩
        hsp.2 (hsp.1 (by rw [hnodes2]; exact List.ne_nil_of_mem ha))
      refine ⟨r, ?_, hr2⟩
      simp only [gnLoop]
      rw [if_pos hlen, he]
      show (match connected_components (removeEdge g e.1 e.2) fuelC with
        | none => none
        | some sg2 => gnLoop fuelE fuelC n (removeEdge g e.1 e.2) sg2) =
        some (Except.ok r)
      rw [hsg2]
      exact hr
    · refine ⟨sg, ?_, ?_⟩
      · simp only [gnLoop]
        rw [if_neg hlen]
      · have h1 : 0 < sg.length := List.length_pos.mpr hne
        omega

/-- C7: for every wellformed finite undirected graph with at least one
edge whose nodes all belong to one connected component, `girvan_newman`
terminates (succeeds for large enough fuel): every iteration removes the
single highest-betweenness edge — strictly shrinking the finite edge set
while the component count stays 1 — and the returned component list has
more than one element. -/
theorem girvan_newman_terminates (g : UGraph) (hwf : g.wf)
    (hedge : edgesOf g ≠ [])
    (hconn : ∀ x ∈ g.nodes, ∀ y ∈ g.nodes, UReach g x y) :
    ∃ fuelE fuelC fuel r,
      girvan_newman g fuelE fuelC fuel = some (.ok r) ∧ 1 < r.length := by
  obtain ⟨e0, he0⟩ := List.exists_mem_of_ne_nil _ hedge
  have hef := edge_facts hwf he0
  refine ⟨g.nodes.length + 2, g.nodes.length + 1,
    (edgesOf g).toFinset.card + 1, ?_⟩
  obtain ⟨sg, hsg⟩ := connected_components_exists g hwf (g.nodes.length + 1)
    (by omega)
  have hsp := connected_components_spec g hwf _ hsg
  obtain ⟨r, hr, hr2⟩ := gnLoop_ok (g.nodes.length + 2) (g.nodes.length + 1)
    ((edgesOf g).toFinset.card + 1) g sg hwf (le_refl _) (by omega) (by omega)
    ⟨e0.1, e0.2, hef.1, hef.2.1, Nat.ne_of_lt hef.2.2.2⟩
    (fun _ => hconn) (hsp.1 (List.ne_nil_of_mem hef.1))
  refine ⟨r, ?_, hr2⟩
  simp only [girvan_newman]
  rw [hsg]
  exact hr

/-- witness for `girvan_newman_terminates`: the two-node single-edge
graph 0 — 1 is wellformed, has an edge, is connected, and the theorem
applies. -/
theorem girvan_newman_terminates_witness :
    (⟨[0, 1], fun x => if x = 0 then [1] else if x = 1 then [0] else []⟩
      : UGraph).wf ∧
    edgesOf ⟨[0, 1], fun x => if x = 0 then [1] else if x = 1 then [0] else []⟩
      ≠ [] ∧
    (∀ x ∈ [0, 1], ∀ y ∈ [0, 1],
      UReach ⟨[0, 1], fun x => if x = 0 then [1] else if x = 1 then [0] else []⟩
        x y) ∧
    ∃ fuelE fuelC fuel r,
      girvan_newman
        ⟨[0, 1], fun x => if x = 0 then [1] else if x = 1 then [0] else []⟩
        fuelE fuelC fuel = some (.ok r) ∧ 1 < r.length := by
  have hwf : (⟨[0, 1], fun x => if x = 0 then [1] else if x = 1 then [0] else []⟩
      : UGraph).wf := by
    refine ⟨by decide, ?_, ?_, ?_, ?_⟩
    · intro u
      show (if u = 0 then [1] else if u = 1 then [0] else []).Nodup
      split_ifs <;> simp
    · intro u v hv
      constructor
      · show u ∈ [0, 1]
        by_cases h0 : u = 0
        · simp [h0]
        · by_cases h1 : u = 1
          · simp [h1]
          · simp only [h0, h1, if_false] at hv
            cases hv
      · show v ∈ [0, 1]
        by_cases h0 : u = 0
        · rw [h0] at hv
          simp at hv
          simp [hv]
        · by_cases h1 : u = 1
          · rw [h1] at hv
            simp at hv
            simp [hv]
          · simp only [h0, h1, if_false] at hv
            cases hv
    · intro u v
      constructor <;> intro h
      · have h2 : v ∈ (if u = 0 then [1] else if u = 1 then [0] else []) := h
        show u ∈ (if v = 0 then [1] else if v = 1 then [0] else [])
        split_ifs at h2 ⊢ <;> simp_all
      · have h2 : u ∈ (if v = 0 then [1] else if v = 1 then [0] else []) := h
        show v ∈ (if u = 0 then [1] else if u = 1 then [0] else [])
        split_ifs at h2 ⊢ <;> simp_all
    · intro u hu
      have hu2 : u ∈ (if u = 0 then [1] else if u = 1 then [0] else []) := hu
      split_ifs at hu2 with h0 h1
      · rw [List.mem_singleton] at hu2
        exact absurd (hu2.symm.trans h0) (by decide)
      · rw [List.mem_singleton] at hu2
        exact absurd (hu2.symm.trans h1) (by decide)
      · cases hu2
  have hedge : edgesOf
      ⟨[0, 1], fun x => if x = 0 then [1] else if x = 1 then [0] else []⟩
      ≠ [] := by decide
  have hconn : ∀ x ∈ [0, 1], ∀ y ∈ [0, 1],
      UReach ⟨[0, 1], fun x => if x = 0 then [1] else if x = 1 then [0] else []⟩
        x y := by
    have h01 : UReach
        ⟨[0, 1], fun x => if x = 0 then [1] else if x = 1 then [0] else []⟩
        0 1 := UReach.step UReach.refl (by decide)
    have h10 : UReach
        ⟨[0, 1], fun x => if x = 0 then [1] else if x = 1 then [0] else []⟩
        1 0 := UReach.step UReach.refl (by decide)
    intro x hx y hy
    rcases List.mem_cons.mp hx with rfl | hx2
    · rcases List.mem_cons.mp hy with rfl | hy2
      · exact UReach.refl
      · rw [List.mem_singleton] at hy2
        subst hy2
        exact h01
    · rw [List.mem_singleton] at hx2
      subst hx2
      rcases List.mem_cons.mp hy with rfl | hy2
      · exact h10
      · rw [List.mem_singleton] at hy2
        subst hy2
        exact UReach.refl
  exact ⟨hwf, hedge, hconn, girvan_newman_terminates _ hwf hedge hconn⟩

/-! ## single_source_shortest_path.py : point-to-point Dijkstra

Airport codes (strings in the source) are embedded as naturals via an
order-embedding of the codes; flight distances as `ℤ`.  The graph is the
`dict` of adjacency lists built by `find_best_route` (lines 32-42). -/

/-- graph construction of `find_best_route` (lines 35-42):
`graph[origin] = []` on first sight, then append
`(destination, distance)`. -/
def buildAdj (rows : List (ℕ × ℕ × ℤ)) : Dict ℕ (List (ℕ × ℤ)) :=
  rows.foldl (fun g r =>
    let g1 := if (dget? g r.1).isSome then g else dset g r.1 []
    dset g1 r.1 (dgetD g1 r.1 [] ++ [(r.2.1, r.2.2)])) []

/-- Python lexicographic `<` on lists of airport codes (used by `heapq`
to break full ties through the path component of the heap triples). -/
def listLtB : List ℕ → List ℕ → Bool
  | _, [] => false
  | [], _ :: _ => true
  | a :: as, b :: bs => if a < b then true else if b < a then false else listLtB as bs

/-- Python tuple `<=` on the heap triples `(distance, node, path)`. -/
def tripLe (x y : ℤ × ℕ × List ℕ) : Bool :=
  if x.1 < y.1 then true
  else if y.1 < x.1 then false
  else if x.2.1 < y.2.1 then true
  else if y.2.1 < x.2.1 then false
  else !(listLtB y.2.2 x.2.2)

/-- the minimal heap triple (first one on full ties). -/
def pqMin3 : List (ℤ × ℕ × List ℕ) → Option (ℤ × ℕ × List ℕ)
  | [] => none
  | x :: rest =>
    match pqMin3 rest with
    | none => some x
    | some m => if tripLe x m then some x else some m

/-- `heapq.heappop` on the triple heap viewed as a multiset: remove and
return a minimal entry. -/
def popMin3 (pq : List (ℤ × ℕ × List ℕ)) :
    Option ((ℤ × ℕ × List ℕ) × List (ℤ × ℕ × List ℕ)) :=
  match pqMin3 pq with
  | none => none
  | some m => some (m, pq.erase m)

/-- the `for neighbor, weight in graph.get(current_node, []):` loop of
`dijkstra` (lines 73-75): push `(current_distance + weight, neighbor,
path + [current_node])` for every unvisited neighbor. -/
def djPush (d : ℤ) (newPath : List ℕ) (visited : List ℕ) :
    List (ℕ × ℤ) → List (ℤ × ℕ × List ℕ) → List (ℤ × ℕ × List ℕ)
  | [], pq => pq
  | (nb, w) :: rest, pq =>
    if nb ∉ visited then
      djPush d newPath visited rest (pq ++ [(d + w, nb, newPath)])
    else djPush d newPath visited rest pq

/-- the `while pq:` loop of `dijkstra` (lines 63-75): pop the minimal
triple; if it is the target return `path + [current_node]` immediately;
otherwise, if unvisited, mark visited and push the unvisited neighbors.
`some none` is the `return None` of line 77; fuel bounds the
iterations. -/
def djLoop (g : Dict ℕ (List (ℕ × ℤ))) (target : ℕ) :
    ℕ → List (ℤ × ℕ × List ℕ) → List ℕ → Option (Option (List ℕ))
  | _, [], _ => some none
  | 0, _ :: _, _ => none
  | fuel + 1, p :: ps, visited =>
    match popMin3 (p :: ps) with
    | none => some none
    | some (m, rest) =>
      if m.2.1 = target then some (some (m.2.2 ++ [m.2.1]))
      else if m.2.1 ∉ visited then
        djLoop g target fuel
          (djPush m.1 (m.2.2 ++ [m.2.1]) (sadd visited m.2.1)
            (dgetD g m.2.1 []) rest)
          (sadd visited m.2.1)
      else djLoop g target fuel rest visited

/-- `dijkstra(start, target)` (lines 48-77): the heap starts as
`[(0, start, [])]` with an empty visited set. -/
def dijkstra (g : Dict ℕ (List (ℕ × ℤ))) (start target : ℕ) (fuel : ℕ) :
    Option (Option (List ℕ)) :=
  djLoop g target fuel [(0, start, [])] []

/-- the `Best_route` cell of a result row: either the joined path string
(determined by the path) or the literal `'No route found'`. -/
inductive RouteCell where
  | route : List ℕ → RouteCell
  | noRoute : RouteCell
deriving DecidableEq, Repr

/-- `'No route found' if not shortest_path else ' -> '.join(...)`
(lines 85-96): Python truthiness sends both `None` and an empty list to
the `'No route found'` branch. -/
def bestRouteCell (res : Option (List ℕ)) : RouteCell :=
  match res with
  | some path => if path = [] then .noRoute else .route path
  | none => .noRoute

/-- one result row of `find_best_route` (lines 84-96): the airport pair
plus the `Best_route` cell. -/
def routeRow (g : Dict ℕ (List (ℕ × ℤ))) (o dst fuel : ℕ) :
    Option (ℕ × ℕ × RouteCell) :=
  match dijkstra g o dst fuel with
  | none => none
  | some res => some (o, dst, bestRouteCell res)

/-- the inner `for destination_airport in destination_airports:` loop of
`find_best_route` (lines 84-96). -/
def routeRowsFor (g : Dict ℕ (List (ℕ × ℤ))) (fuel o : ℕ) :
    List ℕ → Option (List (ℕ × ℕ × RouteCell))
  | [] => some []
  | dst :: rest =>
    match routeRow g o dst fuel with
    | none => none
    | some row =>
      match routeRowsFor g fuel o rest with
      | none => none
      | some rows => some (row :: rows)

/-- the result-row double loop of `find_best_route` (lines 82-96) over
the origin and destination airport lists. -/
def find_best_route (g : Dict ℕ (List (ℕ × ℤ))) (fuel : ℕ) :
    List ℕ → List ℕ → Option (List (ℕ × ℕ × RouteCell))
  | [], _ => some []
  | o :: os, dests =>
    match routeRowsFor g fuel o dests with
    | none => none
    | some rows =>
      match find_best_route g fuel os dests with
      | none => none
      | some more => some (rows ++ more)

/-- reachability in the flight adjacency dict. -/
inductive DjReach (g : Dict ℕ (List (ℕ × ℤ))) (s : ℕ) : ℕ → Prop
  | refl : DjReach g s s
  | step : ∀ {u v w}, DjReach g s u → (v, w) ∈ dgetD g u [] → DjReach g s v

/-- reachability along a walk all of whose nodes avoid `V`. -/
inductive AReach (g : Dict ℕ (List (ℕ × ℤ))) (V : List ℕ) : ℕ → ℕ → Prop
  | refl : ∀ {n}, n ∉ V → AReach g V n n
  | step : ∀ {n m t}, n ∉ V → (∃ w, (m, w) ∈ dgetD g n []) →
      AReach g V m t → AReach g V n t

/-! ### point-to-point Dijkstra: halting on the target and the no-route value -/

lemma pqMin3_mem : ∀ (pq : List (ℤ × ℕ × List ℕ)) m,
    pqMin3 pq = some m → m ∈ pq := by
  intro pq
  induction pq with
  | nil => intro m h; cases h
  | cons x rest ih =>
    intro m h
    cases hr : pqMin3 rest with
    | none =>
      simp only [pqMin3, hr] at h
      obtain rfl := Option.some.inj h
      exact List.mem_cons_self x rest
    | some m2 =>
      simp only [pqMin3, hr] at h
      by_cases hle : tripLe x m2 = true
      · rw [if_pos hle] at h
        obtain rfl := Option.some.inj h
        exact List.mem_cons_self x rest
      · rw [if_neg hle] at h
        obtain rfl := Option.some.inj h
        exact List.mem_cons_of_mem x (ih m2 hr)

lemma popMin3_cons (p : ℤ × ℕ × List ℕ) (ps : List (ℤ × ℕ × List ℕ)) :
    ∃ m, popMin3 (p :: ps) = some (m, (p :: ps).erase m) ∧ m ∈ p :: ps := by
  cases hm : pqMin3 (p :: ps) with
  | none =>
    exfalso
    cases hps : pqMin3 ps with
    | none =>
      simp only [pqMin3, hps] at hm
      cases hm
    | some m2 =>
      simp only [pqMin3, hps] at hm
      by_cases hle : tripLe p m2 = true
      · rw [if_pos hle] at hm; cases hm
      · rw [if_neg hle] at hm; cases hm
  | some m =>
    exact ⟨m, by simp only [popMin3, hm], pqMin3_mem _ m hm⟩

lemma filter_map_sum_mono (w : ℕ → ℕ) {pS pV : ℕ → Bool}
    (h : ∀ x, pS x = true → pV x = true) :
    ∀ t : List ℕ, ((t.filter pS).map w).sum ≤ ((t.filter pV).map w).sum := by
  intro t
  induction t with
  | nil => exact le_refl 0
  | cons c t ih =>
    simp only [List.filter_cons]
    by_cases hc : pS c = true
    · rw [if_pos hc, if_pos (h c hc)]
      simp only [List.map_cons, List.sum_cons]
      omega
    · rw [if_neg hc]
      by_cases hv : pV c = true
      · rw [if_pos hv]
        simp only [List.map_cons, List.sum_cons]
        omega
      · rw [if_neg hv]
        exact ih

/-- weighted count of the unvisited graph keys: the Dijkstra loop
measure (each unvisited key can contribute one visiting pop plus one
push per neighbor). -/
def wsum (g : Dict ℕ (List (ℕ × ℤ))) (vis : List ℕ) : ℕ :=
  (((dkeys g).filter (fun x => decide (x ∉ vis))).map
    (fun x => 1 + (dgetD g x []).length)).sum

lemma wsum_mono (g : Dict ℕ (List (ℕ × ℤ))) {vis vis' : List ℕ}
    (h : ∀ x ∈ vis, x ∈ vis') : wsum g vis' ≤ wsum g vis :=
  filter_map_sum_mono _ (fun x hx => by
    simp only [decide_eq_true_eq] at hx ⊢
    exact fun hm => hx (h x hm)) _

lemma sum_filter_sadd (w : ℕ → ℕ) {vis : List ℕ} {a : ℕ} (hv : a ∉ vis) :
    ∀ l : List ℕ, a ∈ l →
      ((l.filter (fun x => decide (x ∉ sadd vis a))).map w).sum + w a ≤
      ((l.filter (fun x => decide (x ∉ vis))).map w).sum := by
  intro l
  induction l with
  | nil => intro h; cases h
  | cons b t ih =>
    intro ha
    simp only [List.filter_cons]
    by_cases hba : b = a
    · subst hba
      rw [if_neg (by simp [sadd_self_mem]), if_pos (by simpa using hv)]
      simp only [List.map_cons, List.sum_cons]
      have hmono : ((t.filter (fun x => decide (x ∉ sadd vis b))).map w).sum ≤
          ((t.filter (fun x => decide (x ∉ vis))).map w).sum :=
        filter_map_sum_mono w (fun x hx => by
          simp only [decide_eq_true_eq] at hx ⊢
          exact fun hm => hx (sadd_subset vis b hm)) t
      omega
    · have hiff : (decide (b ∉ sadd vis a)) = (decide (b ∉ vis)) := by
        simp [mem_sadd, hba]
      have hat : a ∈ t := by
        rcases List.mem_cons.mp ha with h1 | h1
        · exact absurd h1.symm hba
        · exact h1
      rw [hiff]
      by_cases hbv : b ∈ vis
      · have hd : ¬(decide (b ∉ vis) = true) := by simp [hbv]
        rw [if_neg hd, if_neg hd]
        exact ih hat
      · have hd : decide (b ∉ vis) = true := by simpa using hbv
        rw [if_pos hd, if_pos hd]
        simp only [List.map_cons, List.sum_cons]
        have := ih hat
        omega

lemma wsum_sadd (g : Dict ℕ (List (ℕ × ℤ))) {vis : List ℕ} {a : ℕ}
    (hk : a ∈ dkeys g) (hv : a ∉ vis) :
    wsum g (sadd vis a) + (1 + (dgetD g a []).length) ≤ wsum g vis :=
  sum_filter_sadd _ hv _ hk

lemma djPush_subset (d : ℤ) (np visited : List ℕ) :
    ∀ (l : List (ℕ × ℤ)) pq, ∀ e ∈ pq, e ∈ djPush d np visited l pq := by
  intro l
  induction l with
  | nil => exact fun pq e he => he
  | cons x rest ih =>
    intro pq e he
    obtain ⟨nb, w⟩ := x
    simp only [djPush]
    split
    · exact ih _ e (List.mem_append_left _ he)
    · exact ih _ e he

lemma djPush_length (d : ℤ) (np visited : List ℕ) :
    ∀ (l : List (ℕ × ℤ)) pq,
      (djPush d np visited l pq).length ≤ pq.length + l.length := by
  intro l
  induction l with
  | nil => exact fun pq => by simp [djPush]
  | cons x rest ih =>
    intro pq
    obtain ⟨nb, w⟩ := x
    simp only [djPush]
    split
    · have h2 := ih (pq ++ [(d + w, nb, np)])
      rw [List.length_append] at h2
      simp only [List.length_cons, List.length_singleton, List.length_nil]
        at h2 ⊢
      omega
    · have h2 := ih pq
      simp only [List.length_cons]
      omega

lemma djPush_mem_node (d : ℤ) (np visited : List ℕ) :
    ∀ (l : List (ℕ × ℤ)) pq nb w, (nb, w) ∈ l → nb ∉ visited →
      ∃ e, e ∈ djPush d np visited l pq ∧ e.2.1 = nb := by
  intro l
  induction l with
  | nil => intro pq nb w h; cases h
  | cons x rest ih =>
    intro pq nb w h hnb
    obtain ⟨nb2, w2⟩ := x
    rcases List.mem_cons.mp h with heq | hmem
    · injection heq with h1 h2
      subst h1
      subst h2
      simp only [djPush]
      rw [if_pos (by simpa using hnb)]
      exact ⟨(d + w, nb, np),
        djPush_subset d np visited rest _ _
          (List.mem_append_right _ (List.mem_singleton_self _)), rfl⟩
    · simp only [djPush]
      split
      · exact ih _ nb w hmem hnb
      · exact ih _ nb w hmem hnb

lemma djPush_src (d : ℤ) (np visited : List ℕ) :
    ∀ (l : List (ℕ × ℤ)) pq e, e ∈ djPush d np visited l pq →
      e ∈ pq ∨ ∃ nb w, (nb, w) ∈ l ∧ e = (d + w, nb, np) := by
  intro l
  induction l with
  | nil => exact fun pq e he => Or.inl he
  | cons x rest ih =>
    intro pq e he
    obtain ⟨nb2, w2⟩ := x
    simp only [djPush] at he
    split at he
    · rcases ih _ e he with h1 | ⟨nb, w, hnb, heq⟩
      · rcases List.mem_append.mp h1 with h2 | h2
        · exact Or.inl h2
        · rw [List.mem_singleton] at h2
          exact Or.inr ⟨nb2, w2, List.mem_cons_self _ _, h2⟩
      · exact Or.inr ⟨nb, w, List.mem_cons_of_mem _ hnb, heq⟩
    · rcases ih _ e he with h1 | ⟨nb, w, hnb, heq⟩
      · exact Or.inl h1
      · exact Or.inr ⟨nb, w, List.mem_cons_of_mem _ hnb, heq⟩

lemma areach_head {g : Dict ℕ (List (ℕ × ℤ))} {V : List ℕ} {n t : ℕ}
    (h : AReach g V n t) : n ∉ V := by
  cases h with
  | refl hn => exact hn
  | step hn _ _ => exact hn

lemma areach_snoc : ∀ {g : Dict ℕ (List (ℕ × ℤ))} {V : List ℕ} {s u v : ℕ},
    AReach g V s u → (∃ w, (v, w) ∈ dgetD g u []) → v ∉ V →
    AReach g V s v := by
  intro g V s u v h
  induction h with
  | refl hn =>
    intro hedge hv
    exact AReach.step hn hedge (AReach.refl hv)
  | step hn he hrest ih =>
    intro hedge hv
    exact AReach.step hn he (ih hedge hv)

lemma djreach_to_areach {g : Dict ℕ (List (ℕ × ℤ))} {s t : ℕ}
    (h : DjReach g s t) : AReach g [] s t := by
  induction h with
  | refl => exact AReach.refl (List.not_mem_nil s)
  | step h1 hedge ih => exact areach_snoc ih ⟨_, hedge⟩ (List.not_mem_nil _)

lemma areach_visit : ∀ {g : Dict ℕ (List (ℕ × ℤ))} {V : List ℕ} {n t c : ℕ},
    AReach g V n t → t ≠ c →
    (AReach g (sadd V c) n t ∨
      ∃ m, (∃ w, (m, w) ∈ dgetD g c []) ∧ AReach g (sadd V c) m t) := by
  intro g V n t c h
  induction h with
  | refl hn =>
    intro htc
    left
    refine AReach.refl ?_
    rw [mem_sadd]
    rintro (h1 | h1)
    · exact hn h1
    · exact htc h1
  | step hn hedge hrest ih =>
    intro htc
    rcases ih htc with ih2 | ih2
    · rename_i n2 m2 t2
      by_cases hnc : n2 = c
      · subst hnc
        exact Or.inr ⟨m2, hedge, ih2⟩
      · left
        refine AReach.step ?_ hedge ih2
        rw [mem_sadd]
        rintro (h1 | h1)
        · exact hn h1
        · exact hnc h1
    · exact Or.inr ih2

lemma djLoop_spec (g : Dict ℕ (List (ℕ × ℤ))) (start target : ℕ) :
    ∀ fuel pq visited,
      (∀ e ∈ pq, DjReach g start e.2.1) →
      pq.length + wsum g visited < fuel →
      ∃ res, djLoop g target fuel pq visited = some res ∧
        (∀ path, res = some path → DjReach g start target ∧ path ≠ [] ∧
          path.getLast? = some target) ∧
        (res = none → ∀ e ∈ pq, ¬AReach g visited e.2.1 target) := by
  intro fuel
  induction fuel with
  | zero => intro pq visited _ h; omega
  | succ fuel ih =>
    intro pq visited hsound hm
    cases pq with
    | nil =>
      refine ⟨none, rfl, ?_, ?_⟩
      · intro path h; cases h
      · exact fun _ e he => absurd he (List.not_mem_nil e)
    | cons p ps =>
      obtain ⟨m, hpop, hmem⟩ := popMin3_cons p ps
      have hrest_len : ((p :: ps).erase m).length = ps.length := by
        rw [List.length_erase_of_mem hmem, List.length_cons]
        omega
      by_cases htgt : m.2.1 = target
      · refine ⟨some (m.2.2 ++ [m.2.1]), ?_, ?_, ?_⟩
        · simp only [djLoop]
          rw [hpop]
          simp only [if_pos htgt]
        · intro path h
          obtain rfl := Option.some.inj h
          refine ⟨htgt ▸ hsound m hmem, by simp, ?_⟩
          rw [List.getLast?_concat, htgt]
        · intro h; cases h
      · by_cases hvis : m.2.1 ∈ visited
        · have hs2 : ∀ e ∈ (p :: ps).erase m, DjReach g start e.2.1 :=
            fun e he => hsound e (List.mem_of_mem_erase he)
          have hm2 : ((p :: ps).erase m).length + wsum g visited < fuel := by
            rw [hrest_len]
            simp only [List.length_cons] at hm
            omega
          obtain ⟨res, hres, hsome, hnone⟩ := ih _ visited hs2 hm2
          refine ⟨res, ?_, hsome, ?_⟩
          · simp only [djLoop]
            rw [hpop]
            simp only [if_neg htgt]
            rw [if_neg (by simpa using hvis)]
            exact hres
          · intro h e he hA
            have hne : e ≠ m := by
              intro heq
              apply areach_head hA
              rw [heq]
              exact hvis
            exact hnone h e ((List.mem_erase_of_ne hne).mpr he) hA
        · have hnp_sound : ∀ e ∈ djPush m.1 (m.2.2 ++ [m.2.1])
              (sadd visited m.2.1) (dgetD g m.2.1 []) ((p :: ps).erase m),
              DjReach g start e.2.1 := by
            intro e he
            rcases djPush_src _ _ _ _ _ e he with h1 | ⟨nb, w, hnb, heq⟩
            · exact hsound e (List.mem_of_mem_erase h1)
            · rw [heq]
              exact DjReach.step (hsound m hmem) hnb
          have hlen_push := djPush_length m.1 (m.2.2 ++ [m.2.1])
            (sadd visited m.2.1) (dgetD g m.2.1 []) ((p :: ps).erase m)
          have hm2 : (djPush m.1 (m.2.2 ++ [m.2.1]) (sadd visited m.2.1)
              (dgetD g m.2.1 []) ((p :: ps).erase m)).length +
              wsum g (sadd visited m.2.1) < fuel := by
            rw [hrest_len] at hlen_push
            simp only [List.length_cons] at hm
            by_cases hk : m.2.1 ∈ dkeys g
            · have hw := wsum_sadd g hk hvis
              omega
            · have hget : dgetD g m.2.1 [] = [] := by
                rw [dgetD, dget?_eq_none_of_not_mem_keys _ _ hk]
                rfl
              have hlen0 : (dgetD g m.2.1 []).length = 0 := by
                rw [hget]
                rfl
              have hw := wsum_mono g (sadd_subset visited m.2.1)
              omega
          obtain ⟨res, hres, hsome, hnone⟩ := ih _ (sadd visited m.2.1)
            hnp_sound hm2
          refine ⟨res, ?_, hsome, ?_⟩
          · simp only [djLoop]
            rw [hpop]
            simp only [if_neg htgt]
            rw [if_pos (by simpa using hvis)]
            exact hres
          · intro h e he hA
            have htc : target ≠ m.2.1 := fun hh => htgt hh.symm
            rcases areach_visit hA htc with hA2 | ⟨m2, hedge2, hA2⟩
            · have hne : e ≠ m := by
                intro heq
                apply areach_head hA2
                rw [heq, mem_sadd]
                exact Or.inr rfl
              exact hnone h e
                (djPush_subset _ _ _ _ _ e ((List.mem_erase_of_ne hne).mpr he))
                hA2
            · obtain ⟨w2, hw2⟩ := hedge2
              have hm2nv : m2 ∉ sadd visited m.2.1 := areach_head hA2
              obtain ⟨e2, he2, he2n⟩ := djPush_mem_node m.1 (m.2.2 ++ [m.2.1])
                (sadd visited m.2.1) (dgetD g m.2.1 []) ((p :: ps).erase m)
                m2 w2 hw2 hm2nv
              refine hnone h e2 he2 ?_
              rw [he2n]
              exact hA2

/-- C9: in single-target mode the search halts as soon as the target is
popped, returning the recorded path extended by the target (whatever the
remaining queue and visited set are); and for every start/target pair the
search terminates with `Some path` exactly when the target is reachable,
the result row carrying the explicit `'No route found'` value — never an
exception, a null row or an empty path — exactly when it is not. -/
theorem dijkstra_halts_on_target_and_reports_no_route
    (g : Dict ℕ (List (ℕ × ℤ))) (start target : ℕ) :
    (∀ fuel d path p ps rest visited,
        popMin3 (p :: ps) = some ((d, target, path), rest) →
        djLoop g target (fuel + 1) (p :: ps) visited =
          some (some (path ++ [target]))) ∧
    ∃ fuel res, dijkstra g start target fuel = some res ∧
      (res = none ↔ ¬DjReach g start target) ∧
      (∀ path, res = some path → path ≠ [] ∧
        path.getLast? = some target) ∧
      routeRow g start target fuel = some (start, target, bestRouteCell res) ∧
      (bestRouteCell res = RouteCell.noRoute ↔ res = none) := by
  constructor
  · intro fuel d path p ps rest visited hpop
    simp only [djLoop]
    rw [hpop]
    simp
  · have h0 : ∀ e ∈ [((0 : ℤ), start, ([] : List ℕ))], DjReach g start e.2.1 := by
      intro e he
      rw [List.mem_singleton] at he
      subst he
      exact DjReach.refl
    obtain ⟨res, hres, hsome, hnone⟩ := djLoop_spec g start target
      (wsum g [] + 2) [((0 : ℤ), start, [])] [] h0
      (by simp only [List.length_singleton]; omega)
    refine ⟨wsum g [] + 2, res, hres, ?_, ?_, ?_, ?_⟩
    · constructor
      · intro h hreach
        exact hnone h ((0 : ℤ), start, ([] : List ℕ))
          (List.mem_singleton_self _) (djreach_to_areach hreach)
      · intro hn
        cases res with
        | none => rfl
        | some path => exact absurd (hsome path rfl).1 hn
    · exact fun path h => (hsome path h).2
    · simp only [routeRow, dijkstra]
      rw [show djLoop g target (wsum g [] + 2) [((0 : ℤ), start, [])] [] =
        some res from hres]
    · constructor
      · intro hcell
        cases res with
        | none => rfl
        | some path =>
          have hne := (hsome path rfl).2.1
          simp only [bestRouteCell] at hcell
          rw [if_neg hne] at hcell
          cases hcell
      · intro h
        subst h
        rfl

/-- witness for `dijkstra_halts_on_target_and_reports_no_route`: the
theorem instantiated at the one-flight graph 0 → 1 (distance 5) with
start 0 and target 1. -/
theorem dijkstra_halts_on_target_and_reports_no_route_witness :
    ∃ fuel res, dijkstra [(0, [(1, 5)])] 0 1 fuel = some res ∧
      (res = none ↔ ¬DjReach [(0, [(1, 5)])] 0 1) ∧
      (∀ path, res = some path → path ≠ [] ∧ path.getLast? = some 1) ∧
      routeRow [(0, [(1, 5)])] 0 1 fuel = some (0, 1, bestRouteCell res) ∧
      (bestRouteCell res = RouteCell.noRoute ↔ res = none) :=
  (dijkstra_halts_on_target_and_reports_no_route [(0, [(1, 5)])] 0 1).2

end HW5
